import Mathlib

/-!
Verification of the prefix-compressed abstract codec of the Portland STV CVR
repository ("Restructured Repo/CVRs").

The embedding models Python strings as `List Char` (Python strings are code
point sequences) and the text artifact written by
`3_generate_abstracts.py : RankingAbstract.generate_abstract` as a list of
lines (the Python code writes each line with a trailing newline and the
decoder `4_verify_abstracts.py : load_abstract_profile` reads them back with
`readlines`).  Pure functions of the source become Lean functions; the
decoder's line loop becomes a fold over an explicit state record; the fatal
`KeyError` raised on an unknown candidate ID becomes `Option` (`none` models
the uncaught exception that aborts `load_abstract_profile`).

Counts parsed by the decoder are `Int` (Python `int` may be negative for a
crafted file); counts of the original preference profile are `Nat` (they come
from a `Counter`).
-/

/-! ### Python string primitives over `List Char` -/

/-- Python strings modelled as lists of code points. -/
abbrev Str := List Char

def isWs (c : Char) : Bool := c.isWhitespace

/-- Python `str.strip()` (whitespace on both ends). -/
def trimStr (l : Str) : Str := ((l.dropWhile isWs).reverse.dropWhile isWs).reverse

/-- Splitting at every character satisfying `p`, keeping empty pieces
(the behaviour of Python `str.split(sep)` for a one-character `sep`
when `p` matches exactly `sep`). -/
def splitPred (p : Char → Bool) : Str → List Str
  | [] => [[]]
  | c :: cs =>
    match splitPred p cs with
    | [] => [[]]
    | h :: t => if p c then [] :: h :: t else (c :: h) :: t

/-- Python `line.split(c)` for a single-character separator. -/
def splitOnChar (c : Char) (l : Str) : List Str := splitPred (fun x => x == c) l

/-- Python `s.split()` with no argument: maximal non-whitespace runs,
empty pieces dropped. -/
def pySplitWs (l : Str) : List Str := (splitPred isWs l).filter (fun s => !s.isEmpty)

/-- Worker loop for `replaceAll` (nonempty pattern `c :: cs`), with an
explicit iteration bound `fuel ≥ length of the remaining string` so the
recursion is structural; `replaceGo` below instantiates the bound, and
`replaceGo_cons` recovers the loop's defining equation. -/
def replaceGoF (c : Char) (cs rep : Str) : Nat → Str → Str
  | _, [] => []
  | 0, l => l
  | fuel + 1, x :: xs =>
    if (c :: cs).isPrefixOf (x :: xs) then rep ++ replaceGoF c cs rep fuel (xs.drop cs.length)
    else x :: replaceGoF c cs rep fuel xs

def replaceGo (c : Char) (cs rep : Str) (l : Str) : Str := replaceGoF c cs rep l.length l

/-- Python `s.replace(pat, rep)` (all occurrences, left to right).  The
source never calls `replace` with an empty pattern, so the `[]` case just
returns the string. -/
def replaceAll (pat rep l : Str) : Str :=
  match pat with
  | [] => l
  | c :: cs => replaceGo c cs rep l

/-- Numeric value of a decimal digit character. -/
def digitVal (c : Char) : Nat := c.toNat - 48

/-- Remaining digits of a Python `int()` literal after the first digit;
single underscores are allowed between digits (PEP 515). -/
def digitsCore (acc : Nat) : Str → Option Nat
  | [] => some acc
  | c :: rest =>
    if c = '_' then
      match rest with
      | [] => none
      | c2 :: rest2 => if c2.isDigit then digitsCore (10 * acc + digitVal c2) rest2 else none
    else if c.isDigit then digitsCore (10 * acc + digitVal c) rest
    else none

/-- Python `int(s)` on an already-stripped string: optional sign followed by
ASCII decimal digits (`None` models `ValueError`). -/
def pyInt? (l : Str) : Option Int :=
  match l with
  | [] => none
  | c :: rest =>
    if c = '-' then
      match rest with
      | [] => none
      | c2 :: rest2 =>
        if c2.isDigit then (digitsCore (digitVal c2) rest2).map (fun n => -(n : Int)) else none
    else if c = '+' then
      match rest with
      | [] => none
      | c2 :: rest2 =>
        if c2.isDigit then (digitsCore (digitVal c2) rest2).map (fun n => (n : Int)) else none
    else if c.isDigit then (digitsCore (digitVal c) rest).map (fun n => (n : Int))
    else none

def digitChar10 (d : Nat) : Char :=
  match d with
  | 0 => '0'
  | 1 => '1'
  | 2 => '2'
  | 3 => '3'
  | 4 => '4'
  | 5 => '5'
  | 6 => '6'
  | 7 => '7'
  | 8 => '8'
  | _ => '9'

/-- Decimal rendering with an explicit recursion bound (`fuel > n`
suffices); `natDigits` instantiates it and `natDigits_eq` recovers the
defining equation `str(n)`. -/
def natDigitsGo : Nat → Nat → Str
  | 0, _ => []
  | fuel + 1, n =>
    if n < 10 then [digitChar10 n]
    else natDigitsGo fuel (n / 10) ++ [digitChar10 (n % 10)]

/-- Decimal rendering of a natural number (Python `str(n)` / `f"{n}"`). -/
def natDigits (n : Nat) : Str := natDigitsGo (n + 1) n

/-- Python `f"C{i+1:02d}"`: candidate ID for 0-based position `i`
(zero-padded to at least two digits). -/
def cidOf (i : Nat) : Str :=
  'C' :: (if i + 1 < 10 then '0' :: natDigits (i + 1) else natDigits (i + 1))

/-- Python `sep.join(parts)`. -/
def joinSep (sep : Str) : List Str → Str
  | [] => []
  | [a] => a
  | a :: b :: rest => a ++ sep ++ joinSep sep (b :: rest)

/-! ### Data model -/

/-- A candidate name (Python string). -/
abbrev Name := List Char

/-- A ranking: ordered sequence of candidate names. -/
abbrev Ranking := List Name

/-- A preference profile as built by the encoder (`ranking tuple -> count`),
as an association list with distinct keys. -/
abbrev ProfileN := List (Ranking × Nat)

/-- A reconstructed profile as built by the decoder (Python `int` counts). -/
abbrev ProfileZ := List (Ranking × Int)

/-- The decoder's candidate legend: ID string to candidate name. -/
abbrev Legend := List (Str × Name)

/-- Lookup in a Python dict modelled as an association list (first match). -/
def lookupP {K V : Type} [DecidableEq K] (m : List (K × V)) (k : K) : Option V :=
  (m.find? (fun e => decide (e.1 = k))).map (fun e => e.2)

/-- Python `d.get(k, 0)`. -/
def lookupD {K : Type} [DecidableEq K] (m : List (K × Int)) (k : K) : Int :=
  (lookupP m k).getD 0

/-- Python `d[k] = v`: replace the value of an existing key in place,
otherwise append the new binding.  (All dicts in this development start
empty and are only written through `dictSet`, so keys are always distinct
and replacing the first occurrence is replacing the only one.) -/
def dictSet {K V : Type} [DecidableEq K] : List (K × V) → K → V → List (K × V)
  | [], k, v => [(k, v)]
  | e :: rest, k, v => if e.1 = k then (k, v) :: rest else e :: dictSet rest k v

/-! ### Canonical order and profile sorting -/

def insertSorted {α : Type} (lt : α → α → Bool) (a : α) : List α → List α
  | [] => [a]
  | b :: bs => if lt a b then a :: b :: bs else b :: insertSorted lt a bs

/-- Comparison sort (model of Python `sorted`; all call sites sort lists
whose sort keys are pairwise distinct, so any comparison sort computes the
same list as Python's stable sort). -/
def sortByLt {α : Type} (lt : α → α → Bool) (l : List α) : List α :=
  l.foldr (insertSorted lt) []

def charLt (a b : Char) : Bool := decide (a.toNat < b.toNat)

/-- Lexicographic (code point) comparison of Python strings. -/
def nameLt : Name → Name → Bool
  | [], [] => false
  | [], _ :: _ => true
  | _ :: _, [] => false
  | a :: as, b :: bs => if a = b then nameLt as bs else charLt a b

/-- Lexicographic comparison of index tuples (Python tuple `<`). -/
def lexLtN : List Nat → List Nat → Bool
  | [], [] => false
  | [], _ :: _ => true
  | _ :: _, [] => false
  | a :: as, b :: bs => if a = b then lexLtN as bs else decide (a < b)

/-- Source `get_canonical_candidate_order`: `sorted(list(self.candidates))`.
The candidate set accumulated by `load_ballots` is exactly the set of names
occurring in the profile's rankings. -/
def get_canonical_candidate_order (P : ProfileN) : List Name :=
  sortByLt nameLt ((P.map Prod.fst).flatten.dedup)

/-- Source `candidate_to_idx[c]`: position of a candidate in canonical
order. -/
def candidate_to_idx (order : List Name) (n : Name) : Nat := order.indexOf n

/-- Source `ranking_key`: a ranking mapped to its candidate-index tuple. -/
def ranking_key (order : List Name) (r : Ranking) : List Nat :=
  r.map (candidate_to_idx order)

/-- Source `get_sorted_rankings`: profile entries sorted by the
candidate-index tuples of their rankings. -/
def get_sorted_rankings (order : List Name) (P : ProfileN) : ProfileN :=
  sortByLt (fun a b => lexLtN (ranking_key order a.1) (ranking_key order b.1)) P

/-! ### Prefix-grouping compressor (`3_generate_abstracts.py`) -/

/-- Longest common prefix of two rankings. -/
def commonPfx2 : Ranking → Ranking → Ranking
  | a :: as, b :: bs => if a = b then a :: commonPfx2 as bs else []
  | _, _ => []

/-- Source `find_common_prefix(rankings, 0, len(rankings))`: returns the
empty tuple for fewer than two rankings (the `start >= end` and
`start + 1 >= end` early returns); otherwise the longest run of leading
positions on which all rankings agree, which is the fold of the pairwise
longest common prefix anchored at the first ranking. -/
def findCommonPfx : List Ranking → Ranking
  | [] => []
  | [_] => []
  | r :: r2 :: rest => (r2 :: rest).foldl commonPfx2 r

/-- Source line 148, relative to the cursor: Python
`range(i + min_group_size, min(i + 200, N + 1))` shifted by `-i`, where
`len = N - i` is the length of the remaining suffix and `mw` generalizes the
literal `200` (the spec's `max_window` parameter, default 200). -/
def candidateEnds (len mgs mw : Nat) : List Nat :=
  List.range' mgs (min mw (len + 1) - mgs)

/-- One step of the lookahead loop: keep the candidate end with the longest
common prefix, updating only on strict improvement (source lines 148-154). -/
def stepBest (sr : ProfileN) (b : Ranking × Nat) (k : Nat) : Ranking × Nat :=
  let pr := findCommonPfx ((sr.take k).map Prod.fst)
  if b.1.length < pr.length then (pr, k) else b

/-- The `best_prefix` / `best_end` pair found by the window scan, starting
from `((), i + 1)` (relative end 1). -/
def bestWindow (mgs mw : Nat) (sr : ProfileN) : Ranking × Nat :=
  (candidateEnds sr.length mgs mw).foldl (stepBest sr) ([], 1)

/-- Source lines 159-162 with an explicit iteration bound
(`fuel ≥ sr.length - k` suffices); `extendEnd` instantiates it and
`extendEnd_eq` recovers the loop's defining equation. -/
def extendEndF (sr : ProfileN) (p : Ranking) : Nat → Nat → Nat
  | 0, k => k
  | fuel + 1, k =>
    if h : k < sr.length then
      if p.length ≤ (sr.get ⟨k, h⟩).1.length ∧ (sr.get ⟨k, h⟩).1.take p.length = p then
        extendEndF sr p fuel (k + 1)
      else k
    else k

/-- Source lines 159-162: extend `best_end` forward while the next ranking
still starts with `best_prefix`. -/
def extendEnd (sr : ProfileN) (p : Ranking) (k : Nat) : Nat :=
  extendEndF sr p (sr.length - k) k

/-- Source `generate_prefix_groups`, recursion on the suffix of the sorted
profile after the cursor.  In the grouping branch the emitted members are
`sr.take j` for `j := extendEnd sr best.1 best.2`; `j ≥ 1` always holds
(`best.2` is at least 1 whenever `best.1` is nonempty, see
`bestWindow_snd_pos` below), which the forms `x :: xs.take (j - 1)` and
`xs.drop (j - 1)` make structurally evident for termination. -/
def genPGF (mgs mw : Nat) : Nat → ProfileN → List (Ranking × ProfileN)
  | _, [] => []
  | 0, _ :: _ => []
  | fuel + 1, x :: xs =>
    let best := bestWindow mgs mw (x :: xs)
    if best.1.isEmpty then ([], [x]) :: genPGF mgs mw fuel xs
    else
      let j := extendEnd (x :: xs) best.1 best.2
      (best.1, x :: xs.take (j - 1)) :: genPGF mgs mw fuel (xs.drop (j - 1))

def generate_prefix_groups (mgs mw : Nat) (sr : ProfileN) : List (Ranking × ProfileN) :=
  genPGF mgs mw sr.length sr

/-! ### Abstract encoder (`RankingAbstract.generate_abstract`) -/

/-- Source `format_ranking` with the `candidate_map` argument (the encoder
always passes `candidate_to_id`). -/
def format_ranking (c2id : Name → Str) (r : Ranking) : Str :=
  let ids := r.map c2id
  if ids.isEmpty then "(empty)".data else joinSep " > ".data ids

/-- Source `candidate_to_id[c]` built from the canonical order. -/
def candidate_to_id (order : List Name) (n : Name) : Str := cidOf (order.indexOf n)

def dash80 : Str := List.replicate 80 '-'

def eq80 : Str := List.replicate 80 '='

/-- One member line of a group with nonempty prefix (source lines 263-272). -/
def memberLine (c2id : Name → Str) (pfxLen : Nat) (m : Ranking × Nat) : Str :=
  let suf := m.1.drop pfxLen
  if suf.isEmpty then "  (exact match)".data ++ " : ".data ++ natDigits m.2
  else "  ... > ".data ++ joinSep " > ".data (suf.map c2id) ++ " : ".data ++ natDigits m.2

/-- Lines written for one prefix group (source lines 257-280). -/
def groupLines (c2id : Name → Str) (g : Ranking × ProfileN) : List Str :=
  if g.1.isEmpty then
    g.2.map (fun m => format_ranking c2id m.1 ++ " : ".data ++ natDigits m.2)
  else
    ("PREFIX: ".data ++ format_ranking c2id g.1) :: dash80 ::
      (g.2.map (memberLine c2id g.1.length) ++ [[]])

/-- Total ballots (`len(self.ballots)` equals the sum of profile counts). -/
def sumCounts (P : ProfileN) : Nat := (P.map Prod.snd).sum

/-- Legend block body: one line `<ID>␠␠<name>` per candidate in canonical
order (source lines 234-236). -/
def legendLines (order : List Name) : List Str :=
  order.enum.map (fun p => cidOf p.1 ++ "  ".data ++ p.2)

/-- The EXPLANATION block prose (source lines 242-250), line by line. -/
def explanationLines : List Str :=
  [ "This abstract lists all unique ranking expressions that appear in the".data
  , "Cast Vote Record (CVR). Rankings are sorted lexicographically by candidate".data
  , "order and grouped by common prefix for compression.".data
  , []
  , "Format: <ranking expression> : <count>".data
  , "Symbol '>' means 'preferred over'".data
  , "(empty) means no ranking was cast".data
  , []
  , "Prefix compression: When multiple rankings share a common prefix, the".data
  , "prefix is stated once, followed by the distinct suffixes with counts.".data
  , []
  ]

/-- Source `generate_abstract`, as the list of lines written to the output
file (each `f.write` chunk split at its newlines). -/
def generate_abstract (district mgs mw : Nat) (P : ProfileN) : List Str :=
  let order := get_canonical_candidate_order P
  let c2id := candidate_to_id order
  let sortedR := get_sorted_rankings order P
  let groups := generate_prefix_groups mgs mw sortedR
  [ eq80
  , "ABSTRACT OF VOTES - CITY COUNCIL DISTRICT ".data ++ natDigits district
  , "City of Portland, Oregon".data
  , "November 2024 General Election".data
  , eq80
  , []
  , "CONTEST INFORMATION".data
  , dash80
  , "Contest: City Council District ".data ++ natDigits district
  , "Election Method: Single Transferable Vote (STV)".data
  , "Seats: 3".data
  , "Total Ballots with Rankings: ".data ++ natDigits (sumCounts P)
  , "Unique Ranking Expressions: ".data ++ natDigits P.length
  , []
  , "CANDIDATE LEGEND".data
  , dash80
  ] ++ legendLines order ++
  [ []
  , "EXPLANATION".data
  , dash80
  ] ++ explanationLines ++
  [ "PREFERENCE PROFILE (PREFIX-COMPRESSED)".data
  , eq80
  , []
  ] ++ (groups.map (groupLines c2id)).flatten ++
  [ []
  , eq80
  , "END OF ABSTRACT".data
  , "Total ranking expressions: ".data ++ natDigits ((groups.map (fun g => g.2.length)).sum)
  , "Total ballots: ".data ++ natDigits (sumCounts sortedR)
  , eq80
  ]

/-! ### Abstract decoder (`4_verify_abstracts.py : load_abstract_profile`) -/

/-- The regex `(C\d+)\s+(.+)$` applied (with `re.match`) to an
already-stripped legend line: a literal `C`, one or more digits, one or more
whitespace characters, then a nonempty remainder, captured as
(`C` + digits, remainder).  The source then strips the captured name. -/
def parseLegendLine (s : Str) : Option (Str × Name) :=
  match s with
  | [] => none
  | c0 :: rest =>
    if c0 = 'C' then
      let ds := rest.takeWhile Char.isDigit
      let after := rest.dropWhile Char.isDigit
      if ds.isEmpty then none
      else if (after.takeWhile isWs).isEmpty then none
      else
        let nm := after.dropWhile isWs
        if nm.isEmpty then none else some ('C' :: ds, trimStr nm)
    else none

/-- One line of the legend-parsing loop (source lines 50-68). -/
def legendStep (st : Bool × Legend) (line : Str) : Bool × Legend :=
  if "CANDIDATE LEGEND".data.isPrefixOf line then (true, st.2)
  else if st.1 then
    if trimStr line = [] ∨ "EXPLANATION".data.isPrefixOf line then (false, st.2)
    else if (List.replicate 40 '-').isPrefixOf line then st
    else
      match parseLegendLine (trimStr line) with
      | some e => (st.1, dictSet st.2 e.1 e.2)
      | none => st
  else st

/-- The parsed candidate legend of an abstract. -/
def parseLegend (lines : List Str) : Legend :=
  (lines.foldl legendStep (false, [])).2

/-- State of the profile-parsing loop (source lines 71-136). -/
structure PSt where
  inProf : Bool
  done : Bool
  curPfx : List Str
  prof : ProfileZ

/-- Translation of an ID sequence through the legend
(`tuple(candidate_legend[cid] for cid in ranking)`); `none` models the
`KeyError` on an ID absent from the legend. -/
def translateIds (leg : Legend) (ids : List Str) : Option Ranking :=
  ids.mapM (fun i => lookupP leg i)

/-- Classification of a data line's left-hand side into an ID sequence
(source lines 112-128), given the current prefix. -/
def classifyIds (curPfx : List Str) (rstr : Str) : List Str :=
  if rstr = "(empty)".data then []
  else if rstr = "(exact match)".data then curPfx
  else if "...".data.isPrefixOf rstr then
    let sufStr := trimStr (replaceAll ">".data " ".data (replaceAll "...".data [] rstr))
    if sufStr.isEmpty then curPfx
    else curPfx ++ ((pySplitWs sufStr).map trimStr).filter (fun s => !s.isEmpty)
  else ((splitOnChar '>' rstr).map trimStr).filter (fun s => !s.isEmpty)

/-- One line of the profile-parsing loop.  `none` propagates the fatal
`KeyError`; the `done` flag models the `break` on `END OF ABSTRACT`. -/
def profStep (leg : Legend) (st : Option PSt) (line : Str) : Option PSt :=
  match st with
  | none => none
  | some s =>
    if s.done then some s
    else if "PREFERENCE PROFILE".data.isPrefixOf line then some { s with inProf := true }
    else if "END OF ABSTRACT".data.isPrefixOf line then some { s with done := true }
    else if s.inProf = false then some s
    else if "PREFIX:".data.isPrefixOf line then
      let ps := trimStr (replaceAll "PREFIX:".data [] line)
      if ps.isEmpty then some { s with curPfx := [] }
      else some { s with curPfx := (splitOnChar '>' ps).map trimStr }
    else if line.contains ':' then
      match splitOnChar ':' line with
      | [lhs, rhs] =>
        match pyInt? (trimStr rhs) with
        | none => some s
        | some cnt =>
          match translateIds leg (classifyIds s.curPfx (trimStr lhs)) with
          | none => none
          | some names => some { s with prof := dictSet s.prof names cnt }
      | _ => some s
    else some s

/-- Source `load_abstract_profile` on the file's lines: the parsed legend
and the reconstructed profile, or `none` for the uncaught `KeyError`. -/
def load_abstract_profile (lines : List Str) : Option (ProfileZ × Legend) :=
  let leg := parseLegend lines
  match lines.foldl (profStep leg) (some ⟨false, false, [], []⟩) with
  | none => none
  | some s => some (s.prof, leg)

/-- State for `rawPairs` (the decoder's traversal with translation left
out). -/
structure RSt where
  inProf : Bool
  done : Bool
  curPfx : List Str
  pairs : List (List Str × Int)

/-- Companion of `profStep` that records the classified (ID-sequence, count)
pairs without translating them; it takes the same branches as `profStep` on
every line. -/
def rawStep (st : RSt) (line : Str) : RSt :=
  if st.done then st
  else if "PREFERENCE PROFILE".data.isPrefixOf line then { st with inProf := true }
  else if "END OF ABSTRACT".data.isPrefixOf line then { st with done := true }
  else if st.inProf = false then st
  else if "PREFIX:".data.isPrefixOf line then
    let ps := trimStr (replaceAll "PREFIX:".data [] line)
    if ps.isEmpty then { st with curPfx := [] }
    else { st with curPfx := (splitOnChar '>' ps).map trimStr }
  else if line.contains ':' then
    match splitOnChar ':' line with
    | [lhs, rhs] =>
      match pyInt? (trimStr rhs) with
      | none => st
      | some cnt => { st with pairs := st.pairs ++ [(classifyIds st.curPfx (trimStr lhs), cnt)] }
    | _ => st
  else st

/-- All (ID-sequence, count) pairs the decoder's profile loop classifies on
the data lines of an abstract, in order, before ID-to-name translation. -/
def rawPairs (lines : List Str) : List (List Str × Int) :=
  (lines.foldl rawStep ⟨false, false, [], []⟩).pairs

/-! ### Round-trip verifier (`4_verify_abstracts.py : verify_district`) -/

/-- The comparison core of source `verify_district` (lines 166-224): given
the original profile and the reconstructed profile, the boolean verdict
returned (file loading and report printing are outside the core). -/
def verify_district (orig recon : ProfileZ) : Bool :=
  let okeys := orig.map Prod.fst
  let rkeys := recon.map Prod.fst
  let missing := okeys.filter (fun r => !(rkeys.contains r))
  let extra := rkeys.filter (fun r => !(okeys.contains r))
  let mismatches := okeys.countP (fun r => !(lookupD orig r == lookupD recon r))
  let totalO := (okeys.map (lookupD orig)).sum
  let totalA := (okeys.map (lookupD recon)).sum
  missing.isEmpty && extra.isEmpty && (mismatches == 0) && (totalO == totalA)

/-- Grand total of a profile: sum of the counts of all entries. -/
def grandTotal (m : ProfileZ) : Int := (m.map Prod.snd).sum

/-- A profile entry's count, as stored (`Nat` side). -/
def natProfileZ (P : ProfileN) : ProfileZ := P.map (fun e => (e.1, (e.2 : Int)))

/-- The legend the decoder builds from the encoder's legend block: candidate
IDs `cidOf st, cidOf (st+1), …` paired with the names in order. -/
def legendOf (st : Nat) : List Name → Legend
  | [] => []
  | n :: t => (cidOf st, n) :: legendOf (st + 1) t

/-- Wellformedness of a candidate name for the line-based file model: the
name is nonempty, carries no leading or trailing whitespace (the ballot
canonicalizer strips every field), and contains no newline (a newline inside
a name would split the legend line in the physical file, which a
line-as-list model cannot represent). -/
def wfName (n : Name) : Prop := n ≠ [] ∧ trimStr n = n ∧ '\n' ∉ n

instance (n : Name) : Decidable (wfName n) := by
  unfold wfName
  infer_instance

/-- Wellformedness of a preference profile built from a ballot stream:
distinct rankings (it is a dict keyed by ranking), positive counts, and
wellformed candidate names. -/
def wfProfile (P : ProfileN) : Prop :=
  (P.map Prod.fst).Nodup ∧ (∀ e ∈ P, 1 ≤ e.2) ∧ ∀ r ∈ P.map Prod.fst, ∀ n ∈ r, wfName n

instance (P : ProfileN) : Decidable (wfProfile P) := by
  unfold wfProfile
  infer_instance

/-! ### Concrete inputs used by witnesses and counterexamples -/

/-- A sorted profile on which the compressor splits a chosen prefix across
two groups: with `min_group_size = 2` it first emits the group with chosen
prefix `(A, B)` covering the first two entries, then a group with chosen
prefix `(A)` covering only the last two entries, although the first two
entries also start with `(A)`. -/
def splitPfxProfile : ProfileN :=
  [([ "A".data, "B".data ], 1), ([ "A".data, "B".data, "C".data ], 1),
   ([ "A".data, "C".data ], 1), ([ "A".data, "D".data ], 1)]

/-- The example profile of spec §8: `{(A): 5, (A,B): 50, (A,C): 45}`. -/
def exampleProfile : ProfileN :=
  [([ "A".data ], 5), ([ "A".data, "B".data ], 50), ([ "A".data, "C".data ], 45)]

/-- A profile containing the empty ranking. -/
def emptyRkProfile : ProfileN :=
  [([], 7), ([ "A".data ], 5), ([ "A".data, "B".data ], 50)]

/-- An abstract whose profile section lists the same ranking on two data
lines, with counts `a` and `b`. -/
def dupLineAbstract (a b : Nat) : List Str :=
  [ "CANDIDATE LEGEND".data, "C01  Alice".data, [],
    "PREFERENCE PROFILE".data,
    "C01".data ++ " : ".data ++ natDigits a,
    "C01".data ++ " : ".data ++ natDigits b,
    "END OF ABSTRACT".data ]

/-- An abstract whose candidate legend carries two lines with the same
candidate ID `C01`, bearing names `n1` and then `n2`. -/
def dupLegendAbstract (n1 n2 : Name) : List Str :=
  [ "CANDIDATE LEGEND".data,
    "C01".data ++ "  ".data ++ n1,
    "C01".data ++ "  ".data ++ n2,
    [],
    "PREFERENCE PROFILE".data,
    "C01 : 1".data,
    "END OF ABSTRACT".data ]

/-- An abstract with a data line whose count does not parse (skipped by the
decoder's tolerance) and a data line referencing ID `C02`, which is absent
from the legend. -/
def unknownIdAbstract : List Str :=
  [ "CANDIDATE LEGEND".data, "C01  Alice".data, [],
    "PREFERENCE PROFILE".data, "C02 : bad".data, "C02 : 5".data, "END OF ABSTRACT".data ]

/-- An abstract whose only irregular data line has a malformed count (and
references an undeclared ID); the count fails to parse first, so the line is
skipped and decoding completes. -/
def badCountAbstract : List Str :=
  [ "CANDIDATE LEGEND".data, "C01  Alice".data, [],
    "PREFERENCE PROFILE".data, "C02 : bad".data, "END OF ABSTRACT".data ]

/-! ## Lemmas -/

/-! ### Fuel elimination: the fueled workers are fuel-independent, giving
the source loops' defining equations -/

theorem replaceGoF_congr (c : Char) (cs rep : Str) :
    ∀ f1 (l : Str), l.length ≤ f1 → ∀ f2, l.length ≤ f2 →
      replaceGoF c cs rep f1 l = replaceGoF c cs rep f2 l := by
  intro f1
  induction f1 with
  | zero =>
    intro l h f2 _
    have h0 : l = [] := List.length_eq_zero.mp (Nat.le_zero.mp h)
    subst h0
    cases f2 <;> rfl
  | succ f ih =>
    intro l h f2 h2
    cases l with
    | nil => cases f2 <;> rfl
    | cons x xs =>
      cases f2 with
      | zero => simp at h2
      | succ f2 =>
        simp only [replaceGoF]
        simp only [List.length_cons] at h h2
        by_cases hp : ((c :: cs).isPrefixOf (x :: xs)) = true
        · rw [if_pos hp, if_pos hp]
          have hd : (xs.drop cs.length).length ≤ f := by
            simp [List.length_drop]
            omega
          have hd2 : (xs.drop cs.length).length ≤ f2 := by
            simp [List.length_drop]
            omega
          rw [ih _ hd f2 hd2]
        · rw [if_neg hp, if_neg hp]
          rw [ih xs (by omega) f2 (by omega)]

theorem replaceGo_cons (c : Char) (cs rep : Str) (x : Char) (xs : Str) :
    replaceGo c cs rep (x :: xs) =
      if (c :: cs).isPrefixOf (x :: xs) then rep ++ replaceGo c cs rep (xs.drop cs.length)
      else x :: replaceGo c cs rep xs := by
  show replaceGoF c cs rep (xs.length + 1) (x :: xs) = _
  simp only [replaceGoF]
  by_cases hp : ((c :: cs).isPrefixOf (x :: xs)) = true
  · rw [if_pos hp, if_pos hp]
    unfold replaceGo
    rw [replaceGoF_congr c cs rep xs.length _ (by simp [List.length_drop]) _ (Nat.le_refl _)]
  · rw [if_neg hp, if_neg hp]
    rfl

theorem natDigitsGo_congr :
    ∀ f1 (n : Nat), n < f1 → ∀ f2, n < f2 → natDigitsGo f1 n = natDigitsGo f2 n := by
  intro f1
  induction f1 with
  | zero => intro n h; omega
  | succ f ih =>
    intro n _ f2 h2
    cases f2 with
    | zero => omega
    | succ f2 =>
      simp only [natDigitsGo]
      by_cases hn : n < 10
      · rw [if_pos hn, if_pos hn]
      · rw [if_neg hn, if_neg hn]
        have hd : n / 10 < n := Nat.div_lt_self (by omega) (by omega)
        rw [ih (n / 10) (by omega) f2 (by omega)]

theorem natDigits_eq (n : Nat) :
    natDigits n =
      if n < 10 then [digitChar10 n] else natDigits (n / 10) ++ [digitChar10 (n % 10)] := by
  show natDigitsGo (n + 1) n = _
  simp only [natDigitsGo]
  by_cases hn : n < 10
  · rw [if_pos hn, if_pos hn]
  · rw [if_neg hn, if_neg hn]
    have hd : n / 10 < n := Nat.div_lt_self (by omega) (by omega)
    unfold natDigits
    rw [natDigitsGo_congr n (n / 10) (by omega) (n / 10 + 1) (by omega)]

theorem extendEndF_congr (sr : ProfileN) (p : Ranking) :
    ∀ f1 (k : Nat), sr.length - k ≤ f1 → ∀ f2, sr.length - k ≤ f2 →
      extendEndF sr p f1 k = extendEndF sr p f2 k := by
  intro f1
  induction f1 with
  | zero =>
    intro k h f2 _
    cases f2 with
    | zero => rfl
    | succ f2 =>
      show k = extendEndF sr p (f2 + 1) k
      simp only [extendEndF]
      rw [dif_neg (by omega : ¬ k < sr.length)]
  | succ f ih =>
    intro k h f2 h2
    cases f2 with
    | zero =>
      show extendEndF sr p (f + 1) k = k
      simp only [extendEndF]
      rw [dif_neg (by omega : ¬ k < sr.length)]
    | succ f2 =>
      simp only [extendEndF]
      by_cases hk : k < sr.length
      · rw [dif_pos hk, dif_pos hk]
        by_cases hc : p.length ≤ (sr.get ⟨k, hk⟩).1.length ∧
            (sr.get ⟨k, hk⟩).1.take p.length = p
        · rw [if_pos hc, if_pos hc]
          exact ih (k + 1) (by omega) f2 (by omega)
        · rw [if_neg hc, if_neg hc]
      · rw [dif_neg hk, dif_neg hk]

theorem extendEnd_eq (sr : ProfileN) (p : Ranking) (k : Nat) :
    extendEnd sr p k =
      if h : k < sr.length then
        if p.length ≤ (sr.get ⟨k, h⟩).1.length ∧ (sr.get ⟨k, h⟩).1.take p.length = p then
          extendEnd sr p (k + 1)
        else k
      else k := by
  show extendEndF sr p (sr.length - k) k = _
  by_cases hk : k < sr.length
  · have hs : sr.length - k = (sr.length - (k + 1)) + 1 := by omega
    rw [hs]
    simp only [extendEndF]
    rw [dif_pos hk, dif_pos hk]
    rfl
  · have hs : sr.length - k = 0 := by omega
    rw [hs]
    show k = _
    rw [dif_neg hk]

theorem genPGF_congr (mgs mw : Nat) :
    ∀ f1 (sr : ProfileN), sr.length ≤ f1 → ∀ f2, sr.length ≤ f2 →
      genPGF mgs mw f1 sr = genPGF mgs mw f2 sr := by
  intro f1
  induction f1 with
  | zero =>
    intro sr h f2 _
    have h0 : sr = [] := List.length_eq_zero.mp (Nat.le_zero.mp h)
    subst h0
    cases f2 <;> rfl
  | succ f ih =>
    intro sr h f2 h2
    cases sr with
    | nil => cases f2 <;> rfl
    | cons x xs =>
      cases f2 with
      | zero => simp at h2
      | succ f2 =>
        simp only [genPGF]
        simp only [List.length_cons] at h h2
        by_cases hbp : ((bestWindow mgs mw (x :: xs)).1.isEmpty) = true
        · rw [if_pos hbp, if_pos hbp]
          rw [ih xs (by omega) f2 (by omega)]
        · rw [if_neg hbp, if_neg hbp]
          rw [ih _ (by simp [List.length_drop]; omega) f2 (by simp [List.length_drop]; omega)]


/-! ### Dictionary model -/

theorem lookupP_cons {K V : Type} [DecidableEq K] (e : K × V) (m : List (K × V)) (k : K) :
    lookupP (e :: m) k = if e.1 = k then some e.2 else lookupP m k := by
  by_cases h : e.1 = k <;> simp [lookupP, List.find?_cons, h]

theorem dictSet_of_not_mem {K V : Type} [DecidableEq K] (m : List (K × V)) (k : K) (v : V)
    (h : k ∉ m.map Prod.fst) : dictSet m k v = m ++ [(k, v)] := by
  induction m with
  | nil => rfl
  | cons e rest ih =>
    simp only [List.map_cons, List.mem_cons] at h
    push_neg at h
    have hne : ¬ e.1 = k := fun hh => h.1 hh.symm
    simp [dictSet, hne, ih h.2]

theorem foldl_dictSet_eq_append {K V : Type} [DecidableEq K] (pairs : List (K × V)) :
    ∀ (m : List (K × V)), (∀ e ∈ pairs, e.1 ∉ m.map Prod.fst) →
      (pairs.map Prod.fst).Nodup →
      pairs.foldl (fun acc e => dictSet acc e.1 e.2) m = m ++ pairs := by
  induction pairs with
  | nil => intro m _ _; simp
  | cons e rest ih =>
    intro m hdisj hnd
    have h1 : e.1 ∉ m.map Prod.fst := hdisj e (by simp)
    simp only [List.foldl_cons, dictSet_of_not_mem m e.1 e.2 h1]
    simp only [List.map_cons, List.nodup_cons] at hnd
    rw [ih (m ++ [e]) ?_ hnd.2]
    · simp
    · intro e2 he2
      simp only [List.map_append, List.mem_append, List.map_cons, List.map_nil,
        List.mem_singleton]
      push_neg
      refine ⟨fun hh => hdisj e2 (by simp [he2]) hh, ?_⟩
      intro hh
      exact hnd.1 (hh ▸ List.mem_map_of_mem Prod.fst he2)

theorem lookupP_append_right {K V : Type} [DecidableEq K] (m1 m2 : List (K × V)) (k : K)
    (h : k ∉ m1.map Prod.fst) : lookupP (m1 ++ m2) k = lookupP m2 k := by
  induction m1 with
  | nil => rfl
  | cons e rest ih =>
    simp only [List.map_cons, List.mem_cons] at h
    push_neg at h
    have hne : ¬ e.1 = k := fun hh => h.1 hh.symm
    simp [List.cons_append, lookupP_cons, hne, ih h.2]

/-! ### Sorting is a permutation -/

theorem perm_insertSorted {α : Type} (lt : α → α → Bool) (a : α) (l : List α) :
    List.Perm (insertSorted lt a l) (a :: l) := by
  induction l with
  | nil => simp [insertSorted]
  | cons b bs ih =>
    simp only [insertSorted]
    split
    · exact List.Perm.refl _
    · exact List.Perm.trans (List.Perm.cons b ih) (List.Perm.swap a b bs)

theorem perm_sortByLt {α : Type} (lt : α → α → Bool) (l : List α) :
    List.Perm (sortByLt lt l) l := by
  induction l with
  | nil => exact List.Perm.refl _
  | cons a l ih =>
    simp only [sortByLt, List.foldr_cons]
    exact List.Perm.trans (perm_insertSorted lt a _) (List.Perm.cons a ih)

/-! ### Trimming -/

theorem dropWhile_append_all {p : Char → Bool} (a b : Str) (h : ∀ c ∈ a, p c = true) :
    (a ++ b).dropWhile p = b.dropWhile p := by
  induction a with
  | nil => rfl
  | cons c a ih =>
    have hc : p c = true := h c (by simp)
    simp only [List.cons_append, List.dropWhile_cons_of_pos hc]
    exact ih (fun x hx => h x (by simp [hx]))

theorem dropWhile_append_of_ne_nil {p : Char → Bool} (a b : Str) (h : a.dropWhile p ≠ []) :
    (a ++ b).dropWhile p = a.dropWhile p ++ b := by
  induction a with
  | nil => simp at h
  | cons c a ih =>
    by_cases hc : p c
    · simp only [List.dropWhile_cons_of_pos hc] at h
      simp only [List.cons_append, List.dropWhile_cons_of_pos hc]
      exact ih h
    · simp only [List.dropWhile_cons_of_neg hc] at h ⊢
      simp [List.dropWhile_cons_of_neg hc]

theorem dropWhile_eq_self_of_head {p : Char → Bool} (l : Str)
    (h : ∀ c, l.head? = some c → p c = false) : l.dropWhile p = l := by
  cases l with
  | nil => rfl
  | cons c l =>
    have hc : p c = false := h c rfl
    rw [List.dropWhile_cons_of_neg (by simp [hc])]

theorem trimStr_cons_ws (c : Char) (l : Str) (h : isWs c = true) :
    trimStr (c :: l) = trimStr l := by
  simp [trimStr, List.dropWhile_cons_of_pos h]

theorem trimStr_eq_self (l : Str) (hh : ∀ c, l.head? = some c → isWs c = false)
    (hl : ∀ c, l.getLast? = some c → isWs c = false) : trimStr l = l := by
  unfold trimStr
  rw [dropWhile_eq_self_of_head l hh]
  rw [dropWhile_eq_self_of_head l.reverse (by simpa [List.head?_reverse] using hl)]
  exact List.reverse_reverse l

theorem trimStr_append_left_all (a m : Str) (ha : ∀ c ∈ a, isWs c = true) :
    trimStr (a ++ m) = trimStr m := by
  simp [trimStr, dropWhile_append_all a m ha]

theorem trimStr_append_right_all (m b : Str) (hb : ∀ c ∈ b, isWs c = true) :
    trimStr (m ++ b) = trimStr m := by
  unfold trimStr
  cases h : m.dropWhile isWs with
  | nil =>
    have hm : ∀ c ∈ m, isWs c = true := List.dropWhile_eq_nil_iff.mp h
    rw [dropWhile_append_all m b hm, List.dropWhile_eq_nil_iff.mpr hb]
  | cons c rest =>
    rw [dropWhile_append_of_ne_nil m b (by simp [h]), h, List.reverse_append,
      dropWhile_append_all b.reverse _ (by simpa using hb)]

theorem trimStr_nil : trimStr [] = [] := rfl

/-! ### Splitting -/

theorem splitPred_ne_nil (p : Char → Bool) (l : Str) : splitPred p l ≠ [] := by
  induction l with
  | nil => simp [splitPred]
  | cons c cs ih =>
    simp only [splitPred]
    cases h : splitPred p cs with
    | nil => simp
    | cons hh tt => by_cases hc : p c <;> simp [hc]

theorem splitPred_cons_pos {p : Char → Bool} {c : Char} (l : Str) (h : p c = true) :
    splitPred p (c :: l) = [] :: splitPred p l := by
  simp only [splitPred]
  cases h2 : splitPred p l with
  | nil => exact absurd h2 (splitPred_ne_nil p l)
  | cons hh tt => simp [h]

theorem splitPred_cons_neg {p : Char → Bool} {c : Char} {l : Str} {hh : Str} {tt : List Str}
    (h : p c = false) (hs : splitPred p l = hh :: tt) :
    splitPred p (c :: l) = (c :: hh) :: tt := by
  simp [splitPred, hs, h]

theorem splitPred_no_sep {p : Char → Bool} (l : Str) (h : ∀ c ∈ l, p c = false) :
    splitPred p l = [l] := by
  induction l with
  | nil => rfl
  | cons c cs ih =>
    have := ih (fun x hx => h x (by simp [hx]))
    exact splitPred_cons_neg (h c (by simp)) this

theorem splitPred_append_sep {p : Char → Bool} (a : Str) {c : Char} (b : Str)
    (ha : ∀ x ∈ a, p x = false) (hc : p c = true) :
    splitPred p (a ++ c :: b) = a :: splitPred p b := by
  induction a with
  | nil => simpa using splitPred_cons_pos b hc
  | cons x a ih =>
    have hs := ih (fun y hy => ha y (by simp [hy]))
    exact splitPred_cons_neg (ha x (by simp)) hs

theorem pySplitWs_nil : pySplitWs [] = [] := rfl

theorem pySplitWs_cons_ws {c : Char} (l : Str) (h : isWs c = true) :
    pySplitWs (c :: l) = pySplitWs l := by
  simp [pySplitWs, splitPred_cons_pos l h]

theorem pySplitWs_single (a : Str) (ha : a ≠ []) (h : ∀ c ∈ a, isWs c = false) :
    pySplitWs a = [a] := by
  simp [pySplitWs, splitPred_no_sep a h, ha]

theorem pySplitWs_append_sep (a : Str) {c : Char} (b : Str) (ha0 : a ≠ [])
    (ha : ∀ x ∈ a, isWs x = false) (hc : isWs c = true) :
    pySplitWs (a ++ c :: b) = a :: pySplitWs b := by
  simp [pySplitWs, splitPred_append_sep a b ha hc, ha0]

/-! ### Replacement -/

theorem replaceGo_nil (c : Char) (cs rep : Str) : replaceGo c cs rep [] = [] := rfl

theorem replaceGo_no_head (c : Char) (cs rep : Str) (l : Str) (h : c ∉ l) :
    replaceGo c cs rep l = l := by
  induction l with
  | nil => rfl
  | cons x xs ih =>
    have h1 : ¬ (c = x) := fun he => h (by simp [he])
    have h2 : c ∉ xs := fun hm => h (by simp [hm])
    rw [replaceGo_cons]
    have hpfx : ((c :: cs).isPrefixOf (x :: xs)) = false := by
      simp [List.isPrefixOf]
      intro he
      exact absurd he h1
    rw [hpfx]
    simp [ih h2]

theorem replaceGo_head_match (c : Char) (cs rep tail : Str) :
    replaceGo c cs rep (c :: (cs ++ tail)) = rep ++ replaceGo c cs rep tail := by
  rw [replaceGo_cons]
  have hpfx : ((c :: cs).isPrefixOf (c :: (cs ++ tail))) = true := by
    apply List.isPrefixOf_iff_prefix.mpr
    exact ⟨tail, by simp⟩
  rw [hpfx]
  simp [List.drop_left]

theorem replaceChar_map (c r : Char) (l : Str) :
    replaceAll [c] [r] l = l.map (fun x => if x = c then r else x) := by
  show replaceGo c [] [r] l = _
  induction l with
  | nil => rfl
  | cons x xs ih =>
    rw [replaceGo_cons]
    by_cases hcx : c = x
    · subst hcx
      have hpfx : (([c] : Str).isPrefixOf (c :: xs)) = true := by
        simp [List.isPrefixOf]
      rw [hpfx]
      simp [ih]
    · have hpfx : (([c] : Str).isPrefixOf (x :: xs)) = false := by
        simp [List.isPrefixOf]
        intro he
        exact absurd he hcx
      rw [hpfx]
      have hxc : ¬ x = c := fun he => hcx he.symm
      simp [ih, hxc]

/-! ### Decimal digits -/

theorem digitChar10_isDigit (d : Nat) : (digitChar10 d).isDigit = true := by
  unfold digitChar10
  split <;> decide

theorem digit_ne_underscore (c : Char) (h : c.isDigit = true) : ¬ c = '_' := by
  intro he
  rw [he] at h
  exact absurd h (by decide)

theorem digitVal_digitChar10 (d : Nat) (h : d < 10) : digitVal (digitChar10 d) = d := by
  interval_cases d <;> decide

theorem isDigit_char_facts (c : Char) (h : c.isDigit = true) :
    c ≠ ':' ∧ c ≠ '>' ∧ c ≠ '-' ∧ c ≠ '+' ∧ c ≠ '.' ∧ c ≠ '(' ∧ c ≠ 'A' ∧ c ≠ 'C' := by
  refine ⟨?_, ?_, ?_, ?_, ?_, ?_, ?_, ?_⟩ <;>
    (intro he; rw [he] at h; exact absurd h (by decide))

theorem isDigit_not_ws (c : Char) (h : c.isDigit = true) : isWs c = false := by
  have h1 : ¬ (c = ' ') := by intro he; rw [he] at h; exact absurd h (by decide)
  have h2 : ¬ (c = '\t') := by intro he; rw [he] at h; exact absurd h (by decide)
  have h3 : ¬ (c = '\r') := by intro he; rw [he] at h; exact absurd h (by decide)
  have h4 : ¬ (c = '\n') := by intro he; rw [he] at h; exact absurd h (by decide)
  show c.isWhitespace = false
  have : c.isWhitespace = (c = ' ' || c = '\t' || c = '\r' || c = '\n') := rfl
  rw [this]
  simp [h1, h2, h3, h4]

theorem natDigits_ne_nil (n : Nat) : natDigits n ≠ [] := by
  rw [natDigits_eq]
  by_cases h : n < 10 <;> simp [h]

theorem natDigits_all_digit (n : Nat) : ∀ c ∈ natDigits n, c.isDigit = true := by
  induction n using Nat.strong_induction_on with
  | _ n ih =>
    by_cases hn : n < 10
    · rw [natDigits_eq, if_pos hn]
      intro c hc
      simp at hc
      rw [hc]
      exact digitChar10_isDigit n
    · rw [natDigits_eq, if_neg hn]
      intro c hc
      rcases List.mem_append.mp hc with h1 | h2
      · exact ih (n / 10) (Nat.div_lt_self (by omega) (by omega)) c h1
      · simp at h2
        rw [h2]
        exact digitChar10_isDigit _

theorem natDigits_foldl (n : Nat) :
    (natDigits n).foldl (fun a c => 10 * a + digitVal c) 0 = n := by
  induction n using Nat.strong_induction_on with
  | _ n ih =>
    by_cases hn : n < 10
    · rw [natDigits_eq, if_pos hn]
      simp [digitVal_digitChar10 n hn]
    · rw [natDigits_eq, if_neg hn]
      rw [List.foldl_append]
      rw [ih (n / 10) (Nat.div_lt_self (by omega) (by omega))]
      simp [digitVal_digitChar10 (n % 10) (by omega)]
      omega

theorem digitsCore_digits (ds : Str) : ∀ (acc : Nat), (∀ c ∈ ds, c.isDigit = true) →
    digitsCore acc ds = some (ds.foldl (fun a c => 10 * a + digitVal c) acc) := by
  induction ds with
  | nil => intro acc _; rfl
  | cons c rest ih =>
    intro acc h
    have hc := h c (by simp)
    rw [digitsCore.eq_def]
    dsimp only
    rw [if_neg (digit_ne_underscore c hc), if_pos hc]
    rw [ih _ (fun x hx => h x (by simp [hx]))]
    simp

theorem pyInt_natDigits (n : Nat) : pyInt? (natDigits n) = some ((n : Int)) := by
  cases hnd : natDigits n with
  | nil => exact absurd hnd (natDigits_ne_nil n)
  | cons c rest =>
    have hall := natDigits_all_digit n
    rw [hnd] at hall
    have hc : c.isDigit = true := hall c (by simp)
    obtain ⟨_, _, h3, h4, _, _, _, _⟩ := isDigit_char_facts c hc
    rw [pyInt?.eq_def]
    dsimp only
    rw [if_neg h3, if_neg h4, if_pos hc]
    rw [digitsCore_digits rest (digitVal c) (fun x hx => hall x (by simp [hx]))]
    have hv : rest.foldl (fun a ch => 10 * a + digitVal ch) (digitVal c) = n := by
      have h0 := natDigits_foldl n
      rw [hnd] at h0
      simpa using h0
    rw [hv]
    rfl

theorem natDigits_inj (a b : Nat) (h : natDigits a = natDigits b) : a = b := by
  have ha := natDigits_foldl a
  rw [h, natDigits_foldl b] at ha
  omega

theorem natDigits_head_ne_zero (n : Nat) (hn : 1 ≤ n) :
    ∀ c, (natDigits n).head? = some c → c ≠ '0' := by
  induction n using Nat.strong_induction_on with
  | _ n ih =>
    by_cases h10 : n < 10
    · rw [natDigits_eq, if_pos h10]
      intro c hc
      simp at hc
      rw [← hc]
      interval_cases n <;> decide
    · rw [natDigits_eq, if_neg h10]
      have hne := natDigits_ne_nil (n / 10)
      intro c hc
      have : (natDigits (n / 10) ++ [digitChar10 (n % 10)]).head? = (natDigits (n / 10)).head? := by
        cases hx : natDigits (n / 10) with
        | nil => exact absurd hx hne
        | cons y ys => rfl
      rw [this] at hc
      exact ih (n / 10) (Nat.div_lt_self (by omega) (by omega)) (by omega) c hc

/-! ### Candidate IDs -/

theorem cidOf_ne_nil (i : Nat) : cidOf i ≠ [] := by
  simp [cidOf]

theorem cidOf_all (i : Nat) : ∀ c ∈ cidOf i, c = 'C' ∨ c.isDigit = true := by
  unfold cidOf
  by_cases h : i + 1 < 10
  · rw [if_pos h]
    intro c hc
    rcases List.mem_cons.mp hc with h1 | h1
    · exact Or.inl h1
    · rcases List.mem_cons.mp h1 with h2 | h2
      · rw [h2]; exact Or.inr (by decide)
      · exact Or.inr (natDigits_all_digit (i + 1) c h2)
  · rw [if_neg h]
    intro c hc
    rcases List.mem_cons.mp hc with h1 | h1
    · exact Or.inl h1
    · exact Or.inr (natDigits_all_digit (i + 1) c h1)

theorem cidOf_chars (i : Nat) : ∀ c ∈ cidOf i, c ≠ ':' ∧ c ≠ '>' ∧ isWs c = false := by
  intro c hc
  rcases cidOf_all i c hc with h | h
  · rw [h]
    refine ⟨by decide, by decide, by decide⟩
  · obtain ⟨h1, h2, _, _, _, _, _, _⟩ := isDigit_char_facts c h
    exact ⟨h1, h2, isDigit_not_ws c h⟩

theorem cidOf_shape (i : Nat) : ∃ d rest, cidOf i = 'C' :: d :: rest ∧ d.isDigit = true := by
  unfold cidOf
  by_cases h : i + 1 < 10
  · rw [if_pos h]
    exact ⟨'0', natDigits (i + 1), rfl, by decide⟩
  · rw [if_neg h]
    cases hnd : natDigits (i + 1) with
    | nil => exact absurd hnd (natDigits_ne_nil _)
    | cons d rest =>
      refine ⟨d, rest, rfl, ?_⟩
      exact natDigits_all_digit (i + 1) d (by rw [hnd]; simp)

theorem cidOf_inj (a b : Nat) (h : cidOf a = cidOf b) : a = b := by
  unfold cidOf at h
  by_cases ha : a + 1 < 10 <;> by_cases hb : b + 1 < 10
  · rw [if_pos ha, if_pos hb] at h
    simp at h
    have := natDigits_inj _ _ h
    omega
  · rw [if_pos ha, if_neg hb] at h
    simp at h
    have := natDigits_head_ne_zero (b + 1) (by omega) '0'
    rw [← h] at this
    exact absurd rfl (this rfl)
  · rw [if_neg ha, if_pos hb] at h
    simp at h
    have := natDigits_head_ne_zero (a + 1) (by omega) '0'
    rw [h] at this
    exact absurd rfl (this rfl)
  · rw [if_neg ha, if_neg hb] at h
    simp at h
    have := natDigits_inj _ _ h
    omega

/-! ### Compressor: common prefixes -/

theorem commonPfx2_prefix_left (a b : Ranking) : commonPfx2 a b <+: a := by
  induction a generalizing b with
  | nil => cases b <;> simp [commonPfx2]
  | cons x xs ih =>
    cases b with
    | nil => simp [commonPfx2]
    | cons y ys =>
      simp only [commonPfx2]
      by_cases h : x = y
      · rw [if_pos h]
        rw [List.cons_prefix_cons]
        exact ⟨rfl, ih ys⟩
      · rw [if_neg h]
        exact List.nil_prefix

theorem commonPfx2_prefix_right (a b : Ranking) : commonPfx2 a b <+: b := by
  induction a generalizing b with
  | nil => cases b <;> simp [commonPfx2]
  | cons x xs ih =>
    cases b with
    | nil => simp [commonPfx2]
    | cons y ys =>
      simp only [commonPfx2]
      by_cases h : x = y
      · rw [if_pos h, h]
        rw [List.cons_prefix_cons]
        exact ⟨rfl, ih ys⟩
      · rw [if_neg h]
        exact List.nil_prefix

theorem foldl_commonPfx2_prefix_acc (l : List Ranking) (a : Ranking) :
    l.foldl commonPfx2 a <+: a := by
  induction l generalizing a with
  | nil => exact List.prefix_refl a
  | cons x xs ih => exact (ih (commonPfx2 a x)).trans (commonPfx2_prefix_left a x)

theorem foldl_commonPfx2_prefix_mem (l : List Ranking) (r : Ranking) (h : r ∈ l) :
    ∀ (a : Ranking), l.foldl commonPfx2 a <+: r := by
  induction l with
  | nil => simp at h
  | cons x xs ih =>
    intro a
    rcases List.mem_cons.mp h with h1 | h1
    · subst h1
      exact (foldl_commonPfx2_prefix_acc xs _).trans (commonPfx2_prefix_right a r)
    · exact ih h1 _

theorem findCommonPfx_prefix (l : List Ranking) (r : Ranking) (h : r ∈ l) :
    findCommonPfx l <+: r := by
  cases l with
  | nil => simp at h
  | cons r1 rest =>
    cases rest with
    | nil =>
      simp only [findCommonPfx]
      rcases List.mem_cons.mp h with h1 | h1
      · exact List.nil_prefix
      · simp at h1
    | cons r2 rest2 =>
      simp only [findCommonPfx]
      rcases List.mem_cons.mp h with h1 | h1
      · subst h1
        exact foldl_commonPfx2_prefix_acc _ _
      · exact foldl_commonPfx2_prefix_mem _ r h1 r1

theorem findCommonPfx_ne_nil_len (l : List Ranking) (h : findCommonPfx l ≠ []) :
    2 ≤ l.length := by
  cases l with
  | nil => simp [findCommonPfx] at h
  | cons a rest =>
    cases rest with
    | nil => simp [findCommonPfx] at h
    | cons b rest2 => simp

/-! ### Compressor: window scan and extension -/

theorem candidateEnds_mem (len mgs mw k : Nat) :
    k ∈ candidateEnds len mgs mw ↔ mgs ≤ k ∧ k < min mw (len + 1) := by
  unfold candidateEnds
  rw [List.mem_range'_1]
  omega

theorem foldl_preserve {α β : Type} (P : β → Prop) (f : β → α → β) (l : List α) (b : β)
    (hb : P b) (hf : ∀ b a, P b → P (f b a)) : P (l.foldl f b) := by
  induction l generalizing b with
  | nil => exact hb
  | cons x xs ih => exact ih (f b x) (hf b x hb)

theorem bestWindow_inv (mgs mw : Nat) (sr : ProfileN) :
    (bestWindow mgs mw sr).1 = [] ∨
      ((bestWindow mgs mw sr).1 = findCommonPfx ((sr.take (bestWindow mgs mw sr).2).map Prod.fst)
        ∧ 2 ≤ (bestWindow mgs mw sr).2) := by
  unfold bestWindow
  refine foldl_preserve
    (fun b => b.1 = [] ∨ (b.1 = findCommonPfx ((sr.take b.2).map Prod.fst) ∧ 2 ≤ b.2))
    (stepBest sr) (candidateEnds sr.length mgs mw) ([], 1) (Or.inl rfl) ?_
  intro b k hP
  unfold stepBest
  dsimp only
  split
  · by_cases hpr : findCommonPfx ((sr.take k).map Prod.fst) = []
    · exact Or.inl hpr
    · refine Or.inr ⟨rfl, ?_⟩
      have h2 := findCommonPfx_ne_nil_len _ hpr
      simp [List.length_take] at h2
      omega
  · exact hP

theorem pfx_cond_iff (p r : Ranking) :
    (p.length ≤ r.length ∧ r.take p.length = p) ↔ p <+: r := by
  constructor
  · rintro ⟨_, h2⟩
    exact List.prefix_iff_eq_take.mpr h2.symm
  · intro h
    exact ⟨h.length_le, (List.prefix_iff_eq_take.mp h).symm⟩

theorem extendEnd_ge (sr : ProfileN) (p : Ranking) (k : Nat) : k ≤ extendEnd sr p k := by
  have H : ∀ m k, sr.length - k ≤ m → k ≤ extendEnd sr p k := by
    intro m
    induction m with
    | zero =>
      intro k hk
      rw [extendEnd_eq, dif_neg (by omega : ¬ k < sr.length)]
    | succ m ih =>
      intro k hk
      rw [extendEnd_eq]
      by_cases h : k < sr.length
      · rw [dif_pos h]
        split
        · have := ih (k + 1) (by omega)
          omega
        · exact Nat.le_refl k
      · rw [dif_neg h]
  exact H (sr.length - k) k (Nat.le_refl _)

theorem extendEnd_stop (sr : ProfileN) (p : Ranking) (k : Nat) (e : Ranking × Nat)
    (he : sr[extendEnd sr p k]? = some e) : ¬ p <+: e.1 := by
  have H : ∀ m k, sr.length - k ≤ m → sr[extendEnd sr p k]? = some e → ¬ p <+: e.1 := by
    intro m
    induction m with
    | zero =>
      intro k hk he2
      rw [extendEnd_eq, dif_neg (by omega : ¬ k < sr.length)] at he2
      rw [List.getElem?_eq_none (by omega : sr.length ≤ k)] at he2
      exact absurd he2 (by simp)
    | succ m ih =>
      intro k hk he2
      by_cases h : k < sr.length
      · rw [extendEnd_eq, dif_pos h] at he2
        revert he2
        split
        · intro he2
          exact ih (k + 1) (by omega) he2
        · next hcond =>
          intro he2
          rw [List.getElem?_eq_getElem h] at he2
          have hev : sr.get ⟨k, h⟩ = e := by
            rw [List.get_eq_getElem]
            exact Option.some_injective _ he2
          intro hpfx
          apply hcond
          rw [hev]
          exact (pfx_cond_iff p e.1).mpr hpfx
      · rw [extendEnd_eq, dif_neg h] at he2
        rw [List.getElem?_eq_none (by omega : sr.length ≤ k)] at he2
        exact absurd he2 (by simp)
  exact H (sr.length - k) k (Nat.le_refl _) he

theorem extendEnd_mem (sr : ProfileN) (p : Ranking) :
    ∀ k j e, k ≤ j → j < extendEnd sr p k → sr[j]? = some e → p <+: e.1 := by
  have H : ∀ m k j e, sr.length - k ≤ m → k ≤ j → j < extendEnd sr p k →
      sr[j]? = some e → p <+: e.1 := by
    intro m
    induction m with
    | zero =>
      intro k j e hk hkj hj _
      rw [extendEnd_eq, dif_neg (by omega : ¬ k < sr.length)] at hj
      omega
    | succ m ih =>
      intro k j e hk hkj hj he
      by_cases h : k < sr.length
      · rw [extendEnd_eq, dif_pos h] at hj
        revert hj
        split
        · next hcond =>
          intro hj
          by_cases hjk : j = k
          · subst hjk
            rw [List.getElem?_eq_getElem h] at he
            have hev : sr[j] = e := Option.some_injective _ he
            rw [← hev]
            exact (pfx_cond_iff p (sr[j]).1).mp ⟨hcond.1, hcond.2⟩
          · exact ih (k + 1) j e (by omega) (by omega) hj he
        · intro hj
          omega
      · rw [extendEnd_eq, dif_neg h] at hj
        omega
  exact fun k j e => H (sr.length - k) k j e (Nat.le_refl _)

/-! ### Compressor: group structure -/

theorem genPG_nil (mgs mw : Nat) : generate_prefix_groups mgs mw [] = [] := rfl

theorem genPG_cons_pos (mgs mw : Nat) (x : Ranking × Nat) (xs : ProfileN)
    (h : (bestWindow mgs mw (x :: xs)).1.isEmpty = true) :
    generate_prefix_groups mgs mw (x :: xs) = ([], [x]) :: generate_prefix_groups mgs mw xs := by
  show genPGF mgs mw (xs.length + 1) (x :: xs) = _
  simp only [genPGF]
  rw [if_pos h]
  rfl

theorem genPG_cons_neg (mgs mw : Nat) (x : Ranking × Nat) (xs : ProfileN)
    (h : (bestWindow mgs mw (x :: xs)).1.isEmpty = false) :
    generate_prefix_groups mgs mw (x :: xs) =
      ((bestWindow mgs mw (x :: xs)).1,
        x :: xs.take (extendEnd (x :: xs) (bestWindow mgs mw (x :: xs)).1
          (bestWindow mgs mw (x :: xs)).2 - 1)) ::
      generate_prefix_groups mgs mw
        (xs.drop (extendEnd (x :: xs) (bestWindow mgs mw (x :: xs)).1
          (bestWindow mgs mw (x :: xs)).2 - 1)) := by
  show genPGF mgs mw (xs.length + 1) (x :: xs) = _
  simp only [genPGF]
  rw [if_neg (by simp [h])]
  unfold generate_prefix_groups
  rw [genPGF_congr mgs mw xs.length _ (by simp [List.length_drop]) _ (Nat.le_refl _)]

theorem take_cons_pred {α : Type} (x : α) (xs : List α) (j : Nat) (h : 1 ≤ j) :
    (x :: xs).take j = x :: xs.take (j - 1) := by
  obtain ⟨m, rfl⟩ : ∃ m, j = m + 1 := ⟨j - 1, by omega⟩
  simp

theorem genPG_flatten (mgs mw : Nat) (sr : ProfileN) :
    ((generate_prefix_groups mgs mw sr).map Prod.snd).flatten = sr := by
  have H : ∀ n (sr : ProfileN), sr.length ≤ n →
      ((generate_prefix_groups mgs mw sr).map Prod.snd).flatten = sr := by
    intro n
    induction n with
    | zero =>
      intro sr h
      have h0 : sr = [] := List.length_eq_zero.mp (Nat.le_zero.mp h)
      subst h0
      rw [genPG_nil]
      rfl
    | succ n ih =>
      intro sr hlen
      cases sr with
      | nil =>
        rw [genPG_nil]
        rfl
      | cons x xs =>
        by_cases hbp : (bestWindow mgs mw (x :: xs)).1.isEmpty
        · rw [genPG_cons_pos mgs mw x xs hbp]
          simp only [List.map_cons, List.flatten_cons]
          rw [ih xs (by simp at hlen; omega)]
          rfl
        · have hbp2 : (bestWindow mgs mw (x :: xs)).1.isEmpty = false := by
            simpa using hbp
          rw [genPG_cons_neg mgs mw x xs hbp2]
          simp only [List.map_cons, List.flatten_cons]
          rw [ih _ (by simp [List.length_drop] at hlen ⊢; omega)]
          simp [List.take_append_drop]
  exact H sr.length sr (Nat.le_refl _)

theorem bestWindow_ne_nil_facts (mgs mw : Nat) (sr : ProfileN)
    (h : (bestWindow mgs mw sr).1 ≠ []) :
    (bestWindow mgs mw sr).1 =
        findCommonPfx ((sr.take (bestWindow mgs mw sr).2).map Prod.fst)
      ∧ 2 ≤ (bestWindow mgs mw sr).2 := by
  rcases bestWindow_inv mgs mw sr with h1 | h1
  · exact absurd h1 h
  · exact h1

theorem genPG_mem_pfx (mgs mw : Nat) (sr : ProfileN) :
    ∀ g ∈ generate_prefix_groups mgs mw sr, ∀ e ∈ g.2, g.1 <+: e.1 := by
  have H : ∀ n (sr : ProfileN), sr.length ≤ n →
      ∀ g ∈ generate_prefix_groups mgs mw sr, ∀ e ∈ g.2, g.1 <+: e.1 := by
    intro n
    induction n with
    | zero =>
      intro sr h
      have h0 : sr = [] := List.length_eq_zero.mp (Nat.le_zero.mp h)
      subst h0
      rw [genPG_nil]
      intro g hg
      simp at hg
    | succ n ih =>
      intro sr hlen
      cases sr with
      | nil =>
        rw [genPG_nil]
        intro g hg
        simp at hg
      | cons x xs =>
        by_cases hbp : (bestWindow mgs mw (x :: xs)).1.isEmpty
        · rw [genPG_cons_pos mgs mw x xs hbp]
          intro g hg
          rcases List.mem_cons.mp hg with h1 | h1
          · subst h1
            intro e _
            exact List.nil_prefix
          · exact ih xs (by simp at hlen; omega) g h1
        · have hbp2 : (bestWindow mgs mw (x :: xs)).1.isEmpty = false := by
            simpa using hbp
          rw [genPG_cons_neg mgs mw x xs hbp2]
          intro g hg
          rcases List.mem_cons.mp hg with h1 | h1
          · subst h1
            intro e he
            show (bestWindow mgs mw (x :: xs)).1 <+: e.1
            have hne : (bestWindow mgs mw (x :: xs)).1 ≠ [] := by
              simpa using hbp
            obtain ⟨hbw, hk2⟩ := bestWindow_ne_nil_facts mgs mw (x :: xs) hne
            have hj1 : 1 ≤ extendEnd (x :: xs) (bestWindow mgs mw (x :: xs)).1
                (bestWindow mgs mw (x :: xs)).2 := by
              have := extendEnd_ge (x :: xs) (bestWindow mgs mw (x :: xs)).1
                (bestWindow mgs mw (x :: xs)).2
              omega
            have hmem2 : e ∈ (x :: xs).take (extendEnd (x :: xs)
                (bestWindow mgs mw (x :: xs)).1 (bestWindow mgs mw (x :: xs)).2) := by
              rw [take_cons_pred x xs _ hj1]
              exact he
            obtain ⟨⟨i, hi⟩, hgi⟩ := List.get_of_mem hmem2
            have hb1 : ((x :: xs).take (extendEnd (x :: xs) (bestWindow mgs mw (x :: xs)).1
                (bestWindow mgs mw (x :: xs)).2)).length ≤ extendEnd (x :: xs)
                (bestWindow mgs mw (x :: xs)).1 (bestWindow mgs mw (x :: xs)).2 := by
              rw [List.length_take]
              exact Nat.min_le_left _ _
            have hb2 : ((x :: xs).take (extendEnd (x :: xs) (bestWindow mgs mw (x :: xs)).1
                (bestWindow mgs mw (x :: xs)).2)).length ≤ (x :: xs).length := by
              rw [List.length_take]
              exact Nat.min_le_right _ _
            have hil : i < (x :: xs).length := by
              omega
            have hij : i < extendEnd (x :: xs) (bestWindow mgs mw (x :: xs)).1
                (bestWindow mgs mw (x :: xs)).2 := by
              omega
            have hgete : (x :: xs)[i] = e := by
              rw [← hgi]
              simp [List.getElem_take]
            by_cases hibk : i < (bestWindow mgs mw (x :: xs)).2
            · have hmem : e ∈ (x :: xs).take (bestWindow mgs mw (x :: xs)).2 := by
                rw [← hgete]
                have hi2 : i < ((x :: xs).take (bestWindow mgs mw (x :: xs)).2).length := by
                  rw [List.length_take]
                  exact Nat.lt_min.mpr ⟨hibk, hil⟩
                have : ((x :: xs).take (bestWindow mgs mw (x :: xs)).2)[i] = (x :: xs)[i] := by
                  simp [List.getElem_take]
                rw [← this]
                exact List.getElem_mem hi2
              rw [hbw]
              exact findCommonPfx_prefix _ e.1 (List.mem_map_of_mem Prod.fst hmem)
            · apply extendEnd_mem (x :: xs) (bestWindow mgs mw (x :: xs)).1
                (bestWindow mgs mw (x :: xs)).2 i e (by omega) hij
              rw [List.getElem?_eq_getElem hil, hgete]
          · exact ih _ (by simp [List.length_drop] at hlen ⊢; omega) g h1
  exact H sr.length sr (Nat.le_refl _)

theorem genPG_empty_pfx_singleton (mgs mw : Nat) (sr : ProfileN) :
    ∀ g ∈ generate_prefix_groups mgs mw sr, g.1 = [] → ∃ y, g.2 = [y] := by
  have H : ∀ n (sr : ProfileN), sr.length ≤ n →
      ∀ g ∈ generate_prefix_groups mgs mw sr, g.1 = [] → ∃ y, g.2 = [y] := by
    intro n
    induction n with
    | zero =>
      intro sr h
      have h0 : sr = [] := List.length_eq_zero.mp (Nat.le_zero.mp h)
      subst h0
      rw [genPG_nil]
      intro g hg
      simp at hg
    | succ n ih =>
      intro sr hlen
      cases sr with
      | nil =>
        rw [genPG_nil]
        intro g hg
        simp at hg
      | cons x xs =>
        by_cases hbp : (bestWindow mgs mw (x :: xs)).1.isEmpty
        · rw [genPG_cons_pos mgs mw x xs hbp]
          intro g hg hg1
          rcases List.mem_cons.mp hg with h1 | h1
          · subst h1
            exact ⟨x, rfl⟩
          · exact ih xs (by simp at hlen; omega) g h1 hg1
        · have hbp2 : (bestWindow mgs mw (x :: xs)).1.isEmpty = false := by
            simpa using hbp
          rw [genPG_cons_neg mgs mw x xs hbp2]
          intro g hg hg1
          rcases List.mem_cons.mp hg with h1 | h1
          · subst h1
            have hne : (bestWindow mgs mw (x :: xs)).1 ≠ [] := by
              simpa using hbp
            exact absurd hg1 hne
          · exact ih _ (by simp [List.length_drop] at hlen ⊢; omega) g h1 hg1
  exact H sr.length sr (Nat.le_refl _)

theorem genPG_boundary (mgs mw : Nat) (sr : ProfileN) :
    ∀ pre g post, generate_prefix_groups mgs mw sr = pre ++ g :: post → g.1 ≠ [] →
      ∀ e, ((post.map Prod.snd).flatten).head? = some e → ¬ g.1 <+: e.1 := by
  have H : ∀ n (sr : ProfileN), sr.length ≤ n →
      ∀ pre g post, generate_prefix_groups mgs mw sr = pre ++ g :: post → g.1 ≠ [] →
        ∀ e, ((post.map Prod.snd).flatten).head? = some e → ¬ g.1 <+: e.1 := by
    intro n
    induction n with
    | zero =>
      intro sr h
      have h0 : sr = [] := List.length_eq_zero.mp (Nat.le_zero.mp h)
      subst h0
      rw [genPG_nil]
      intro pre g post heq
      exact absurd heq.symm (by simp)
    | succ n ih =>
      intro sr hlen
      cases sr with
      | nil =>
        rw [genPG_nil]
        intro pre g post heq
        exact absurd heq.symm (by simp)
      | cons x xs =>
        by_cases hbp : (bestWindow mgs mw (x :: xs)).1.isEmpty
        · rw [genPG_cons_pos mgs mw x xs hbp]
          intro pre g post heq hg1
          cases pre with
          | nil =>
            simp only [List.nil_append] at heq
            have : g = ([], [x]) := (List.cons_eq_cons.mp heq).1.symm
            rw [this] at hg1
            exact absurd rfl hg1
          | cons p0 pre2 =>
            simp only [List.cons_append] at heq
            have h2 := (List.cons_eq_cons.mp heq).2
            exact ih xs (by simp at hlen; omega) pre2 g post h2 hg1
        · have hbp2 : (bestWindow mgs mw (x :: xs)).1.isEmpty = false := by
            simpa using hbp
          rw [genPG_cons_neg mgs mw x xs hbp2]
          intro pre g post heq hg1
          cases pre with
          | nil =>
            simp only [List.nil_append] at heq
            obtain ⟨hghead, hposteq⟩ := List.cons_eq_cons.mp heq
            intro e he
            rw [← hposteq] at he
            rw [genPG_flatten mgs mw] at he
            have hne : (bestWindow mgs mw (x :: xs)).1 ≠ [] := by
              simpa using hbp
            obtain ⟨_, hk2⟩ := bestWindow_ne_nil_facts mgs mw (x :: xs) hne
            have hj1 : 1 ≤ extendEnd (x :: xs) (bestWindow mgs mw (x :: xs)).1
                (bestWindow mgs mw (x :: xs)).2 := by
              have := extendEnd_ge (x :: xs) (bestWindow mgs mw (x :: xs)).1
                (bestWindow mgs mw (x :: xs)).2
              omega
            have hdrop : xs.drop (extendEnd (x :: xs) (bestWindow mgs mw (x :: xs)).1
                  (bestWindow mgs mw (x :: xs)).2 - 1) =
                (x :: xs).drop (extendEnd (x :: xs) (bestWindow mgs mw (x :: xs)).1
                  (bestWindow mgs mw (x :: xs)).2) := by
              obtain ⟨m, hm⟩ : ∃ m, extendEnd (x :: xs) (bestWindow mgs mw (x :: xs)).1
                  (bestWindow mgs mw (x :: xs)).2 = m + 1 :=
                ⟨extendEnd (x :: xs) (bestWindow mgs mw (x :: xs)).1
                  (bestWindow mgs mw (x :: xs)).2 - 1, by omega⟩
              rw [hm]
              simp
            rw [hdrop] at he
            rw [List.head?_drop] at he
            have hstop := extendEnd_stop (x :: xs) (bestWindow mgs mw (x :: xs)).1
              (bestWindow mgs mw (x :: xs)).2 e he
            rw [← hghead]
            exact hstop
          | cons p0 pre2 =>
            simp only [List.cons_append] at heq
            have h2 := (List.cons_eq_cons.mp heq).2
            exact ih _ (by simp [List.length_drop] at hlen ⊢; omega) pre2 g post h2 hg1
  exact H sr.length sr (Nat.le_refl _)

/-! ## Claim theorems: compressor -/

/-- C2: for every sorted profile and every `min_group_size` (and window
size), concatenating the member lists of the prefix groups produced by
`generate_prefix_groups`, in output order, yields exactly the input
profile: the same (ranking, count) pairs in the same order, none dropped
and none duplicated. -/
theorem claim_C2_coverage (sr : ProfileN) (mgs mw : Nat) :
    ((generate_prefix_groups mgs mw sr).map Prod.snd).flatten = sr :=
  genPG_flatten mgs mw sr

/-- C3: every member of every prefix group emitted by
`generate_prefix_groups` has the group's prefix as a (possibly equal)
leading segment of its ranking. -/
theorem claim_C3_prefix_validity (sr : ProfileN) (mgs mw : Nat)
    (g : Ranking × ProfileN) (hg : g ∈ generate_prefix_groups mgs mw sr)
    (e : Ranking × Nat) (he : e ∈ g.2) : g.1 <+: e.1 :=
  genPG_mem_pfx mgs mw sr g hg e he

/-- Witness for C3 at a concrete profile: the group with prefix `(A, B)`
contains the member `(A, B, C)`. -/
theorem claim_C3_witness :
    ([ "A".data, "B".data ] : Ranking) <+: [ "A".data, "B".data, "C".data ] :=
  claim_C3_prefix_validity splitPfxProfile 2 200
    ([ "A".data, "B".data ],
      [([ "A".data, "B".data ], 1), ([ "A".data, "B".data, "C".data ], 1)])
    (by decide) ([ "A".data, "B".data, "C".data ], 1) (by decide)

/-- C6 as stated is false: on `splitPfxProfile` with `min_group_size = 2`
the compressor emits a group with chosen prefix `(A)` containing only the
last two entries, although the earlier entry `(A, B)` of the profile also
starts with `(A)` (it was consumed by the first group, whose chosen prefix
is `(A, B)`). -/
theorem claim_C6_counterexample :
    ¬ (∀ (sr : ProfileN) (mgs mw : Nat) (g : Ranking × ProfileN),
        g ∈ generate_prefix_groups mgs mw sr → g.1 ≠ [] →
        ∀ e ∈ sr, g.1 <+: e.1 → e ∈ g.2) := by
  intro h
  have hg : ([ "A".data ], [([ "A".data, "C".data ], 1), ([ "A".data, "D".data ], 1)])
      ∈ generate_prefix_groups 2 200 splitPfxProfile := by decide
  have hx := h splitPfxProfile 2 200 _ hg (by decide)
    ([ "A".data, "B".data ], 1) (by decide) (by decide)
  exact absurd hx (by decide)

/-- C6 amended: the extension step guarantees the absence of a forward
split only — whenever `generate_prefix_groups` emits a group with nonempty
chosen prefix, the profile entry immediately after the group's members (if
any) does not start with that prefix, so the group is never split at its
right boundary; entries consumed by earlier groups may still share the
prefix. -/
theorem claim_C6_boundary (sr : ProfileN) (mgs mw : Nat)
    (pre post : List (Ranking × ProfileN)) (g : Ranking × ProfileN)
    (heq : generate_prefix_groups mgs mw sr = pre ++ g :: post) (hne : g.1 ≠ [])
    (e : Ranking × Nat) (he : ((post.map Prod.snd).flatten).head? = some e) :
    ¬ g.1 <+: e.1 :=
  genPG_boundary mgs mw sr pre g post heq hne e he

/-- Witness for the amended C6: after the group with prefix `(A, B)` the
next entry is `(A, C)`, which does not start with `(A, B)`. -/
theorem claim_C6_witness :
    ¬ ([ "A".data, "B".data ] : Ranking) <+: [ "A".data, "C".data ] :=
  claim_C6_boundary splitPfxProfile 2 200 []
    [([ "A".data ], [([ "A".data, "C".data ], 1), ([ "A".data, "D".data ], 1)])]
    ([ "A".data, "B".data ],
      [([ "A".data, "B".data ], 1), ([ "A".data, "B".data, "C".data ], 1)])
    (by decide) (by decide) ([ "A".data, "C".data ], 1) (by decide)

/-- C7 as stated is false: the candidate end-points are a half-open Python
`range`, so (relative to the cursor) the inclusive upper bound is
`min(i + 199, N)`, not `min(i + 200, N)`: with 200 entries remaining and
`min_group_size = 20`, end-point 200 is claimed to be evaluated but is
not. -/
theorem claim_C7_counterexample :
    ¬ (∀ (len mgs k : Nat), k ∈ candidateEnds len mgs 200 ↔ mgs ≤ k ∧ k ≤ min 200 len) := by
  intro h
  have hx := (h 200 20 200).mpr (by decide)
  exact absurd hx (by decide)

/-- C7 amended: at each cursor the compressor evaluates as candidate group
end-points exactly the integers in the half-open interval
`[i + min_group_size, min(i + max_window, N + 1))` — equivalently the
inclusive interval `[i + min_group_size, min(i + max_window - 1, N)]` —
stated here relative to the cursor (`len` is the number of remaining
entries). -/
theorem claim_C7_window (len mgs mw k : Nat) :
    k ∈ candidateEnds len mgs mw ↔ mgs ≤ k ∧ k < min mw (len + 1) :=
  candidateEnds_mem len mgs mw k

/-- Witness for the amended C7 at concrete values. -/
theorem claim_C7_witness :
    25 ∈ candidateEnds 300 20 200 ↔ 20 ≤ 25 ∧ 25 < min 200 301 :=
  claim_C7_window 300 20 200 25

/-- C9: whenever a profile contains the empty ranking, the compressor
emits it as its own singleton group with empty prefix, and the empty
ranking never appears inside a multi-member group nor inside a group whose
prefix is nonempty. -/
theorem claim_C9_empty_standalone (sr : ProfileN) (mgs mw : Nat) (c : Nat)
    (hmem : (([] : Ranking), c) ∈ sr) :
    ((([] : Ranking), [(([] : Ranking), c)]) ∈ generate_prefix_groups mgs mw sr)
    ∧ ∀ g ∈ generate_prefix_groups mgs mw sr, (([] : Ranking), c) ∈ g.2 →
        g.1 = [] ∧ g.2 = [(([] : Ranking), c)] := by
  have hall : ∀ g ∈ generate_prefix_groups mgs mw sr, (([] : Ranking), c) ∈ g.2 →
      g.1 = [] ∧ g.2 = [(([] : Ranking), c)] := by
    intro g hg hgc
    have hpfx := genPG_mem_pfx mgs mw sr g hg ([], c) hgc
    have hg1 : g.1 = [] := List.prefix_nil.mp hpfx
    obtain ⟨y, hy⟩ := genPG_empty_pfx_singleton mgs mw sr g hg hg1
    rw [hy] at hgc
    simp at hgc
    exact ⟨hg1, by rw [hy, ← hgc]⟩
  refine ⟨?_, hall⟩
  have hmem2 : (([] : Ranking), c) ∈ ((generate_prefix_groups mgs mw sr).map Prod.snd).flatten := by
    rw [genPG_flatten mgs mw sr]
    exact hmem
  obtain ⟨l, hl, hel⟩ := List.mem_flatten.mp hmem2
  obtain ⟨g, hg, hgl⟩ := List.mem_map.mp hl
  rw [← hgl] at hel
  obtain ⟨hg1, hg2⟩ := hall g hg hel
  have hgeq : g = ([], [(([] : Ranking), c)]) := by
    rcases g with ⟨ga, gb⟩
    simp only at hg1 hg2
    rw [hg1, hg2]
  rw [← hgeq]
  exact hg

/-- Witness for C9 at a concrete profile containing the empty ranking. -/
theorem claim_C9_witness :
    ((([] : Ranking), [(([] : Ranking), 7)])
      ∈ generate_prefix_groups 2 200 [(([] : Ranking), 7), ([ "A".data ], 5)]) :=
  (claim_C9_empty_standalone [(([] : Ranking), 7), ([ "A".data ], 5)] 2 200 7 (by decide)).1

/-! ### Verifier lemmas -/

theorem sum_lookup_eq_sum_counts (m : ProfileZ) (h : (m.map Prod.fst).Nodup) :
    ((m.map Prod.fst).map (lookupD m)).sum = (m.map Prod.snd).sum := by
  induction m with
  | nil => rfl
  | cons e rest ih =>
    simp only [List.map_cons, List.nodup_cons] at h ⊢
    simp only [List.sum_cons]
    have h1 : lookupD (e :: rest) e.1 = e.2 := by
      simp [lookupD, lookupP_cons]
    have h2 : (rest.map Prod.fst).map (lookupD (e :: rest)) =
        (rest.map Prod.fst).map (lookupD rest) := by
      apply List.map_congr_left
      intro r hr
      have hne : ¬ e.1 = r := by
        intro hh
        exact h.1 (hh ▸ hr)
      simp [lookupD, lookupP_cons, hne]
    rw [h1, h2, ih h.2]

theorem grandTotal_eq_of (orig recon : ProfileZ)
    (hno : (orig.map Prod.fst).Nodup) (hnr : (recon.map Prod.fst).Nodup)
    (h1 : ∀ r ∈ orig.map Prod.fst, r ∈ recon.map Prod.fst)
    (h2 : ∀ r ∈ recon.map Prod.fst, r ∈ orig.map Prod.fst)
    (h3 : ∀ r ∈ orig.map Prod.fst, lookupD orig r = lookupD recon r) :
    grandTotal orig = grandTotal recon := by
  have hperm : List.Perm (orig.map Prod.fst) (recon.map Prod.fst) :=
    (List.perm_ext_iff_of_nodup hno hnr).mpr (fun a => ⟨h1 a, h2 a⟩)
  have e1 : grandTotal orig = ((orig.map Prod.fst).map (lookupD orig)).sum :=
    (sum_lookup_eq_sum_counts orig hno).symm
  have e2 : grandTotal recon = ((recon.map Prod.fst).map (lookupD recon)).sum :=
    (sum_lookup_eq_sum_counts recon hnr).symm
  rw [e1, e2]
  rw [List.map_congr_left h3]
  exact List.Perm.sum_eq (List.Perm.map (lookupD recon) hperm)

/-! ## Claim theorem: verifier -/

/-- C5: the round-trip verifier `verify_district` reports success exactly
when no ranking of the original is missing from the reconstruction, the
reconstruction has no ranking absent from the original, every ranking of
the original has exactly equal counts in both, and the grand totals (sum
of counts over all entries) agree. -/
theorem claim_C5_verify_iff (orig recon : ProfileZ)
    (hno : (orig.map Prod.fst).Nodup) (hnr : (recon.map Prod.fst).Nodup) :
    verify_district orig recon = true ↔
      ((∀ r ∈ orig.map Prod.fst, r ∈ recon.map Prod.fst)
        ∧ (∀ r ∈ recon.map Prod.fst, r ∈ orig.map Prod.fst)
        ∧ (∀ r ∈ orig.map Prod.fst, lookupD orig r = lookupD recon r)
        ∧ grandTotal orig = grandTotal recon) := by
  unfold verify_district
  simp only [Bool.and_eq_true, List.isEmpty_iff, List.filter_eq_nil_iff, beq_iff_eq,
    List.countP_eq_zero, Bool.not_eq_eq_eq_not, Bool.not_true, List.elem_iff,
    decide_eq_false_iff_not, Bool.not_eq_false', beq_iff_eq, decide_eq_true_eq]
  constructor
  · rintro ⟨⟨⟨hm, he⟩, hc⟩, _⟩
    have h1 : ∀ r ∈ orig.map Prod.fst, r ∈ recon.map Prod.fst := by
      intro r hr
      by_contra hno2
      exact absurd (hm r hr) (by simp [hno2])
    have h2 : ∀ r ∈ recon.map Prod.fst, r ∈ orig.map Prod.fst := by
      intro r hr
      by_contra hno2
      exact absurd (he r hr) (by simp [hno2])
    have h3 : ∀ r ∈ orig.map Prod.fst, lookupD orig r = lookupD recon r := by
      intro r hr
      have := hc r hr
      by_contra hne
      exact absurd this (by simp [hne])
    exact ⟨h1, h2, h3, grandTotal_eq_of orig recon hno hnr h1 h2 h3⟩
  · rintro ⟨h1, h2, h3, _⟩
    refine ⟨⟨⟨?_, ?_⟩, ?_⟩, ?_⟩
    · intro r hr
      simp [h1 r hr]
    · intro r hr
      simp [h2 r hr]
    · intro r hr
      simp [h3 r hr]
    · exact congrArg List.sum (List.map_congr_left h3)

/-- Witness for C5: the verifier succeeds on a profile compared with
itself. -/
theorem claim_C5_witness :
    verify_district [([ "A".data ], 2)] [([ "A".data ], 2)] = true :=
  (claim_C5_verify_iff [([ "A".data ], 2)] [([ "A".data ], 2)] (by decide) (by decide)).mpr
    ⟨by decide, by decide, by decide, by decide⟩

/-! ### Line-shape helpers -/

theorem isPrefixOf_append_false (p a b : Str) (h1 : (a.isPrefixOf p) = false)
    (h2 : (p.isPrefixOf a) = false) : (p.isPrefixOf (a ++ b)) = false := by
  cases h : (p.isPrefixOf (a ++ b)) with
  | false => rfl
  | true =>
    have hp : p <+: a ++ b := List.isPrefixOf_iff_prefix.mp h
    have ha : a <+: a ++ b := List.prefix_append a b
    rcases List.prefix_or_prefix_of_prefix hp ha with hx | hx
    · have hT := List.isPrefixOf_iff_prefix.mpr hx
      rw [hT] at h2
      simp at h2
    · have hT := List.isPrefixOf_iff_prefix.mpr hx
      rw [hT] at h1
      simp at h1

theorem contains_iff_memS (l : Str) (c : Char) : l.contains c = true ↔ c ∈ l := by
  simp

theorem contains_append_left {c : Char} (a b : Str) (h : a.contains c = true) :
    (a ++ b).contains c = true :=
  (contains_iff_memS _ c).mpr (List.mem_append_left b ((contains_iff_memS a c).mp h))

theorem contains_append_of_none {c : Char} (a b : Str) (ha : a.contains c = false)
    (hb : b.contains c = false) : (a ++ b).contains c = false := by
  cases h : (a ++ b).contains c with
  | false => rfl
  | true =>
    have hmem : c ∈ a ++ b := (contains_iff_memS _ c).mp h
    rcases List.mem_append.mp hmem with hx | hx
    · rw [(contains_iff_memS a c).mpr hx] at ha
      exact Bool.noConfusion ha
    · rw [(contains_iff_memS b c).mpr hx] at hb
      exact Bool.noConfusion hb

/-! ### Legend state machine -/

theorem legendStep_skip (st : Bool × Legend) (line : Str) (h1 : st.1 = false)
    (h2 : ("CANDIDATE LEGEND".data.isPrefixOf line) = false) : legendStep st line = st := by
  unfold legendStep
  rw [if_neg (by simp [h2])]
  rw [h1]
  simp

theorem foldl_legendStep_skip_all (lines : List Str) (leg : Legend)
    (h : ∀ l ∈ lines, ("CANDIDATE LEGEND".data.isPrefixOf l) = false) :
    lines.foldl legendStep (false, leg) = (false, leg) := by
  induction lines with
  | nil => rfl
  | cons l rest ih =>
    rw [List.foldl_cons, legendStep_skip (false, leg) l rfl (h l (by simp))]
    exact ih (fun x hx => h x (by simp [hx]))

theorem legendStep_close (leg : Legend) (line : Str)
    (h : trimStr line = [] ∨ ("EXPLANATION".data.isPrefixOf line) = true)
    (h2 : ("CANDIDATE LEGEND".data.isPrefixOf line) = false) :
    legendStep (true, leg) line = (false, leg) := by
  unfold legendStep
  rw [if_neg (by simp [h2])]
  rw [if_pos (show (true, leg).1 = true from rfl)]
  rw [if_pos h]

theorem legendStep_entry (leg : Legend) (line : Str) (cid : Str) (nm : Name)
    (hmarker : ("CANDIDATE LEGEND".data.isPrefixOf line) = false)
    (hexpl : ("EXPLANATION".data.isPrefixOf line) = false)
    (htrim : trimStr line ≠ [])
    (hdash : ((List.replicate 40 '-').isPrefixOf line) = false)
    (hparse : parseLegendLine (trimStr line) = some (cid, nm)) :
    legendStep (true, leg) line = (true, dictSet leg cid nm) := by
  unfold legendStep
  rw [if_neg (by simp [hmarker])]
  have hcl : ¬ (trimStr line = [] ∨ ("EXPLANATION".data.isPrefixOf line) = true) := by
    intro hcon
    rcases hcon with hx | hx
    · exact htrim hx
    · rw [hexpl] at hx
      exact Bool.noConfusion hx
  rw [if_pos (show (true, leg).1 = true from rfl)]
  rw [if_neg hcl]
  rw [if_neg (show ¬ (((List.replicate 40 '-').isPrefixOf line) = true) from by
    rw [hdash]; exact Bool.noConfusion)]
  rw [hparse]

/-! ### Profile state machine -/

theorem profStep_done (leg : Legend) (s : PSt) (line : Str) (hd : s.done = true) :
    profStep leg (some s) line = some s := by
  unfold profStep
  dsimp only
  rw [if_pos hd]

theorem profStep_marker (leg : Legend) (s : PSt) (line : Str) (hd : s.done = false)
    (h1 : ("PREFERENCE PROFILE".data.isPrefixOf line) = true) :
    profStep leg (some s) line = some { s with inProf := true } := by
  unfold profStep
  dsimp only
  rw [if_neg (by simp [hd]), if_pos h1]

theorem profStep_endMarker (leg : Legend) (s : PSt) (line : Str) (hd : s.done = false)
    (h1 : ("PREFERENCE PROFILE".data.isPrefixOf line) = false)
    (h2 : ("END OF ABSTRACT".data.isPrefixOf line) = true) :
    profStep leg (some s) line = some { s with done := true } := by
  unfold profStep
  dsimp only
  rw [if_neg (by simp [hd]), if_neg (by simp [h1]), if_pos h2]

theorem profStep_preMarker (leg : Legend) (s : PSt) (line : Str) (hd : s.done = false)
    (hip : s.inProf = false)
    (h1 : ("PREFERENCE PROFILE".data.isPrefixOf line) = false)
    (h2 : ("END OF ABSTRACT".data.isPrefixOf line) = false) :
    profStep leg (some s) line = some s := by
  unfold profStep
  dsimp only
  rw [if_neg (by simp [hd]), if_neg (by simp [h1]), if_neg (by simp [h2]), if_pos (by simp [hip])]

theorem profStep_noColon (leg : Legend) (s : PSt) (line : Str) (hd : s.done = false)
    (hip : s.inProf = true)
    (h1 : ("PREFERENCE PROFILE".data.isPrefixOf line) = false)
    (h2 : ("END OF ABSTRACT".data.isPrefixOf line) = false)
    (h3 : ("PREFIX:".data.isPrefixOf line) = false)
    (h4 : line.contains ':' = false) :
    profStep leg (some s) line = some s := by
  unfold profStep
  dsimp only
  rw [if_neg (by simp [hd]), if_neg (by simp [h1]), if_neg (by simp [h2]),
    if_neg (by simp [hip]), if_neg (by simp [h3]),
    if_neg (show ¬ (line.contains ':' = true) from by rw [h4]; exact Bool.noConfusion)]

theorem profStep_pfxLine (leg : Legend) (s : PSt) (line : Str) (hd : s.done = false)
    (hip : s.inProf = true)
    (h1 : ("PREFERENCE PROFILE".data.isPrefixOf line) = false)
    (h2 : ("END OF ABSTRACT".data.isPrefixOf line) = false)
    (h3 : ("PREFIX:".data.isPrefixOf line) = true) :
    profStep leg (some s) line =
      (if trimStr (replaceAll "PREFIX:".data [] line) = [] then some { s with curPfx := [] }
       else some { s with curPfx :=
         (splitOnChar '>' (trimStr (replaceAll "PREFIX:".data [] line))).map trimStr }) := by
  unfold profStep
  dsimp only
  rw [if_neg (by simp [hd]), if_neg (by simp [h1]), if_neg (by simp [h2]),
    if_neg (by simp [hip]), if_pos h3]
  by_cases hps : trimStr (replaceAll "PREFIX:".data [] line) = []
  · rw [if_pos hps, if_pos (by simp [hps])]
  · rw [if_neg hps, if_neg (by simp [hps])]

theorem profStep_data (leg : Legend) (s : PSt) (line lhs rhs : Str) (hd : s.done = false)
    (hip : s.inProf = true)
    (h1 : ("PREFERENCE PROFILE".data.isPrefixOf line) = false)
    (h2 : ("END OF ABSTRACT".data.isPrefixOf line) = false)
    (h3 : ("PREFIX:".data.isPrefixOf line) = false)
    (h4 : line.contains ':' = true)
    (hsplit : splitOnChar ':' line = [lhs, rhs])
    (cnt : Int) (hcnt : pyInt? (trimStr rhs) = some cnt)
    (names : Ranking) (htr : translateIds leg (classifyIds s.curPfx (trimStr lhs)) = some names) :
    profStep leg (some s) line = some { s with prof := dictSet s.prof names cnt } := by
  unfold profStep
  dsimp only
  rw [if_neg (by simp [hd]), if_neg (by simp [h1]), if_neg (by simp [h2]),
    if_neg (by simp [hip]), if_neg (by simp [h3]), if_pos h4, hsplit]
  simp only [hcnt, htr]

theorem profStep_badCount (leg : Legend) (s : PSt) (line lhs rhs : Str) (hd : s.done = false)
    (hip : s.inProf = true)
    (h1 : ("PREFERENCE PROFILE".data.isPrefixOf line) = false)
    (h2 : ("END OF ABSTRACT".data.isPrefixOf line) = false)
    (h3 : ("PREFIX:".data.isPrefixOf line) = false)
    (h4 : line.contains ':' = true)
    (hsplit : splitOnChar ':' line = [lhs, rhs])
    (hcnt : pyInt? (trimStr rhs) = none) :
    profStep leg (some s) line = some s := by
  unfold profStep
  dsimp only
  rw [if_neg (by simp [hd]), if_neg (by simp [h1]), if_neg (by simp [h2]),
    if_neg (by simp [hip]), if_neg (by simp [h3]), if_pos h4, hsplit]
  simp only [hcnt]

theorem profStep_badId (leg : Legend) (s : PSt) (line lhs rhs : Str) (hd : s.done = false)
    (hip : s.inProf = true)
    (h1 : ("PREFERENCE PROFILE".data.isPrefixOf line) = false)
    (h2 : ("END OF ABSTRACT".data.isPrefixOf line) = false)
    (h3 : ("PREFIX:".data.isPrefixOf line) = false)
    (h4 : line.contains ':' = true)
    (hsplit : splitOnChar ':' line = [lhs, rhs])
    (cnt : Int) (hcnt : pyInt? (trimStr rhs) = some cnt)
    (htr : translateIds leg (classifyIds s.curPfx (trimStr lhs)) = none) :
    profStep leg (some s) line = none := by
  unfold profStep
  dsimp only
  rw [if_neg (by simp [hd]), if_neg (by simp [h1]), if_neg (by simp [h2]),
    if_neg (by simp [hip]), if_neg (by simp [h3]), if_pos h4, hsplit]
  simp only [hcnt, htr]

theorem foldl_profStep_done (leg : Legend) (s : PSt) (lines : List Str) (hd : s.done = true) :
    lines.foldl (profStep leg) (some s) = some s := by
  induction lines with
  | nil => rfl
  | cons l rest ih =>
    rw [List.foldl_cons, profStep_done leg s l hd]
    exact ih

theorem foldl_profStep_preMarker (leg : Legend) (s : PSt) (lines : List Str)
    (hd : s.done = false) (hip : s.inProf = false)
    (h : ∀ l ∈ lines, ("PREFERENCE PROFILE".data.isPrefixOf l) = false ∧
      ("END OF ABSTRACT".data.isPrefixOf l) = false) :
    lines.foldl (profStep leg) (some s) = some s := by
  induction lines with
  | nil => rfl
  | cons l rest ih =>
    rw [List.foldl_cons,
      profStep_preMarker leg s l hd hip (h l (by simp)).1 (h l (by simp)).2]
    exact ih (fun x hx => h x (by simp [hx]))

theorem foldl_profStep_none (leg : Legend) (lines : List Str) :
    lines.foldl (profStep leg) none = none := by
  induction lines with
  | nil => rfl
  | cons l rest ih =>
    rw [List.foldl_cons]
    exact ih

/-! ### Trim and token shape lemmas -/

theorem length_dropWhile_le (p : Char → Bool) (l : Str) :
    (l.dropWhile p).length ≤ l.length := by
  induction l with
  | nil => exact Nat.le_refl _
  | cons c rest ih =>
    by_cases h : p c
    · rw [List.dropWhile_cons_of_pos h]
      exact Nat.le_trans ih (by simp)
    · rw [List.dropWhile_cons_of_neg h]

theorem trimStr_length_le (l : Str) : (trimStr l).length ≤ l.length := by
  unfold trimStr
  calc ((l.dropWhile isWs).reverse.dropWhile isWs).reverse.length
      = ((l.dropWhile isWs).reverse.dropWhile isWs).length := by simp
    _ ≤ (l.dropWhile isWs).reverse.length := length_dropWhile_le _ _
    _ = (l.dropWhile isWs).length := by simp
    _ ≤ l.length := length_dropWhile_le _ _

theorem trimStr_head_not_ws (l : Str) (heq : trimStr l = l) (hne : l ≠ []) :
    ∀ c, l.head? = some c → isWs c = false := by
  intro c hc
  cases l with
  | nil => exact absurd rfl hne
  | cons x rest =>
    have hx : x = c := by
      simp at hc
      exact hc
    subst hx
    cases hws : isWs x with
    | false => rfl
    | true =>
      have h1 : trimStr (x :: rest) = trimStr rest := trimStr_cons_ws x rest hws
      have h2 : (trimStr rest).length ≤ rest.length := trimStr_length_le rest
      rw [heq] at h1
      have : (x :: rest).length = (trimStr rest).length := by rw [h1]
      simp at this
      omega

theorem trimStr_last_not_ws (l : Str) (heq : trimStr l = l) (hne : l ≠ []) :
    ∀ c, l.getLast? = some c → isWs c = false := by
  intro c hc
  cases hws : isWs c with
  | false => rfl
  | true =>
    have hsplit : l.dropLast ++ [c] = l := by
      have h0 := List.dropLast_append_getLast hne
      have h1 : l.getLast hne = c := by
        have := List.getLast?_eq_getLast l hne
        rw [this] at hc
        exact Option.some_injective _ hc
      rw [h1] at h0
      exact h0
    have h1 : trimStr l = trimStr l.dropLast := by
      conv_lhs => rw [← hsplit]
      exact trimStr_append_right_all l.dropLast [c] (by simp [hws])
    rw [heq] at h1
    have h2 : (trimStr l.dropLast).length ≤ l.dropLast.length := trimStr_length_le _
    have h3 : l.dropLast.length = l.length - 1 := by simp
    have h4 : l.length = (trimStr l.dropLast).length := by rw [← h1]
    have h5 : 1 ≤ l.length := by
      cases l with
      | nil => exact absurd rfl hne
      | cons a b => simp
    omega

theorem trimStr_wf (n : Name) (h : wfName n) : trimStr n = n := h.2.1

theorem trimStr_eq_self_of_wf (n : Name) (h : wfName n) :
    (∀ c, n.head? = some c → isWs c = false) ∧ (∀ c, n.getLast? = some c → isWs c = false) :=
  ⟨trimStr_head_not_ws n h.2.1 h.1, trimStr_last_not_ws n h.2.1 h.1⟩

theorem takeWhile_append_all {p : Char → Bool} (a : Str) (b : Str) (h : ∀ c ∈ a, p c = true) :
    (a ++ b).takeWhile p = a ++ b.takeWhile p := by
  induction a with
  | nil => rfl
  | cons c rest ih =>
    have hc := h c (by simp)
    simp only [List.cons_append, List.takeWhile_cons_of_pos hc]
    rw [ih (fun x hx => h x (by simp [hx]))]

theorem takeWhile_nil_of_head {p : Char → Bool} (l : Str)
    (h : ∀ c, l.head? = some c → p c = false) : l.takeWhile p = [] := by
  cases l with
  | nil => rfl
  | cons c rest =>
    have := h c rfl
    rw [List.takeWhile_cons_of_neg (by simp [this])]

theorem dropWhile_self_of_head {p : Char → Bool} (l : Str)
    (h : ∀ c, l.head? = some c → p c = false) : l.dropWhile p = l :=
  dropWhile_eq_self_of_head l h

/-! ### Parsing a rendered legend line -/

theorem cidOf_tail_digits (i : Nat) : ∀ c ∈ (cidOf i).tail, c.isDigit = true := by
  unfold cidOf
  by_cases h : i + 1 < 10
  · rw [if_pos h]
    intro c hc
    simp only [List.tail_cons] at hc
    rcases List.mem_cons.mp hc with h1 | h1
    · rw [h1]
      decide
    · exact natDigits_all_digit _ c h1
  · rw [if_neg h]
    intro c hc
    simp only [List.tail_cons] at hc
    exact natDigits_all_digit _ c hc

theorem parseLegendLine_entry (i : Nat) (nm : Name) (hwf : wfName nm) :
    parseLegendLine (cidOf i ++ "  ".data ++ nm) = some (cidOf i, nm) := by
  obtain ⟨d, rest, hshape, hd⟩ := cidOf_shape i
  have hsp : "  ".data ++ nm = ' ' :: ' ' :: nm := rfl
  have htail : cidOf i ++ "  ".data ++ nm = 'C' :: ((d :: rest) ++ (' ' :: ' ' :: nm)) := by
    rw [hshape]
    simp
  rw [htail]
  unfold parseLegendLine
  dsimp only
  rw [if_pos (rfl : ('C' : Char) = 'C')]
  have hdig : ∀ c ∈ d :: rest, c.isDigit = true := by
    have h0 := cidOf_tail_digits i
    rw [hshape] at h0
    simpa using h0
  have hds : ((d :: rest) ++ (' ' :: ' ' :: nm)).takeWhile Char.isDigit = d :: rest := by
    rw [takeWhile_append_all _ _ hdig]
    rw [takeWhile_nil_of_head _ (by
      intro c hc
      simp at hc
      subst hc
      decide)]
    simp
  have hafter : ((d :: rest) ++ (' ' :: ' ' :: nm)).dropWhile Char.isDigit = ' ' :: ' ' :: nm := by
    rw [dropWhile_append_all _ _ hdig]
    exact dropWhile_self_of_head _ (by
      intro c hc
      simp at hc
      subst hc
      decide)
  rw [hds, hafter]
  have hnmhead := (trimStr_eq_self_of_wf nm hwf).1
  have hws1 : (' ' :: ' ' :: nm).takeWhile isWs = ' ' :: ' ' :: nm.takeWhile isWs := by
    rw [List.takeWhile_cons_of_pos (by decide), List.takeWhile_cons_of_pos (by decide)]
  have hws2 : nm.takeWhile isWs = [] := by
    apply takeWhile_nil_of_head
    intro c hc
    exact hnmhead c hc
  have hnm : (' ' :: ' ' :: nm).dropWhile isWs = nm := by
    rw [List.dropWhile_cons_of_pos (by decide), List.dropWhile_cons_of_pos (by decide)]
    exact dropWhile_self_of_head nm hnmhead
  rw [hws1, hws2, hnm]
  rw [if_neg (by simp), if_neg (by simp), if_neg (by simp [hwf.1])]
  rw [trimStr_wf nm hwf, hshape]

/-! ### Parsing a rendered data line -/

theorem beq_colon_false_of_digit (c : Char) (h : c.isDigit = true) : (c == ':') = false := by
  obtain ⟨h1, _⟩ := isDigit_char_facts c h
  exact beq_eq_false_iff_ne.mpr h1

theorem splitColon_countLine (a : Str) (n : Nat) (ha : ∀ c ∈ a, (c == ':') = false) :
    splitOnChar ':' (a ++ " : ".data ++ natDigits n) =
      [a ++ " ".data, " ".data ++ natDigits n] := by
  have hshape : a ++ " : ".data ++ natDigits n =
      (a ++ " ".data) ++ ':' :: (" ".data ++ natDigits n) := by
    simp
  rw [hshape]
  unfold splitOnChar
  rw [splitPred_append_sep (a ++ " ".data) (" ".data ++ natDigits n) ?ha2 (by decide)]
  case ha2 =>
    intro x hx
    rcases List.mem_append.mp hx with h1 | h1
    · exact ha x h1
    · simp at h1
      subst h1
      decide
  rw [splitPred_no_sep _ ?hb]
  case hb =>
    intro c hc
    rcases List.mem_append.mp hc with h1 | h1
    · simp at h1
      subst h1
      decide
    · exact beq_colon_false_of_digit c (natDigits_all_digit n c h1)

theorem trim_count_side (n : Nat) : trimStr (" ".data ++ natDigits n) = natDigits n := by
  rw [trimStr_append_left_all " ".data _ (by decide)]
  apply trimStr_eq_self
  · intro c hc
    exact isDigit_not_ws c (natDigits_all_digit n c (List.mem_of_mem_head? hc))
  · intro c hc
    exact isDigit_not_ws c (natDigits_all_digit n c (List.mem_of_mem_getLast? hc))

theorem pyInt_count_side (n : Nat) :
    pyInt? (trimStr (" ".data ++ natDigits n)) = some ((n : Nat) : Int) := by
  rw [trim_count_side]
  exact pyInt_natDigits n

theorem contains_colon_countLine (a : Str) (n : Nat) :
    (a ++ " : ".data ++ natDigits n).contains ':' = true := by
  rw [List.append_assoc]
  have h1 : (" : ".data ++ natDigits n).contains ':' = true := by
    apply contains_append_left
    decide
  cases h : (a ++ (" : ".data ++ natDigits n)).contains ':' with
  | true => rfl
  | false =>
    have hmem : (':' : Char) ∈ " : ".data ++ natDigits n := (contains_iff_memS _ ':').mp h1
    have : (':' : Char) ∈ a ++ (" : ".data ++ natDigits n) := List.mem_append_right a hmem
    rw [(contains_iff_memS _ ':').mpr this] at h
    exact Bool.noConfusion h

/-! ### C4: duplicate data lines -/

theorem dupLine_legend (a b : Nat) :
    parseLegend (dupLineAbstract a b) = [("C01".data, "Alice".data)] := by
  unfold parseLegend dupLineAbstract
  simp only [List.foldl_cons, List.foldl_nil]
  rw [(by decide : legendStep (false, ([] : Legend)) ("CANDIDATE LEGEND".data) = (true, []))]
  rw [(by decide : legendStep ((true, []) : Bool × Legend) ("C01  Alice".data) =
    (true, [("C01".data, "Alice".data)]))]
  rw [(by decide : legendStep ((true, [("C01".data, "Alice".data)]) : Bool × Legend) ([] : Str) =
    (false, [("C01".data, "Alice".data)]))]
  rw [legendStep_skip _ _ rfl (by decide)]
  rw [legendStep_skip _ _ rfl (isPrefixOf_append_false _ _ _ (by decide) (by decide))]
  rw [legendStep_skip _ _ rfl (isPrefixOf_append_false _ _ _ (by decide) (by decide))]
  rw [legendStep_skip _ _ rfl (by decide)]

/-- C4 amended: when the same ranking appears on two data lines, the
decoder's dict assignment makes the later line replace the earlier one —
the reconstructed profile maps the ranking to the count of the last such
line, not to the sum. -/
theorem claim_C4_last_wins (a b : Nat) :
    load_abstract_profile (dupLineAbstract a b) =
      some ([([ "Alice".data ], (b : Int))], [("C01".data, "Alice".data)]) := by
  have hleg := dupLine_legend a b
  unfold load_abstract_profile
  rw [hleg]
  unfold dupLineAbstract
  simp only [List.foldl_cons, List.foldl_nil]
  rw [profStep_preMarker _ _ _ rfl rfl (by decide) (by decide)]
  rw [profStep_preMarker _ _ _ rfl rfl (by decide) (by decide)]
  rw [profStep_preMarker _ _ _ rfl rfl (by decide) (by decide)]
  rw [profStep_marker _ _ _ rfl (by decide)]
  dsimp only
  rw [profStep_data _ ⟨true, false, [], []⟩ _ ("C01".data ++ " ".data)
    (" ".data ++ natDigits a) rfl rfl
    (isPrefixOf_append_false _ _ _ (by decide) (by decide))
    (isPrefixOf_append_false _ _ _ (by decide) (by decide))
    (isPrefixOf_append_false _ _ _ (by decide) (by decide))
    (contains_colon_countLine "C01".data a)
    (splitColon_countLine "C01".data a (by decide))
    ((a : Nat) : Int) (pyInt_count_side a)
    [ "Alice".data ] (by decide)]
  dsimp only
  simp only [dictSet]
  rw [profStep_data _ ⟨true, false, [], [([ "Alice".data ], ((a : Nat) : Int))]⟩ _
    ("C01".data ++ " ".data) (" ".data ++ natDigits b) rfl rfl
    (isPrefixOf_append_false _ _ _ (by decide) (by decide))
    (isPrefixOf_append_false _ _ _ (by decide) (by decide))
    (isPrefixOf_append_false _ _ _ (by decide) (by decide))
    (contains_colon_countLine "C01".data b)
    (splitColon_countLine "C01".data b (by decide))
    ((b : Nat) : Int) (pyInt_count_side b)
    [ "Alice".data ] (by dsimp only; decide)]
  dsimp only
  rw [profStep_endMarker _ ⟨true, false, [],
      dictSet [([ "Alice".data ], ((a : Nat) : Int))] [ "Alice".data ] ((b : Nat) : Int)⟩ _
    rfl (by decide) (by decide)]
  simp [dictSet]

/-- C4 as stated is false: on an abstract whose profile section lists the
ranking `(Alice)` twice with counts 1 and then 2, the decoder reconstructs
count 2 (the last line), not the sum 3. -/
theorem claim_C4_counterexample :
    (load_abstract_profile (dupLineAbstract 1 2)).bind
        (fun x => lookupP x.1 [ "Alice".data ]) = some 2 ∧
      ¬ ((load_abstract_profile (dupLineAbstract 1 2)).bind
          (fun x => lookupP x.1 [ "Alice".data ]) = some ((1 : Int) + 2)) := by
  constructor
  · decide
  · decide

/-! ### C8: duplicate legend IDs -/

theorem append_ne_nil_left (a b : Str) (ha : a ≠ []) : a ++ b ≠ [] := by
  intro h
  rcases List.append_eq_nil.mp h with ⟨h1, _⟩
  exact ha h1

theorem trimStr_append_keep (a b : Str) (ha : a ≠ [])
    (hh : ∀ c, a.head? = some c → isWs c = false)
    (hb : b ≠ []) (hl : ∀ c, b.getLast? = some c → isWs c = false) :
    trimStr (a ++ b) = a ++ b := by
  apply trimStr_eq_self
  · intro c hc
    cases a with
    | nil => exact absurd rfl ha
    | cons x xs =>
      have hx : ((x :: xs) ++ b).head? = some x := rfl
      rw [hx] at hc
      exact hh c (by rw [← hc]; exact rfl)
  · intro c hc
    rw [List.getLast?_append_of_ne_nil a hb] at hc
    exact hl c hc

theorem trimStr_cid_line (i : Nat) (nm : Name) (hwf : wfName nm) :
    trimStr (cidOf i ++ "  ".data ++ nm) = cidOf i ++ "  ".data ++ nm := by
  obtain ⟨d, rest, hshape, hd⟩ := cidOf_shape i
  apply trimStr_append_keep
  · rw [hshape]
    exact List.cons_ne_nil _ _
  · intro c hc
    rw [hshape] at hc
    have hcC : c = 'C' := by
      simp at hc
      exact hc.symm
    rw [hcC]
    decide
  · exact hwf.1
  · intro c hc
    exact trimStr_last_not_ws nm hwf.2.1 hwf.1 c hc

theorem dupLegend_legend (n1 n2 : Name) (h1 : wfName n1) (h2 : wfName n2) :
    parseLegend (dupLegendAbstract n1 n2) = [("C01".data, n2)] := by
  have hC : cidOf 0 = "C01".data := by decide
  have htr1 : trimStr ("C01".data ++ "  ".data ++ n1) = "C01".data ++ "  ".data ++ n1 := by
    have := trimStr_cid_line 0 n1 h1
    rw [hC] at this
    exact this
  have htr2 : trimStr ("C01".data ++ "  ".data ++ n2) = "C01".data ++ "  ".data ++ n2 := by
    have := trimStr_cid_line 0 n2 h2
    rw [hC] at this
    exact this
  have hp1 : parseLegendLine (trimStr ("C01".data ++ "  ".data ++ n1)) =
      some ("C01".data, n1) := by
    have e := parseLegendLine_entry 0 n1 h1
    rw [hC] at e
    rw [htr1]
    exact e
  have hp2 : parseLegendLine (trimStr ("C01".data ++ "  ".data ++ n2)) =
      some ("C01".data, n2) := by
    have e := parseLegendLine_entry 0 n2 h2
    rw [hC] at e
    rw [htr2]
    exact e
  unfold parseLegend dupLegendAbstract
  simp only [List.foldl_cons, List.foldl_nil]
  rw [(by decide : legendStep (false, ([] : Legend)) ("CANDIDATE LEGEND".data) = (true, []))]
  rw [legendStep_entry [] _ "C01".data n1
    (isPrefixOf_append_false _ _ _ (by decide) (by decide))
    (isPrefixOf_append_false _ _ _ (by decide) (by decide))
    (by rw [htr1]; exact append_ne_nil_left _ _ (by decide))
    (isPrefixOf_append_false _ _ _ (by decide) (by decide)) hp1]
  simp only [dictSet]
  rw [legendStep_entry [("C01".data, n1)] _ "C01".data n2
    (isPrefixOf_append_false _ _ _ (by decide) (by decide))
    (isPrefixOf_append_false _ _ _ (by decide) (by decide))
    (by rw [htr2]; exact append_ne_nil_left _ _ (by decide))
    (isPrefixOf_append_false _ _ _ (by decide) (by decide)) hp2]
  have hds : dictSet [("C01".data, n1)] "C01".data n2 = [("C01".data, n2)] := by
    simp [dictSet]
  rw [hds]
  rw [legendStep_close _ ([] : Str) (Or.inl rfl) (by decide)]
  rw [legendStep_skip _ _ rfl (by decide)]
  rw [legendStep_skip _ _ rfl (by decide)]
  rw [legendStep_skip _ _ rfl (by decide)]

/-- C8 amended: the decoder does NOT abort on a legend with two lines bearing
the same candidate ID; the dict assignment makes the later line's name
replace the earlier one, and decoding completes with the duplicated ID bound
to the LAST name. -/
theorem claim_C8_last_wins (n1 n2 : Name) (h1 : wfName n1) (h2 : wfName n2) :
    load_abstract_profile (dupLegendAbstract n1 n2) =
      some ([([n2], (1 : Int))], [("C01".data, n2)]) := by
  have hleg := dupLegend_legend n1 n2 h1 h2
  unfold load_abstract_profile
  rw [hleg]
  unfold dupLegendAbstract
  simp only [List.foldl_cons, List.foldl_nil]
  rw [profStep_preMarker _ _ _ rfl rfl (by decide) (by decide)]
  rw [profStep_preMarker _ _ _ rfl rfl
    (isPrefixOf_append_false _ _ _ (by decide) (by decide))
    (isPrefixOf_append_false _ _ _ (by decide) (by decide))]
  rw [profStep_preMarker _ _ _ rfl rfl
    (isPrefixOf_append_false _ _ _ (by decide) (by decide))
    (isPrefixOf_append_false _ _ _ (by decide) (by decide))]
  rw [profStep_preMarker _ _ _ rfl rfl (by decide) (by decide)]
  rw [profStep_marker _ _ _ rfl (by decide)]
  dsimp only
  have htr : translateIds [("C01".data, n2)]
      (classifyIds ([] : List Str) (trimStr "C01 ".data)) = some [n2] := by
    have hcl : classifyIds ([] : List Str) (trimStr "C01 ".data) = ["C01".data] := by decide
    rw [hcl]
    simp [translateIds, lookupP, List.mapM.loop]
  rw [profStep_data _ ⟨true, false, [], []⟩ _ ("C01 ".data) (" 1".data) rfl rfl
    (by decide) (by decide) (by decide) (by decide) (by decide)
    (1 : Int) (by decide) [n2] htr]
  dsimp only
  rw [profStep_endMarker _ ⟨true, false, [], dictSet [] [n2] (1 : Int)⟩ _
    rfl (by decide) (by decide)]
  simp [dictSet]

/-- C8 as stated is false: on an abstract whose legend lists ID `C01`
twice (as Alice, then as Bob) the decoder completes the parse and returns a
reconstructed profile instead of aborting. -/
theorem claim_C8_counterexample :
    (load_abstract_profile (dupLegendAbstract "Alice".data "Bob".data)).isSome = true := by
  decide

/-- Witness for `claim_C8_last_wins` at Alice/Bob. -/
theorem claim_C8_witness :
    wfName ("Alice".data) ∧ wfName ("Bob".data) ∧
      load_abstract_profile (dupLegendAbstract "Alice".data "Bob".data) =
        some ([([ "Bob".data ], (1 : Int))], [("C01".data, "Bob".data)]) :=
  ⟨by decide, by decide, claim_C8_last_wins "Alice".data "Bob".data (by decide) (by decide)⟩

/-! ### C10: translation totality and the KeyError abort -/

theorem translateIds_total (leg : Legend) (ids : List Str)
    (h : ∀ i ∈ ids, (lookupP leg i).isSome = true) :
    ∃ nms, translateIds leg ids = some nms := by
  induction ids with
  | nil => exact ⟨[], rfl⟩
  | cons i rest ih =>
    obtain ⟨v, hv⟩ := Option.isSome_iff_exists.mp (h i (by simp))
    obtain ⟨nms, hnms⟩ := ih (fun x hx => h x (by simp [hx]))
    refine ⟨v :: nms, ?_⟩
    unfold translateIds at hnms ⊢
    rw [List.mapM_cons, hv, hnms]
    rfl

theorem profStep_badSplit (leg : Legend) (s : PSt) (line : Str) (hd : s.done = false)
    (hip : s.inProf = true)
    (h1 : ("PREFERENCE PROFILE".data.isPrefixOf line) = false)
    (h2 : ("END OF ABSTRACT".data.isPrefixOf line) = false)
    (h3 : ("PREFIX:".data.isPrefixOf line) = false)
    (h4 : line.contains ':' = true)
    (hshape : ∀ lhs rhs : Str, splitOnChar ':' line ≠ [lhs, rhs]) :
    profStep leg (some s) line = some s := by
  unfold profStep
  dsimp only
  rw [if_neg (by simp [hd]), if_neg (by simp [h1]), if_neg (by simp [h2]),
    if_neg (by simp [hip]), if_neg (by simp [h3]), if_pos h4]
  rcases hsp : splitOnChar ':' line with _ | ⟨a, _ | ⟨b, _ | ⟨c, t⟩⟩⟩
  · rfl
  · rfl
  · exact absurd hsp (hshape a b)
  · rfl

theorem rawStep_done (r : RSt) (line : Str) (hd : r.done = true) :
    rawStep r line = r := by
  unfold rawStep
  rw [if_pos hd]

theorem rawStep_marker (r : RSt) (line : Str) (hd : r.done = false)
    (h1 : ("PREFERENCE PROFILE".data.isPrefixOf line) = true) :
    rawStep r line = { r with inProf := true } := by
  unfold rawStep
  rw [if_neg (by simp [hd]), if_pos h1]

theorem rawStep_endMarker (r : RSt) (line : Str) (hd : r.done = false)
    (h1 : ("PREFERENCE PROFILE".data.isPrefixOf line) = false)
    (h2 : ("END OF ABSTRACT".data.isPrefixOf line) = true) :
    rawStep r line = { r with done := true } := by
  unfold rawStep
  rw [if_neg (by simp [hd]), if_neg (by simp [h1]), if_pos h2]

theorem rawStep_preMarker (r : RSt) (line : Str) (hd : r.done = false)
    (hip : r.inProf = false)
    (h1 : ("PREFERENCE PROFILE".data.isPrefixOf line) = false)
    (h2 : ("END OF ABSTRACT".data.isPrefixOf line) = false) :
    rawStep r line = r := by
  unfold rawStep
  rw [if_neg (by simp [hd]), if_neg (by simp [h1]), if_neg (by simp [h2]), if_pos (by simp [hip])]

theorem rawStep_noColon (r : RSt) (line : Str) (hd : r.done = false)
    (hip : r.inProf = true)
    (h1 : ("PREFERENCE PROFILE".data.isPrefixOf line) = false)
    (h2 : ("END OF ABSTRACT".data.isPrefixOf line) = false)
    (h3 : ("PREFIX:".data.isPrefixOf line) = false)
    (h4 : line.contains ':' = false) :
    rawStep r line = r := by
  unfold rawStep
  rw [if_neg (by simp [hd]), if_neg (by simp [h1]), if_neg (by simp [h2]),
    if_neg (by simp [hip]), if_neg (by simp [h3]),
    if_neg (show ¬ (line.contains ':' = true) from by rw [h4]; exact Bool.noConfusion)]

theorem rawStep_pfxLine (r : RSt) (line : Str) (hd : r.done = false)
    (hip : r.inProf = true)
    (h1 : ("PREFERENCE PROFILE".data.isPrefixOf line) = false)
    (h2 : ("END OF ABSTRACT".data.isPrefixOf line) = false)
    (h3 : ("PREFIX:".data.isPrefixOf line) = true) :
    rawStep r line =
      (if trimStr (replaceAll "PREFIX:".data [] line) = [] then { r with curPfx := [] }
       else { r with curPfx :=
         (splitOnChar '>' (trimStr (replaceAll "PREFIX:".data [] line))).map trimStr }) := by
  unfold rawStep
  rw [if_neg (by simp [hd]), if_neg (by simp [h1]), if_neg (by simp [h2]),
    if_neg (by simp [hip]), if_pos h3]
  by_cases hps : trimStr (replaceAll "PREFIX:".data [] line) = []
  · rw [if_pos hps, if_pos (by simp [hps])]
  · rw [if_neg hps, if_neg (by simp [hps])]

theorem rawStep_badSplit (r : RSt) (line : Str) (hd : r.done = false)
    (hip : r.inProf = true)
    (h1 : ("PREFERENCE PROFILE".data.isPrefixOf line) = false)
    (h2 : ("END OF ABSTRACT".data.isPrefixOf line) = false)
    (h3 : ("PREFIX:".data.isPrefixOf line) = false)
    (h4 : line.contains ':' = true)
    (hshape : ∀ lhs rhs : Str, splitOnChar ':' line ≠ [lhs, rhs]) :
    rawStep r line = r := by
  unfold rawStep
  rw [if_neg (by simp [hd]), if_neg (by simp [h1]), if_neg (by simp [h2]),
    if_neg (by simp [hip]), if_neg (by simp [h3]), if_pos h4]
  rcases hsp : splitOnChar ':' line with _ | ⟨a, _ | ⟨b, _ | ⟨c, t⟩⟩⟩
  · rfl
  · rfl
  · exact absurd hsp (hshape a b)
  · rfl

theorem rawStep_badCount (r : RSt) (line lhs rhs : Str) (hd : r.done = false)
    (hip : r.inProf = true)
    (h1 : ("PREFERENCE PROFILE".data.isPrefixOf line) = false)
    (h2 : ("END OF ABSTRACT".data.isPrefixOf line) = false)
    (h3 : ("PREFIX:".data.isPrefixOf line) = false)
    (h4 : line.contains ':' = true)
    (hsplit : splitOnChar ':' line = [lhs, rhs])
    (hcnt : pyInt? (trimStr rhs) = none) :
    rawStep r line = r := by
  unfold rawStep
  rw [if_neg (by simp [hd]), if_neg (by simp [h1]), if_neg (by simp [h2]),
    if_neg (by simp [hip]), if_neg (by simp [h3]), if_pos h4, hsplit]
  simp only [hcnt]

theorem rawStep_data (r : RSt) (line lhs rhs : Str) (hd : r.done = false)
    (hip : r.inProf = true)
    (h1 : ("PREFERENCE PROFILE".data.isPrefixOf line) = false)
    (h2 : ("END OF ABSTRACT".data.isPrefixOf line) = false)
    (h3 : ("PREFIX:".data.isPrefixOf line) = false)
    (h4 : line.contains ':' = true)
    (hsplit : splitOnChar ':' line = [lhs, rhs])
    (cnt : Int) (hcnt : pyInt? (trimStr rhs) = some cnt) :
    rawStep r line =
      { r with pairs := r.pairs ++ [(classifyIds r.curPfx (trimStr lhs), cnt)] } := by
  unfold rawStep
  rw [if_neg (by simp [hd]), if_neg (by simp [h1]), if_neg (by simp [h2]),
    if_neg (by simp [hip]), if_neg (by simp [h3]), if_pos h4, hsplit]
  simp only [hcnt]

theorem bool_eq_false {b : Bool} (h : ¬ (b = true)) : b = false := by
  cases b
  · rfl
  · exact absurd rfl h

theorem rawStep_pairs_mono (r : RSt) (line : Str) :
    ∃ t, (rawStep r line).pairs = r.pairs ++ t := by
  by_cases hd : r.done = true
  · exact ⟨[], by rw [rawStep_done r line hd]; simp⟩
  have hd' : r.done = false := bool_eq_false hd
  by_cases hm : ("PREFERENCE PROFILE".data.isPrefixOf line) = true
  · exact ⟨[], by rw [rawStep_marker r line hd' hm]; simp⟩
  have hm' : ("PREFERENCE PROFILE".data.isPrefixOf line) = false := bool_eq_false hm
  by_cases he : ("END OF ABSTRACT".data.isPrefixOf line) = true
  · exact ⟨[], by rw [rawStep_endMarker r line hd' hm' he]; simp⟩
  have he' : ("END OF ABSTRACT".data.isPrefixOf line) = false := bool_eq_false he
  by_cases hi : r.inProf = true
  swap
  · have hi' : r.inProf = false := bool_eq_false hi
    exact ⟨[], by rw [rawStep_preMarker r line hd' hi' hm' he']; simp⟩
  by_cases hx : ("PREFIX:".data.isPrefixOf line) = true
  · refine ⟨[], ?_⟩
    rw [rawStep_pfxLine r line hd' hi hm' he' hx]
    by_cases hps : trimStr (replaceAll "PREFIX:".data [] line) = []
    · rw [if_pos hps]
      simp
    · rw [if_neg hps]
      simp
  have hx' : ("PREFIX:".data.isPrefixOf line) = false := bool_eq_false hx
  by_cases hc : line.contains ':' = true
  swap
  · have hc' : line.contains ':' = false := bool_eq_false hc
    exact ⟨[], by rw [rawStep_noColon r line hd' hi hm' he' hx' hc']; simp⟩
  rcases hsp : splitOnChar ':' line with _ | ⟨a, _ | ⟨b, _ | ⟨c, t⟩⟩⟩
  · exact ⟨[], by rw [rawStep_badSplit r line hd' hi hm' he' hx' hc
      (fun l1 r1 hcon => by rw [hsp] at hcon; exact List.noConfusion hcon)]; simp⟩
  · exact ⟨[], by rw [rawStep_badSplit r line hd' hi hm' he' hx' hc
      (fun l1 r1 hcon => by rw [hsp] at hcon; simp at hcon)]; simp⟩
  · cases hpi : pyInt? (trimStr b) with
    | none => exact ⟨[], by rw [rawStep_badCount r line a b hd' hi hm' he' hx' hc hsp hpi]; simp⟩
    | some cnt =>
      exact ⟨[(classifyIds r.curPfx (trimStr a), cnt)],
        by rw [rawStep_data r line a b hd' hi hm' he' hx' hc hsp cnt hpi]⟩
  · exact ⟨[], by rw [rawStep_badSplit r line hd' hi hm' he' hx' hc
      (fun l1 r1 hcon => by rw [hsp] at hcon; simp at hcon)]; simp⟩

theorem foldl_rawStep_pairs_mono (lines : List Str) : ∀ r : RSt,
    ∃ t, (lines.foldl rawStep r).pairs = r.pairs ++ t := by
  induction lines with
  | nil => exact fun r => ⟨[], by simp⟩
  | cons line rest ih =>
    intro r
    rw [List.foldl_cons]
    obtain ⟨t1, h1⟩ := rawStep_pairs_mono r line
    obtain ⟨t2, h2⟩ := ih (rawStep r line)
    exact ⟨t1 ++ t2, by rw [h2, h1, List.append_assoc]⟩

theorem profStep_sync_step (leg : Legend) (s : PSt) (r : RSt) (line : Str)
    (h1 : s.inProf = r.inProf) (h2 : s.done = r.done) (h3 : s.curPfx = r.curPfx)
    (hp : r.done = false → ("PREFERENCE PROFILE".data.isPrefixOf line) = false →
      ("END OF ABSTRACT".data.isPrefixOf line) = false → r.inProf = true →
      ("PREFIX:".data.isPrefixOf line) = false → line.contains ':' = true →
      ∀ lhs rhs : Str, splitOnChar ':' line = [lhs, rhs] →
      ∀ cnt : Int, pyInt? (trimStr rhs) = some cnt →
      ∀ i ∈ classifyIds r.curPfx (trimStr lhs), (lookupP leg i).isSome = true) :
    ∃ s', profStep leg (some s) line = some s' ∧
      s'.inProf = (rawStep r line).inProf ∧ s'.done = (rawStep r line).done ∧
      s'.curPfx = (rawStep r line).curPfx := by
  by_cases hd : r.done = true
  · rw [rawStep_done r line hd]
    exact ⟨s, profStep_done leg s line (h2.trans hd), h1, h2, h3⟩
  have hd' : r.done = false := bool_eq_false hd
  have hsd : s.done = false := h2.trans hd'
  by_cases hm : ("PREFERENCE PROFILE".data.isPrefixOf line) = true
  · rw [rawStep_marker r line hd' hm]
    exact ⟨{ s with inProf := true }, profStep_marker leg s line hsd hm, rfl, h2, h3⟩
  have hm' : ("PREFERENCE PROFILE".data.isPrefixOf line) = false := bool_eq_false hm
  by_cases he : ("END OF ABSTRACT".data.isPrefixOf line) = true
  · rw [rawStep_endMarker r line hd' hm' he]
    exact ⟨{ s with done := true }, profStep_endMarker leg s line hsd hm' he, h1, rfl, h3⟩
  have he' : ("END OF ABSTRACT".data.isPrefixOf line) = false := bool_eq_false he
  by_cases hi : r.inProf = true
  swap
  · have hi' : r.inProf = false := bool_eq_false hi
    rw [rawStep_preMarker r line hd' hi' hm' he']
    exact ⟨s, profStep_preMarker leg s line hsd (h1.trans hi') hm' he', h1, h2, h3⟩
  have hsi : s.inProf = true := h1.trans hi
  by_cases hx : ("PREFIX:".data.isPrefixOf line) = true
  · rw [rawStep_pfxLine r line hd' hi hm' he' hx]
    rw [profStep_pfxLine leg s line hsd hsi hm' he' hx]
    by_cases hps : trimStr (replaceAll "PREFIX:".data [] line) = []
    · rw [if_pos hps, if_pos hps]
      exact ⟨_, rfl, h1, h2, rfl⟩
    · rw [if_neg hps, if_neg hps]
      exact ⟨_, rfl, h1, h2, rfl⟩
  have hx' : ("PREFIX:".data.isPrefixOf line) = false := bool_eq_false hx
  by_cases hc : line.contains ':' = true
  swap
  · have hc' : line.contains ':' = false := bool_eq_false hc
    rw [rawStep_noColon r line hd' hi hm' he' hx' hc']
    exact ⟨s, profStep_noColon leg s line hsd hsi hm' he' hx' hc', h1, h2, h3⟩
  rcases hsp : splitOnChar ':' line with _ | ⟨a, _ | ⟨b, _ | ⟨c, t⟩⟩⟩
  · have hshape : ∀ lhs rhs : Str, splitOnChar ':' line ≠ [lhs, rhs] := by
      intro l1 r1 hcon
      rw [hsp] at hcon
      exact List.noConfusion hcon
    rw [rawStep_badSplit r line hd' hi hm' he' hx' hc hshape]
    exact ⟨s, profStep_badSplit leg s line hsd hsi hm' he' hx' hc hshape, h1, h2, h3⟩
  · have hshape : ∀ lhs rhs : Str, splitOnChar ':' line ≠ [lhs, rhs] := by
      intro l1 r1 hcon
      rw [hsp] at hcon
      simp at hcon
    rw [rawStep_badSplit r line hd' hi hm' he' hx' hc hshape]
    exact ⟨s, profStep_badSplit leg s line hsd hsi hm' he' hx' hc hshape, h1, h2, h3⟩
  · cases hpi : pyInt? (trimStr b) with
    | none =>
      rw [rawStep_badCount r line a b hd' hi hm' he' hx' hc hsp hpi]
      exact ⟨s, profStep_badCount leg s line a b hsd hsi hm' he' hx' hc hsp hpi, h1, h2, h3⟩
    | some cnt =>
      rw [rawStep_data r line a b hd' hi hm' he' hx' hc hsp cnt hpi]
      obtain ⟨nms, hnms⟩ := translateIds_total leg (classifyIds r.curPfx (trimStr a))
        (hp hd' hm' he' hi hx' hc a b hsp cnt hpi)
      rw [← h3] at hnms
      exact ⟨{ s with prof := dictSet s.prof nms cnt },
        profStep_data leg s line a b hsd hsi hm' he' hx' hc hsp cnt hpi nms hnms, h1, h2, h3⟩
  · have hshape : ∀ lhs rhs : Str, splitOnChar ':' line ≠ [lhs, rhs] := by
      intro l1 r1 hcon
      rw [hsp] at hcon
      simp at hcon
    rw [rawStep_badSplit r line hd' hi hm' he' hx' hc hshape]
    exact ⟨s, profStep_badSplit leg s line hsd hsi hm' he' hx' hc hshape, h1, h2, h3⟩

theorem foldl_profStep_sync (leg : Legend) : ∀ (lines : List Str) (s : PSt) (r : RSt),
    s.inProf = r.inProf → s.done = r.done → s.curPfx = r.curPfx →
    (∀ p ∈ (lines.foldl rawStep r).pairs, ∀ i ∈ p.1, (lookupP leg i).isSome = true) →
    ∃ s', lines.foldl (profStep leg) (some s) = some s' ∧
      s'.inProf = (lines.foldl rawStep r).inProf ∧
      s'.done = (lines.foldl rawStep r).done ∧
      s'.curPfx = (lines.foldl rawStep r).curPfx := by
  intro lines
  induction lines with
  | nil => exact fun s r h1 h2 h3 _ => ⟨s, rfl, h1, h2, h3⟩
  | cons line rest ih =>
    intro s r h1 h2 h3 hp
    rw [List.foldl_cons] at hp ⊢
    rw [List.foldl_cons]
    have hpstep : r.done = false → ("PREFERENCE PROFILE".data.isPrefixOf line) = false →
        ("END OF ABSTRACT".data.isPrefixOf line) = false → r.inProf = true →
        ("PREFIX:".data.isPrefixOf line) = false → line.contains ':' = true →
        ∀ lhs rhs : Str, splitOnChar ':' line = [lhs, rhs] →
        ∀ cnt : Int, pyInt? (trimStr rhs) = some cnt →
        ∀ i ∈ classifyIds r.curPfx (trimStr lhs), (lookupP leg i).isSome = true := by
      intro hd hm he hi hx hc lhs rhs hsp cnt hcnt i hmem
      have hraw := rawStep_data r line lhs rhs hd hi hm he hx hc hsp cnt hcnt
      have hpair : (classifyIds r.curPfx (trimStr lhs), cnt) ∈
          (rest.foldl rawStep (rawStep r line)).pairs := by
        obtain ⟨t, ht⟩ := foldl_rawStep_pairs_mono rest (rawStep r line)
        rw [ht, hraw]
        simp
      exact hp _ hpair i hmem
    obtain ⟨s₁, hs₁, f1, f2, f3⟩ := profStep_sync_step leg s r line h1 h2 h3 hpstep
    rw [hs₁]
    exact ih s₁ (rawStep r line) f1 f2 f3 hp

/-- C10: if every candidate ID occurring in a classified (ID-sequence, count)
pair of the profile section also occurs in the candidate legend, the
decoder's ID-to-name translation never fails and decoding completes; yet on
an abstract with a well-formed data line referencing the undeclared ID `C02`
the whole parse aborts with the uncaught key-lookup error — even though the
decoder skips a data line whose count is malformed (third conjunct). -/
theorem claim_C10_translation :
    (∀ lines : List Str,
        (∀ p ∈ rawPairs lines, ∀ i ∈ p.1,
          (lookupP (parseLegend lines) i).isSome = true) →
        (load_abstract_profile lines).isSome = true) ∧
      load_abstract_profile unknownIdAbstract = none ∧
      (load_abstract_profile badCountAbstract).isSome = true := by
  refine ⟨?_, by decide, by decide⟩
  intro lines hp
  unfold rawPairs at hp
  unfold load_abstract_profile
  obtain ⟨s', hs', _, _, _⟩ := foldl_profStep_sync (parseLegend lines) lines
    ⟨false, false, [], []⟩ ⟨false, false, [], []⟩ rfl rfl rfl hp
  dsimp only
  rw [hs']
  rfl

/-- Witness for `claim_C10_translation` on a concrete abstract whose data
lines all reference legend IDs. -/
theorem claim_C10_witness :
    (∀ p ∈ rawPairs (dupLineAbstract 1 2), ∀ i ∈ p.1,
        (lookupP (parseLegend (dupLineAbstract 1 2)) i).isSome = true) ∧
      (load_abstract_profile (dupLineAbstract 1 2)).isSome = true :=
  ⟨by decide, claim_C10_translation.1 (dupLineAbstract 1 2) (by decide)⟩

/-! ### C1: rendered-line shape toolkit -/

theorem append_ne_nil_right (a b : Str) (hb : b ≠ []) : a ++ b ≠ [] := by
  intro h
  exact hb (List.append_eq_nil.mp h).2

theorem map_noop (f : Char → Char) (l : Str) (h : ∀ c ∈ l, f c = c) : l.map f = l := by
  induction l with
  | nil => rfl
  | cons c cs ih => simp [h c (by simp), ih (fun x hx => h x (by simp [hx]))]

theorem head?_append_left (a b : Str) (ha : a ≠ []) : (a ++ b).head? = a.head? := by
  cases a with
  | nil => exact absurd rfl ha
  | cons x xs => rfl

theorem isPrefixOf_cons_ne (p c : Char) (ps cs : Str) (h : ¬ p = c) :
    ((p :: ps).isPrefixOf (c :: cs)) = false := by
  simp [List.isPrefixOf]
  intro he
  exact absurd he h

theorem isPrefixOf_false_of_head (p : Char) (ps l : Str) (c : Char)
    (hl : l.head? = some c) (h : ¬ p = c) : ((p :: ps).isPrefixOf l) = false := by
  cases l with
  | nil => exact absurd hl (by simp)
  | cons x xs =>
    have hx : x = c := by simpa using hl
    subst hx
    exact isPrefixOf_cons_ne p x ps xs h

theorem isPrefixOf_append_left (p a b : Str) (h : (p.isPrefixOf a) = true) :
    (p.isPrefixOf (a ++ b)) = true := by
  apply List.isPrefixOf_iff_prefix.mpr
  exact (List.isPrefixOf_iff_prefix.mp h).trans (List.prefix_append a b)

theorem ne_of_head? (l m : Str) (a b : Char) (hl : l.head? = some a)
    (hm : m.head? = some b) (h : ¬ a = b) : l ≠ m := by
  intro he
  rw [he, hm] at hl
  exact h (by simpa using hl.symm)

theorem join_ne_nil (sep : Str) (ids : List Str) (h0 : ids ≠ [])
    (h : ∀ i ∈ ids, i ≠ []) : joinSep sep ids ≠ [] := by
  induction ids with
  | nil => exact absurd rfl h0
  | cons i rest ih =>
    cases rest with
    | nil => exact h i (by simp)
    | cons j t =>
      show i ++ sep ++ joinSep sep (j :: t) ≠ []
      exact append_ne_nil_right _ _
        (ih (by simp) (fun x hx => h x (by simp [hx])))

theorem join_head? (sep : Str) (i : Str) (rest : List Str) (hi : i ≠ []) :
    (joinSep sep (i :: rest)).head? = i.head? := by
  cases rest with
  | nil => rfl
  | cons j t =>
    show (i ++ sep ++ joinSep sep (j :: t)).head? = i.head?
    rw [List.append_assoc, head?_append_left i _ hi]

theorem join_last_mem (sep : Str) (ids : List Str) (h0 : ids ≠ [])
    (h : ∀ i ∈ ids, i ≠ []) :
    ∃ i ∈ ids, (joinSep sep ids).getLast? = i.getLast? := by
  induction ids with
  | nil => exact absurd rfl h0
  | cons i rest ih =>
    cases rest with
    | nil => exact ⟨i, by simp, rfl⟩
    | cons j t =>
      obtain ⟨w, hw, hlast⟩ := ih (by simp) (fun x hx => h x (by simp [hx]))
      refine ⟨w, by simp [hw], ?_⟩
      show (i ++ sep ++ joinSep sep (j :: t)).getLast? = w.getLast?
      rw [List.getLast?_append_of_ne_nil _
        (join_ne_nil sep (j :: t) (by simp) (fun x hx => h x (by simp [hx])))]
      exact hlast

theorem join_mem (sep : Str) (ids : List Str) :
    ∀ c ∈ joinSep sep ids, (∃ i ∈ ids, c ∈ i) ∨ c ∈ sep := by
  induction ids with
  | nil => intro c hc; exact absurd hc (by simp [joinSep])
  | cons i rest ih =>
    cases rest with
    | nil => exact fun c hc => Or.inl ⟨i, by simp, hc⟩
    | cons j t =>
      intro c hc
      have hc' : c ∈ i ++ sep ++ joinSep sep (j :: t) := hc
      rcases List.mem_append.mp hc' with hc2 | hc2
      · rcases List.mem_append.mp hc2 with hc3 | hc3
        · exact Or.inl ⟨i, by simp, hc3⟩
        · exact Or.inr hc3
      · rcases ih c hc2 with ⟨w, hw, hcw⟩ | hs
        · exact Or.inl ⟨w, by simp [hw], hcw⟩
        · exact Or.inr hs

theorem join_trim (ids : List Str) (h0 : ids ≠ [])
    (h : ∀ i ∈ ids, i ≠ [] ∧ ∀ c ∈ i, isWs c = false) :
    trimStr (joinSep " > ".data ids) = joinSep " > ".data ids := by
  apply trimStr_eq_self
  · intro c hc
    cases ids with
    | nil => exact absurd rfl h0
    | cons i rest =>
      rw [join_head? _ i rest (h i (by simp)).1] at hc
      exact (h i (by simp)).2 c (List.mem_of_mem_head? (by simp [hc]))
  · intro c hc
    obtain ⟨w, hw, hlast⟩ := join_last_mem " > ".data ids h0 (fun x hx => (h x hx).1)
    rw [hlast] at hc
    exact (h w hw).2 c (List.mem_of_mem_getLast? (by simp [hc]))

theorem map_trim_split_skip_ws (c : Char) (J : Str) (hc : (' ' == c) = false) :
    ((splitOnChar c (' ' :: J)).map trimStr) = (splitOnChar c J).map trimStr := by
  show ((splitPred (fun x => x == c) (' ' :: J)).map trimStr) = _
  cases hs : splitPred (fun x => x == c) J with
  | nil => exact absurd hs (splitPred_ne_nil _ J)
  | cons hh tt =>
    rw [@splitPred_cons_neg (fun x => x == c) ' ' J hh tt hc hs,
      show splitOnChar c J = hh :: tt from hs]
    simp only [List.map_cons]
    rw [trimStr_cons_ws ' ' hh (by decide)]

theorem split_join (ids : List Str) (h0 : ids ≠ [])
    (h : ∀ i ∈ ids, i ≠ [] ∧ trimStr i = i ∧ ∀ c ∈ i, (c == '>') = false) :
    ((splitOnChar '>' (joinSep " > ".data ids)).map trimStr) = ids := by
  induction ids with
  | nil => exact absurd rfl h0
  | cons i rest ih =>
    cases rest with
    | nil =>
      show ((splitPred (fun x => x == '>') i).map trimStr) = [i]
      rw [splitPred_no_sep i (h i (by simp)).2.2]
      simp [(h i (by simp)).2.1]
    | cons j t =>
      have hjoin : joinSep " > ".data (i :: j :: t) =
          (i ++ [' ']) ++ '>' :: (' ' :: joinSep " > ".data (j :: t)) := by
        show i ++ " > ".data ++ joinSep " > ".data (j :: t) = _
        simp
      rw [hjoin]
      show ((splitPred (fun x => x == '>') _).map trimStr) = _
      rw [splitPred_append_sep (i ++ [' ']) _ ?_ (by decide)]
      · simp only [List.map_cons]
        have h1 : trimStr (i ++ [' ']) = i := by
          rw [trimStr_append_right_all i [' '] (by decide)]
          exact (h i (by simp)).2.1
        rw [h1]
        have h2 := map_trim_split_skip_ws '>' (joinSep " > ".data (j :: t)) (by decide)
        show _ :: ((splitOnChar '>' (' ' :: joinSep " > ".data (j :: t))).map trimStr) = _
        rw [h2, ih (by simp) (fun x hx => h x (by simp [hx]))]
      · intro x hx
        rcases List.mem_append.mp hx with hx2 | hx2
        · exact (h i (by simp)).2.2 x hx2
        · have : x = ' ' := by simpa using hx2
          rw [this]
          decide

theorem filter_nonempty_all (ids : List Str) (h : ∀ i ∈ ids, i ≠ []) :
    ids.filter (fun s => !s.isEmpty) = ids := by
  apply List.filter_eq_self.mpr
  intro i hi
  simp [h i hi]

theorem pySplit_join3 (ids : List Str) (h0 : ids ≠ [])
    (h : ∀ i ∈ ids, i ≠ [] ∧ ∀ c ∈ i, isWs c = false) :
    pySplitWs (joinSep "   ".data ids) = ids := by
  induction ids with
  | nil => exact absurd rfl h0
  | cons i rest ih =>
    cases rest with
    | nil =>
      show pySplitWs i = [i]
      exact pySplitWs_single i (h i (by simp)).1 (h i (by simp)).2
    | cons j t =>
      have hjoin : joinSep "   ".data (i :: j :: t) =
          i ++ ' ' :: (' ' :: ' ' :: joinSep "   ".data (j :: t)) := by
        show i ++ "   ".data ++ joinSep "   ".data (j :: t) = _
        simp
      rw [hjoin]
      rw [pySplitWs_append_sep i _ (h i (by simp)).1 (h i (by simp)).2 (by decide)]
      rw [pySplitWs_cons_ws _ (by decide), pySplitWs_cons_ws _ (by decide)]
      rw [ih (by simp) (fun x hx => h x (by simp [hx]))]

theorem map_replace_gt_join (ids : List Str)
    (h : ∀ i ∈ ids, ∀ c ∈ i, ¬ c = '>') :
    (joinSep " > ".data ids).map (fun x => if x = '>' then ' ' else x) =
      joinSep "   ".data ids := by
  induction ids with
  | nil => rfl
  | cons i rest ih =>
    have hmi : i.map (fun x => if x = '>' then ' ' else x) = i :=
      map_noop _ i (fun c hc => by simp [h i (by simp) c hc])
    cases rest with
    | nil => exact hmi
    | cons j t =>
      show (i ++ " > ".data ++ joinSep " > ".data (j :: t)).map _ = _
      rw [List.map_append, List.map_append, hmi,
        ih (fun x hx => h x (by simp [hx]))]
      rfl

theorem cidOf_head? (i : Nat) : (cidOf i).head? = some 'C' := rfl

theorem cidOf_wfTok (i : Nat) : cidOf i ≠ [] ∧ trimStr (cidOf i) = cidOf i ∧
    (∀ c ∈ cidOf i, (c == '>') = false) ∧ (∀ c ∈ cidOf i, (c == ':') = false) ∧
    (∀ c ∈ cidOf i, isWs c = false) ∧ (∀ c ∈ cidOf i, ¬ c = '.') ∧
    (∀ c ∈ cidOf i, ¬ c = 'P') := by
  have hws : ∀ c ∈ cidOf i, isWs c = false := fun c hc => (cidOf_chars i c hc).2.2
  refine ⟨cidOf_ne_nil i, ?_, fun c hc => beq_false_of_ne (cidOf_chars i c hc).2.1,
    fun c hc => beq_false_of_ne (cidOf_chars i c hc).1, hws, ?_, ?_⟩
  · apply trimStr_eq_self
    · intro c hc
      exact hws c (List.mem_of_mem_head? (by simp [hc]))
    · intro c hc
      exact hws c (List.mem_of_mem_getLast? (by simp [hc]))
  · intro c hc
    rcases cidOf_all i c hc with hC | hd
    · rw [hC]; decide
    · intro he
      rw [he] at hd
      exact absurd hd (by decide)
  · intro c hc
    rcases cidOf_all i c hc with hC | hd
    · rw [hC]; decide
    · intro he
      rw [he] at hd
      exact absurd hd (by decide)

theorem ids_facts (order : List Name) (r : Ranking) :
    ∀ i ∈ r.map (candidate_to_id order), i ≠ [] ∧ trimStr i = i ∧
      (∀ c ∈ i, (c == '>') = false) ∧ (∀ c ∈ i, (c == ':') = false) ∧
      (∀ c ∈ i, isWs c = false) ∧ (∀ c ∈ i, ¬ c = '.') ∧ (∀ c ∈ i, ¬ c = 'P') := by
  intro i hi
  obtain ⟨n, _, hn⟩ := List.mem_map.mp hi
  rw [← hn]
  exact cidOf_wfTok (order.indexOf n)

theorem join_no_colon (ids : List Str) (h : ∀ i ∈ ids, ∀ c ∈ i, (c == ':') = false) :
    ∀ c ∈ joinSep " > ".data ids, (c == ':') = false := by
  intro c hc
  rcases join_mem " > ".data ids c hc with ⟨i, hi, hci⟩ | hs
  · exact h i hi c hci
  · have h1 : c = ' ' ∨ c = '>' ∨ c = ' ' := by simpa using hs
    rcases h1 with h1 | h1 | h1 <;> (rw [h1]; decide)

theorem lookupP_legendOf (ns : List Name) : ∀ (st k : Nat) (hk : k < ns.length),
    lookupP (legendOf st ns) (cidOf (st + k)) = some (ns.get ⟨k, hk⟩) := by
  induction ns with
  | nil => intro st k hk; exact absurd hk (by simp)
  | cons n t ih =>
    intro st k hk
    show lookupP ((cidOf st, n) :: legendOf (st + 1) t) (cidOf (st + k)) = _
    rw [lookupP_cons]
    cases k with
    | zero =>
      rw [if_pos (by rw [Nat.add_zero])]
      rfl
    | succ j =>
      rw [if_neg ?_]
      · rw [show st + (j + 1) = (st + 1) + j from by omega]
        exact ih (st + 1) j (by simpa using hk)
      · intro hcon
        have := cidOf_inj _ _ hcon
        omega

theorem legendOf_keys (ns : List Name) : ∀ st, ∀ e ∈ legendOf st ns,
    ∃ k, st ≤ k ∧ e.1 = cidOf k := by
  induction ns with
  | nil => intro st e he; exact absurd he (by simp [legendOf])
  | cons n t ih =>
    intro st e he
    rcases List.mem_cons.mp he with he1 | he1
    · exact ⟨st, Nat.le_refl st, by rw [he1]⟩
    · obtain ⟨k, hk1, hk2⟩ := ih (st + 1) e he1
      exact ⟨k, by omega, hk2⟩

theorem indexOf_mem_facts (l : List Name) (n : Name) (h : n ∈ l) :
    ∃ k, ∃ hlt : k < l.length, l.indexOf n = k ∧ l.get ⟨k, hlt⟩ = n := by
  induction l with
  | nil => exact absurd h (by simp)
  | cons b t ih =>
    by_cases hb : b = n
    · refine ⟨0, by simp, ?_, by simpa using hb⟩
      rw [List.indexOf_cons]
      have hbeq : (b == n) = true := by simpa using hb
      rw [hbeq]
      rfl
    · have hnt : n ∈ t := by
        rcases List.mem_cons.mp h with h1 | h1
        · exact absurd h1.symm hb
        · exact h1
      obtain ⟨k, hlt, hidx, hget⟩ := ih hnt
      refine ⟨k + 1, by simpa using Nat.succ_lt_succ hlt, ?_, ?_⟩
      · rw [List.indexOf_cons]
        have hbeq : (b == n) = false := by simpa using hb
        rw [hbeq]
        show t.indexOf n + 1 = k + 1
        rw [hidx]
      · exact hget

theorem translate_roundtrip (order : List Name) (r : Ranking) (h : ∀ n ∈ r, n ∈ order) :
    translateIds (legendOf 0 order) (r.map (candidate_to_id order)) = some r := by
  induction r with
  | nil => rfl
  | cons n rs ih =>
    have hmem := h n (by simp)
    obtain ⟨k, hlt, hidx, hget⟩ := indexOf_mem_facts order n hmem
    have hn : lookupP (legendOf 0 order) (candidate_to_id order n) = some n := by
      have h0 := lookupP_legendOf order 0 k hlt
      rw [Nat.zero_add] at h0
      show lookupP (legendOf 0 order) (cidOf (order.indexOf n)) = some n
      rw [hidx, h0, hget]
    have ih2 := ih (fun x hx => h x (by simp [hx]))
    unfold translateIds at ih2 ⊢
    rw [List.map_cons, List.mapM_cons, hn, ih2]
    rfl

theorem isPrefixOf_second_ne (a b : Char) (ps : Str) (d : Char) (X : Str) (h : ¬ b = d) :
    ((a :: b :: ps).isPrefixOf (a :: d :: X)) = false := by
  simp [List.isPrefixOf]
  intro h2
  exact absurd h2 h

theorem legendLine_checks (i : Nat) (nm : Name) :
    ("CANDIDATE LEGEND".data.isPrefixOf (cidOf i ++ "  ".data ++ nm)) = false ∧
    ("PREFERENCE PROFILE".data.isPrefixOf (cidOf i ++ "  ".data ++ nm)) = false ∧
    ("END OF ABSTRACT".data.isPrefixOf (cidOf i ++ "  ".data ++ nm)) = false ∧
    ("EXPLANATION".data.isPrefixOf (cidOf i ++ "  ".data ++ nm)) = false ∧
    ((List.replicate 40 '-').isPrefixOf (cidOf i ++ "  ".data ++ nm)) = false := by
  obtain ⟨d, rest, hshape, hd⟩ := cidOf_shape i
  have hline : cidOf i ++ "  ".data ++ nm = 'C' :: d :: (rest ++ "  ".data ++ nm) := by
    rw [hshape]
    simp
  rw [hline]
  have hdA : ¬ ('A' : Char) = d := by
    intro he
    rw [← he] at hd
    exact absurd hd (by decide)
  exact ⟨isPrefixOf_second_ne 'C' 'A' _ d _ hdA,
    isPrefixOf_cons_ne _ _ _ _ (by decide),
    isPrefixOf_cons_ne _ _ _ _ (by decide),
    isPrefixOf_cons_ne _ _ _ _ (by decide),
    isPrefixOf_cons_ne _ _ _ _ (by decide)⟩

theorem legend_entries_fold (ns : List Name) : ∀ (st : Nat) (leg : Legend),
    (∀ n ∈ ns, wfName n) →
    (∀ e ∈ leg, ∀ i, st ≤ i → e.1 ≠ cidOf i) →
    ((List.enumFrom st ns).map (fun p => cidOf p.1 ++ "  ".data ++ p.2)).foldl
        legendStep (true, leg) = (true, leg ++ legendOf st ns) := by
  induction ns with
  | nil => intro st leg _ _; simp [legendOf]
  | cons n t ih =>
    intro st leg hwf hfresh
    have hwfn : wfName n := hwf n (by simp)
    have htr := trimStr_cid_line st n hwfn
    have hchecks := legendLine_checks st n
    show (((st, n) :: List.enumFrom (st + 1) t).map
      (fun p => cidOf p.1 ++ "  ".data ++ p.2)).foldl legendStep (true, leg) = _
    simp only [List.map_cons, List.foldl_cons]
    rw [legendStep_entry leg _ (cidOf st) n hchecks.1 hchecks.2.2.2.1
      (by
        rw [htr]
        exact append_ne_nil_left _ _ (append_ne_nil_left _ _ (cidOf_ne_nil st)))
      hchecks.2.2.2.2
      (by
        rw [htr]
        exact parseLegendLine_entry st n hwfn)]
    rw [dictSet_of_not_mem leg (cidOf st) n
      (by
        intro hmem
        obtain ⟨e, he, hek⟩ := List.mem_map.mp hmem
        exact hfresh e he st (Nat.le_refl st) hek)]
    rw [ih (st + 1) (leg ++ [(cidOf st, n)])
      (fun x hx => hwf x (by simp [hx]))
      (by
        intro e he i hi
        rcases List.mem_append.mp he with he1 | he1
        · exact hfresh e he1 i (by omega)
        · have he2 : e = (cidOf st, n) := by simpa using he1
          rw [he2]
          intro hcon
          have := cidOf_inj _ _ hcon
          omega)]
    show (true, (leg ++ [(cidOf st, n)]) ++ legendOf (st + 1) t) =
      (true, leg ++ (cidOf st, n) :: legendOf (st + 1) t)
    rw [List.append_assoc]
    rfl

theorem join_decomp (sep : Str) (i : Str) (rest : List Str) :
    ∃ T, joinSep sep (i :: rest) = i ++ T := by
  cases rest with
  | nil => exact ⟨[], by simp [joinSep]⟩
  | cons j t =>
    refine ⟨sep ++ joinSep sep (j :: t), ?_⟩
    show i ++ sep ++ joinSep sep (j :: t) = _
    rw [List.append_assoc]

theorem cid_headed_checks (i : Nat) (B : Str) :
    ("CANDIDATE LEGEND".data.isPrefixOf (cidOf i ++ B)) = false ∧
    ("PREFERENCE PROFILE".data.isPrefixOf (cidOf i ++ B)) = false ∧
    ("END OF ABSTRACT".data.isPrefixOf (cidOf i ++ B)) = false ∧
    ("PREFIX:".data.isPrefixOf (cidOf i ++ B)) = false := by
  obtain ⟨d, rest, hshape, hd⟩ := cidOf_shape i
  have hline : cidOf i ++ B = 'C' :: d :: (rest ++ B) := by
    rw [hshape]
    simp
  rw [hline]
  have hdA : ¬ ('A' : Char) = d := by
    intro he
    rw [← he] at hd
    exact absurd hd (by decide)
  exact ⟨isPrefixOf_second_ne 'C' 'A' _ d _ hdA,
    isPrefixOf_cons_ne _ _ _ _ (by decide),
    isPrefixOf_cons_ne _ _ _ _ (by decide),
    isPrefixOf_cons_ne _ _ _ _ (by decide)⟩

theorem groupLines_mem (c2id : Name → Str) (g : Ranking × ProfileN) (l : Str)
    (hl : l ∈ groupLines c2id g) :
    (g.1.isEmpty = true ∧
      ∃ m ∈ g.2, l = format_ranking c2id m.1 ++ " : ".data ++ natDigits m.2) ∨
    (g.1.isEmpty = false ∧ (l = "PREFIX: ".data ++ format_ranking c2id g.1 ∨
      l = dash80 ∨ l = [] ∨ ∃ m ∈ g.2, l = memberLine c2id g.1.length m)) := by
  unfold groupLines at hl
  by_cases hp : g.1.isEmpty = true
  · rw [if_pos hp] at hl
    obtain ⟨m, hm, hml⟩ := List.mem_map.mp hl
    exact Or.inl ⟨hp, m, hm, hml.symm⟩
  · rw [if_neg hp] at hl
    have hp' : g.1.isEmpty = false := bool_eq_false hp
    rcases List.mem_cons.mp hl with h1 | h1
    · exact Or.inr ⟨hp', Or.inl h1⟩
    rcases List.mem_cons.mp h1 with h2 | h2
    · exact Or.inr ⟨hp', Or.inr (Or.inl h2)⟩
    rcases List.mem_append.mp h2 with h3 | h3
    · obtain ⟨m, hm, hml⟩ := List.mem_map.mp h3
      exact Or.inr ⟨hp', Or.inr (Or.inr (Or.inr ⟨m, hm, hml.symm⟩))⟩
    · have h4 : l = [] := by simpa using h3
      exact Or.inr ⟨hp', Or.inr (Or.inr (Or.inl h4))⟩

theorem format_ranking_checks (order : List Name) (r : Ranking) (B : Str) :
    ("CANDIDATE LEGEND".data.isPrefixOf
      (format_ranking (candidate_to_id order) r ++ B)) = false ∧
    ("PREFERENCE PROFILE".data.isPrefixOf
      (format_ranking (candidate_to_id order) r ++ B)) = false ∧
    ("END OF ABSTRACT".data.isPrefixOf
      (format_ranking (candidate_to_id order) r ++ B)) = false ∧
    ("PREFIX:".data.isPrefixOf
      (format_ranking (candidate_to_id order) r ++ B)) = false := by
  cases r with
  | nil =>
    have h0 : format_ranking (candidate_to_id order) [] = "(empty)".data := rfl
    rw [h0]
    refine ⟨?_, ?_, ?_, ?_⟩ <;>
      exact isPrefixOf_append_false _ _ _ (by decide) (by decide)
  | cons n rs =>
    have hfmt : format_ranking (candidate_to_id order) (n :: rs) =
        joinSep " > ".data ((n :: rs).map (candidate_to_id order)) := by
      unfold format_ranking
      rw [if_neg (by simp)]
    obtain ⟨T, hT⟩ := join_decomp " > ".data (candidate_to_id order n)
      (rs.map (candidate_to_id order))
    have hshape : format_ranking (candidate_to_id order) (n :: rs) ++ B =
        cidOf (order.indexOf n) ++ (T ++ B) := by
      rw [hfmt, List.map_cons, hT]
      show cidOf (order.indexOf n) ++ T ++ B = _
      rw [List.append_assoc]
    rw [hshape]
    exact cid_headed_checks (order.indexOf n) (T ++ B)

theorem memberLine_checks (c2id : Name → Str) (pl : Nat) (m : Ranking × Nat) :
    ("CANDIDATE LEGEND".data.isPrefixOf (memberLine c2id pl m)) = false ∧
    ("PREFERENCE PROFILE".data.isPrefixOf (memberLine c2id pl m)) = false ∧
    ("END OF ABSTRACT".data.isPrefixOf (memberLine c2id pl m)) = false ∧
    ("PREFIX:".data.isPrefixOf (memberLine c2id pl m)) = false := by
  unfold memberLine
  by_cases hs : (m.1.drop pl).isEmpty = true
  · rw [if_pos hs]
    refine ⟨?_, ?_, ?_, ?_⟩ <;>
      exact isPrefixOf_append_false _ _ _ (by decide) (by decide)
  · rw [if_neg hs]
    have hcons : "  ... > ".data ++ joinSep " > ".data ((m.1.drop pl).map c2id) ++
        " : ".data ++ natDigits m.2 =
        ' ' :: ("  ... > ".data.tail ++ joinSep " > ".data ((m.1.drop pl).map c2id) ++
          " : ".data ++ natDigits m.2) := by
      simp
    rw [hcons]
    refine ⟨?_, ?_, ?_, ?_⟩ <;> exact isPrefixOf_cons_ne _ _ _ _ (by decide)

theorem groupLines_checks (order : List Name) (g : Ranking × ProfileN) :
    ∀ l ∈ groupLines (candidate_to_id order) g,
      ("CANDIDATE LEGEND".data.isPrefixOf l) = false := by
  intro l hl
  rcases groupLines_mem _ g l hl with ⟨_, m, _, hml⟩ | ⟨_, h1 | h1 | h1 | ⟨m, _, h1⟩⟩
  · rw [hml, List.append_assoc]
    exact (format_ranking_checks order m.1 _).1
  · rw [h1]
    have hsh : "PREFIX: ".data ++ format_ranking (candidate_to_id order) g.1 =
        'P' :: ("REFIX: ".data ++ format_ranking (candidate_to_id order) g.1) := by
      simp
    rw [hsh]
    exact isPrefixOf_cons_ne _ _ _ _ (by decide)
  · rw [h1]
    decide
  · rw [h1]
    decide
  · rw [h1]
    exact (memberLine_checks _ _ m).1

theorem legendLines_enumFrom (order : List Name) :
    legendLines order = (List.enumFrom 0 order).map
      (fun p => cidOf p.1 ++ "  ".data ++ p.2) := rfl

theorem legend_of_abstract (district mgs mw : Nat) (P : ProfileN)
    (hwford : ∀ n ∈ get_canonical_candidate_order P, wfName n) :
    parseLegend (generate_abstract district mgs mw P) =
      legendOf 0 (get_canonical_candidate_order P) := by
  have hA : ([ eq80
    , "ABSTRACT OF VOTES - CITY COUNCIL DISTRICT ".data ++ natDigits district
    , "City of Portland, Oregon".data
    , "November 2024 General Election".data
    , eq80
    , []
    , "CONTEST INFORMATION".data
    , dash80
    , "Contest: City Council District ".data ++ natDigits district
    , "Election Method: Single Transferable Vote (STV)".data
    , "Seats: 3".data
    , "Total Ballots with Rankings: ".data ++ natDigits (sumCounts P)
    , "Unique Ranking Expressions: ".data ++ natDigits P.length
    , []
    , "CANDIDATE LEGEND".data
    , dash80
    ] : List Str).foldl legendStep (false, ([] : Legend)) = (true, []) := rfl
  have hB : ∀ leg : Legend, ([ [], "EXPLANATION".data, dash80 ] : List Str).foldl
      legendStep (true, leg) = (false, leg) := fun leg => rfl
  have hC : ∀ leg : Legend, explanationLines.foldl legendStep (false, leg) =
      (false, leg) := fun leg => rfl
  have hD : ∀ leg : Legend, ([ "PREFERENCE PROFILE (PREFIX-COMPRESSED)".data, eq80, []
      ] : List Str).foldl legendStep (false, leg) = (false, leg) := fun leg => rfl
  have hE : ∀ leg : Legend, ([ []
    , eq80
    , "END OF ABSTRACT".data
    , "Total ranking expressions: ".data ++ natDigits
        (((generate_prefix_groups mgs mw (get_sorted_rankings
          (get_canonical_candidate_order P) P)).map (fun g => g.2.length)).sum)
    , "Total ballots: ".data ++ natDigits (sumCounts (get_sorted_rankings
        (get_canonical_candidate_order P) P))
    , eq80
    ] : List Str).foldl legendStep (false, leg) = (false, leg) := fun leg => rfl
  unfold parseLegend generate_abstract
  dsimp only
  rw [List.foldl_append, List.foldl_append, List.foldl_append, List.foldl_append,
    List.foldl_append, List.foldl_append]
  rw [hA, legendLines_enumFrom]
  rw [legend_entries_fold (get_canonical_candidate_order P) 0 [] hwford
    (by intro e he; exact absurd he (by simp))]
  simp only [List.nil_append]
  rw [hB, hC, hD]
  rw [foldl_legendStep_skip_all _ _ (by
    intro l hl
    obtain ⟨L, hL, hlL⟩ := List.mem_flatten.mp hl
    obtain ⟨g, hg, hgL⟩ := List.mem_map.mp hL
    rw [← hgL] at hlL
    exact groupLines_checks (get_canonical_candidate_order P) g l hlL)]
  rw [hE]

theorem map_noopS (f : Str → Str) (l : List Str) (h : ∀ x ∈ l, f x = x) : l.map f = l := by
  induction l with
  | nil => rfl
  | cons c cs ih => simp [h c (by simp), ih (fun x hx => h x (by simp [hx]))]

theorem ids_tok_ne_nil (order : List Name) (r : Ranking) :
    ∀ i ∈ r.map (candidate_to_id order), i ≠ [] :=
  fun i hi => (ids_facts order r i hi).1

theorem idsJoin_head (order : List Name) (n : Name) (rs : List Name) :
    (joinSep " > ".data ((n :: rs).map (candidate_to_id order))).head? = some 'C' := by
  rw [List.map_cons,
    join_head? " > ".data (candidate_to_id order n) _ (cidOf_ne_nil (order.indexOf n))]
  exact cidOf_head? (order.indexOf n)

theorem idsJoin_trim (order : List Name) (r : Ranking) (hr : r ≠ []) :
    trimStr (joinSep " > ".data (r.map (candidate_to_id order))) =
      joinSep " > ".data (r.map (candidate_to_id order)) := by
  apply join_trim
  · intro hcon
    exact hr (List.map_eq_nil.mp hcon)
  · intro i hi
    exact ⟨(ids_facts order r i hi).1, (ids_facts order r i hi).2.2.2.2.1⟩

theorem idsJoin_no_colon (order : List Name) (r : Ranking) :
    ∀ c ∈ joinSep " > ".data (r.map (candidate_to_id order)), (c == ':') = false := by
  apply join_no_colon
  intro i hi
  exact (ids_facts order r i hi).2.2.2.1

theorem idsJoin_classify (order : List Name) (cp : List Str) (n : Name) (rs : List Name) :
    classifyIds cp (joinSep " > ".data ((n :: rs).map (candidate_to_id order))) =
      (n :: rs).map (candidate_to_id order) := by
  have hhead := idsJoin_head order n rs
  unfold classifyIds
  rw [if_neg (ne_of_head? _ "(empty)".data 'C' '(' hhead rfl (by decide))]
  rw [if_neg (ne_of_head? _ "(exact match)".data 'C' '(' hhead rfl (by decide))]
  rw [if_neg (by
    rw [isPrefixOf_false_of_head '.' _ _ 'C' hhead (by decide)]
    exact Bool.noConfusion)]
  rw [split_join _ (by simp) (fun i hi => ⟨(ids_facts order (n :: rs) i hi).1,
    (ids_facts order (n :: rs) i hi).2.1, (ids_facts order (n :: rs) i hi).2.2.1⟩)]
  exact filter_nonempty_all _ (ids_tok_ne_nil order (n :: rs))

theorem profStep_full_line (order : List Name) (cp : List Str) (pr : ProfileZ)
    (r : Ranking) (cnt : Nat) (hnames : ∀ n ∈ r, n ∈ order) :
    profStep (legendOf 0 order) (some ⟨true, false, cp, pr⟩)
      (format_ranking (candidate_to_id order) r ++ " : ".data ++ natDigits cnt) =
    some ⟨true, false, cp, dictSet pr r ((cnt : Nat) : Int)⟩ := by
  cases r with
  | nil =>
    have hfmt : format_ranking (candidate_to_id order) [] = "(empty)".data := rfl
    rw [hfmt]
    rw [profStep_data _ _ _ ("(empty)".data ++ " ".data) (" ".data ++ natDigits cnt)
      rfl rfl
      (isPrefixOf_append_false _ _ _ (by decide) (by decide))
      (isPrefixOf_append_false _ _ _ (by decide) (by decide))
      (isPrefixOf_append_false _ _ _ (by decide) (by decide))
      (contains_colon_countLine "(empty)".data cnt)
      (splitColon_countLine "(empty)".data cnt (by decide))
      ((cnt : Nat) : Int) (pyInt_count_side cnt)
      [] (by
        have htrim : trimStr ("(empty)".data ++ " ".data) = "(empty)".data := by decide
        rw [htrim]
        have hcl : classifyIds cp "(empty)".data = [] := by
          unfold classifyIds
          rw [if_pos rfl]
        rw [hcl]
        rfl)]
  | cons n rs =>
    have hfmt : format_ranking (candidate_to_id order) (n :: rs) =
        joinSep " > ".data ((n :: rs).map (candidate_to_id order)) := by
      unfold format_ranking
      rw [if_neg (by simp)]
    rw [hfmt]
    have hJtrim := idsJoin_trim order (n :: rs) (by simp)
    rw [profStep_data _ _ _
      (joinSep " > ".data ((n :: rs).map (candidate_to_id order)) ++ " ".data)
      (" ".data ++ natDigits cnt) rfl rfl
      (by
        have h := (format_ranking_checks order (n :: rs)
          (" : ".data ++ natDigits cnt)).2.1
        rw [hfmt] at h
        rwa [← List.append_assoc] at h)
      (by
        have h := (format_ranking_checks order (n :: rs)
          (" : ".data ++ natDigits cnt)).2.2.1
        rw [hfmt] at h
        rwa [← List.append_assoc] at h)
      (by
        have h := (format_ranking_checks order (n :: rs)
          (" : ".data ++ natDigits cnt)).2.2.2
        rw [hfmt] at h
        rwa [← List.append_assoc] at h)
      (contains_colon_countLine _ cnt)
      (splitColon_countLine _ cnt (idsJoin_no_colon order (n :: rs)))
      ((cnt : Nat) : Int) (pyInt_count_side cnt)
      (n :: rs) (by
        rw [trimStr_append_right_all _ _ (by decide), hJtrim]
        rw [idsJoin_classify order cp n rs]
        exact translate_roundtrip order (n :: rs) hnames)]

theorem profStep_pfx_line (order : List Name) (cp : List Str) (pr : ProfileZ)
    (pfx : Ranking) (hpfx : pfx ≠ []) :
    profStep (legendOf 0 order) (some ⟨true, false, cp, pr⟩)
      ("PREFIX: ".data ++ format_ranking (candidate_to_id order) pfx) =
    some ⟨true, false, pfx.map (candidate_to_id order), pr⟩ := by
  obtain ⟨n, rs, rfl⟩ : ∃ n rs, pfx = n :: rs := by
    cases pfx with
    | nil => exact absurd rfl hpfx
    | cons n rs => exact ⟨n, rs, rfl⟩
  have hfmt : format_ranking (candidate_to_id order) (n :: rs) =
      joinSep " > ".data ((n :: rs).map (candidate_to_id order)) := by
    unfold format_ranking
    rw [if_neg (by simp)]
  rw [hfmt]
  have hJtrim := idsJoin_trim order (n :: rs) (by simp)
  have hrepl : replaceAll "PREFIX:".data []
      ("PREFIX: ".data ++ joinSep " > ".data ((n :: rs).map (candidate_to_id order))) =
      " ".data ++ joinSep " > ".data ((n :: rs).map (candidate_to_id order)) := by
    show replaceGo 'P' "REFIX:".data [] _ = _
    have hsh : "PREFIX: ".data ++ joinSep " > ".data ((n :: rs).map (candidate_to_id order)) =
        'P' :: ("REFIX:".data ++
          (" ".data ++ joinSep " > ".data ((n :: rs).map (candidate_to_id order)))) := by
      simp
    rw [hsh, replaceGo_head_match]
    rw [replaceGo_no_head _ _ _ _ (by
      intro hmem
      rcases List.mem_append.mp hmem with h1 | h1
      · exact absurd h1 (by decide)
      · rcases join_mem _ _ _ h1 with ⟨i, hi, hci⟩ | hs
        · exact (ids_facts order (n :: rs) i hi).2.2.2.2.2.2 'P' hci rfl
        · rcases (by simpa using hs : 'P' = ' ' ∨ 'P' = '>' ∨ 'P' = ' ') with h2 | h2 | h2 <;>
            exact absurd h2 (by decide))]
    rfl
  rw [profStep_pfxLine _ _ _ rfl rfl
    (isPrefixOf_append_false _ _ _ (by decide) (by decide))
    (isPrefixOf_append_false _ _ _ (by decide) (by decide))
    (isPrefixOf_append_left _ _ _ (by decide))]
  rw [hrepl, trimStr_append_left_all " ".data _ (by decide), hJtrim]
  rw [if_neg (join_ne_nil _ _ (by simp) (ids_tok_ne_nil order (n :: rs)))]
  rw [split_join _ (by simp) (fun i hi => ⟨(ids_facts order (n :: rs) i hi).1,
    (ids_facts order (n :: rs) i hi).2.1, (ids_facts order (n :: rs) i hi).2.2.1⟩)]

theorem profStep_exact_line (order : List Name) (pr : ProfileZ)
    (pfx : Ranking) (cnt : Nat) (hnames : ∀ n ∈ pfx, n ∈ order) :
    profStep (legendOf 0 order)
      (some ⟨true, false, pfx.map (candidate_to_id order), pr⟩)
      ("  (exact match)".data ++ " : ".data ++ natDigits cnt) =
    some ⟨true, false, pfx.map (candidate_to_id order),
      dictSet pr pfx ((cnt : Nat) : Int)⟩ := by
  rw [profStep_data _ _ _ ("  (exact match)".data ++ " ".data) (" ".data ++ natDigits cnt)
    rfl rfl
    (isPrefixOf_append_false _ _ _ (by decide) (by decide))
    (isPrefixOf_append_false _ _ _ (by decide) (by decide))
    (isPrefixOf_append_false _ _ _ (by decide) (by decide))
    (contains_colon_countLine "  (exact match)".data cnt)
    (splitColon_countLine "  (exact match)".data cnt (by decide))
    ((cnt : Nat) : Int) (pyInt_count_side cnt)
    pfx (by
      have htrim : trimStr ("  (exact match)".data ++ " ".data) = "(exact match)".data := by
        decide
      rw [htrim]
      have hcl : ∀ cp : List Str, classifyIds cp "(exact match)".data = cp := by
        intro cp
        unfold classifyIds
        rw [if_neg (by decide), if_pos rfl]
      rw [hcl]
      exact translate_roundtrip order pfx hnames)]

theorem join3_trim (order : List Name) (m0 : Name) (ms : List Name) :
    trimStr (joinSep "   ".data ((m0 :: ms).map (candidate_to_id order))) =
      joinSep "   ".data ((m0 :: ms).map (candidate_to_id order)) := by
  apply trimStr_eq_self
  · intro c hc
    rw [List.map_cons, join_head? "   ".data (candidate_to_id order m0) _
      (cidOf_ne_nil (order.indexOf m0))] at hc
    have hcC : c = 'C' := by
      have := cidOf_head? (order.indexOf m0)
      rw [show (candidate_to_id order m0).head? = some 'C' from this] at hc
      simpa using hc.symm
    rw [hcC]
    decide
  · intro c hc
    obtain ⟨w, hw, hlast⟩ := join_last_mem "   ".data ((m0 :: ms).map (candidate_to_id order))
      (by simp) (ids_tok_ne_nil order (m0 :: ms))
    rw [hlast] at hc
    exact (ids_facts order (m0 :: ms) w hw).2.2.2.2.1 c
      (List.mem_of_mem_getLast? (by simp [hc]))

theorem dots_classify (order : List Name) (pfx : Ranking) (m0 : Name) (ms : List Name) :
    classifyIds (pfx.map (candidate_to_id order))
      ("... > ".data ++ joinSep " > ".data ((m0 :: ms).map (candidate_to_id order))) =
      (pfx ++ m0 :: ms).map (candidate_to_id order) := by
  have hJne := join_ne_nil " > ".data ((m0 :: ms).map (candidate_to_id order))
    (by simp) (ids_tok_ne_nil order (m0 :: ms))
  have hhead : ("... > ".data ++
      joinSep " > ".data ((m0 :: ms).map (candidate_to_id order))).head? = some '.' := by
    rw [head?_append_left _ _ (by decide)]
    rfl
  have hrepl1 : replaceAll "...".data []
      ("... > ".data ++ joinSep " > ".data ((m0 :: ms).map (candidate_to_id order))) =
      " > ".data ++ joinSep " > ".data ((m0 :: ms).map (candidate_to_id order)) := by
    show replaceGo '.' "..".data [] _ = _
    have hsh : "... > ".data ++ joinSep " > ".data ((m0 :: ms).map (candidate_to_id order)) =
        '.' :: ("..".data ++
          (" > ".data ++ joinSep " > ".data ((m0 :: ms).map (candidate_to_id order)))) := by
      simp
    rw [hsh, replaceGo_head_match]
    rw [replaceGo_no_head _ _ _ _ (by
      intro hmem
      rcases List.mem_append.mp hmem with h1 | h1
      · exact absurd h1 (by decide)
      · rcases join_mem _ _ _ h1 with ⟨i, hi, hci⟩ | hs
        · exact (ids_facts order (m0 :: ms) i hi).2.2.2.2.2.1 '.' hci rfl
        · rcases (by simpa using hs : ('.' : Char) = ' ' ∨ ('.' : Char) = '>' ∨
              ('.' : Char) = ' ') with h2 | h2 | h2 <;> exact absurd h2 (by decide))]
    rfl
  have hrepl2 : replaceAll ">".data " ".data
      (" > ".data ++ joinSep " > ".data ((m0 :: ms).map (candidate_to_id order))) =
      "   ".data ++ joinSep "   ".data ((m0 :: ms).map (candidate_to_id order)) := by
    rw [replaceChar_map '>' ' ', List.map_append]
    rw [map_replace_gt_join _ (fun i hi c hc => beq_eq_false_iff_ne.mp
      ((ids_facts order (m0 :: ms) i hi).2.2.1 c hc))]
    rfl
  unfold classifyIds
  rw [if_neg (ne_of_head? _ "(empty)".data '.' '(' hhead rfl (by decide))]
  rw [if_neg (ne_of_head? _ "(exact match)".data '.' '(' hhead rfl (by decide))]
  rw [if_pos (isPrefixOf_append_left _ _ _ (by decide))]
  rw [hrepl1, hrepl2]
  rw [trimStr_append_left_all "   ".data _ (by decide)]
  rw [join3_trim order m0 ms]
  rw [if_neg (by
    simp only [List.isEmpty_iff]
    exact join_ne_nil "   ".data ((m0 :: ms).map (candidate_to_id order))
      (by simp) (ids_tok_ne_nil order (m0 :: ms)))]
  rw [pySplit_join3 _ (by simp) (fun i hi => ⟨(ids_facts order (m0 :: ms) i hi).1,
    (ids_facts order (m0 :: ms) i hi).2.2.2.2.1⟩)]
  rw [map_noopS trimStr _ (fun i hi => (ids_facts order (m0 :: ms) i hi).2.1)]
  rw [filter_nonempty_all _ (ids_tok_ne_nil order (m0 :: ms))]
  rw [← List.map_append]

theorem dots_line_trim (order : List Name) (m0 : Name) (ms : List Name) :
    trimStr (("  ... > ".data ++
        joinSep " > ".data ((m0 :: ms).map (candidate_to_id order))) ++ " ".data) =
      "... > ".data ++ joinSep " > ".data ((m0 :: ms).map (candidate_to_id order)) := by
  rw [trimStr_append_right_all _ " ".data (by decide)]
  have hsh : "  ... > ".data ++ joinSep " > ".data ((m0 :: ms).map (candidate_to_id order)) =
      ' ' :: (' ' :: ("... > ".data ++
        joinSep " > ".data ((m0 :: ms).map (candidate_to_id order)))) := by
    simp
  rw [hsh, trimStr_cons_ws _ _ (by decide), trimStr_cons_ws _ _ (by decide)]
  apply trimStr_eq_self
  · intro c hc
    rw [head?_append_left _ _ (by decide)] at hc
    have : c = '.' := by simpa using hc.symm
    rw [this]
    decide
  · intro c hc
    rw [List.getLast?_append_of_ne_nil _ (join_ne_nil " > ".data _
      (by simp) (ids_tok_ne_nil order (m0 :: ms)))] at hc
    obtain ⟨w, hw, hlast⟩ := join_last_mem " > ".data ((m0 :: ms).map (candidate_to_id order))
      (by simp) (ids_tok_ne_nil order (m0 :: ms))
    rw [hlast] at hc
    exact (ids_facts order (m0 :: ms) w hw).2.2.2.2.1 c
      (List.mem_of_mem_getLast? (by simp [hc]))

theorem profStep_dots_line (order : List Name) (pr : ProfileZ)
    (pfx suf : Ranking) (hsuf : suf ≠ []) (cnt : Nat)
    (hnames : ∀ n ∈ pfx ++ suf, n ∈ order) :
    profStep (legendOf 0 order)
      (some ⟨true, false, pfx.map (candidate_to_id order), pr⟩)
      ("  ... > ".data ++ joinSep " > ".data (suf.map (candidate_to_id order)) ++
        " : ".data ++ natDigits cnt) =
    some ⟨true, false, pfx.map (candidate_to_id order),
      dictSet pr (pfx ++ suf) ((cnt : Nat) : Int)⟩ := by
  obtain ⟨m0, ms, rfl⟩ : ∃ m0 ms, suf = m0 :: ms := by
    cases suf with
    | nil => exact absurd rfl hsuf
    | cons m0 ms => exact ⟨m0, ms, rfl⟩
  have hhead : ("  ... > ".data ++
      joinSep " > ".data ((m0 :: ms).map (candidate_to_id order)) ++
      " : ".data ++ natDigits cnt).head? = some ' ' := by
    rw [head?_append_left _ _ (append_ne_nil_left _ _ (append_ne_nil_left _ _ (by decide)))]
    rw [head?_append_left _ _ (append_ne_nil_left _ _ (by decide))]
    rw [head?_append_left _ _ (by decide)]
    rfl
  have hnc : ∀ c ∈ "  ... > ".data ++
      joinSep " > ".data ((m0 :: ms).map (candidate_to_id order)), (c == ':') = false := by
    intro c hc
    rcases List.mem_append.mp hc with h1 | h1
    · rcases (by simpa using h1 : c = ' ' ∨ c = ' ' ∨ c = '.' ∨ c = '.' ∨ c = '.' ∨
        c = ' ' ∨ c = '>' ∨ c = ' ') with h2 | h2 | h2 | h2 | h2 | h2 | h2 | h2 <;>
        (rw [h2]; decide)
    · exact idsJoin_no_colon order (m0 :: ms) c h1
  rw [profStep_data _ _ _
    ("  ... > ".data ++ joinSep " > ".data ((m0 :: ms).map (candidate_to_id order)) ++
      " ".data)
    (" ".data ++ natDigits cnt) rfl rfl
    (isPrefixOf_false_of_head 'P' "REFERENCE PROFILE".data _ ' ' hhead (by decide))
    (isPrefixOf_false_of_head 'E' "ND OF ABSTRACT".data _ ' ' hhead (by decide))
    (isPrefixOf_false_of_head 'P' "REFIX:".data _ ' ' hhead (by decide))
    (contains_colon_countLine _ cnt)
    (splitColon_countLine _ cnt hnc)
    ((cnt : Nat) : Int) (pyInt_count_side cnt)
    ((pfx ++ m0 :: ms)) (by
      rw [show ("  ... > ".data ++
          joinSep " > ".data ((m0 :: ms).map (candidate_to_id order)) ++ " ".data) =
        (("  ... > ".data ++
          joinSep " > ".data ((m0 :: ms).map (candidate_to_id order))) ++ " ".data) from rfl]
      rw [dots_line_trim order m0 ms]
      rw [dots_classify order pfx m0 ms]
      exact translate_roundtrip order (pfx ++ m0 :: ms) hnames)]

theorem fold_full_lines (order : List Name) (ms : ProfileN) : ∀ (cp : List Str) (pr : ProfileZ),
    (∀ m ∈ ms, ∀ n ∈ m.1, n ∈ order) →
    (∀ m ∈ ms, m.1 ∉ pr.map Prod.fst) →
    ((ms.map Prod.fst).Nodup) →
    (ms.map (fun m => format_ranking (candidate_to_id order) m.1 ++ " : ".data ++
      natDigits m.2)).foldl (profStep (legendOf 0 order)) (some ⟨true, false, cp, pr⟩) =
      some ⟨true, false, cp, pr ++ natProfileZ ms⟩ := by
  induction ms with
  | nil => intro cp pr _ _ _; simp [natProfileZ]
  | cons m t ih =>
    intro cp pr hnames hfresh hnd
    simp only [List.map_cons, List.foldl_cons]
    rw [profStep_full_line order cp pr m.1 m.2 (hnames m (by simp))]
    rw [dictSet_of_not_mem pr m.1 _ (hfresh m (by simp))]
    have hnd' : ((m :: t).map Prod.fst).Nodup := hnd
    simp only [List.map_cons, List.nodup_cons] at hnd'
    rw [ih cp (pr ++ [(m.1, ((m.2 : Nat) : Int))])
      (fun x hx => hnames x (by simp [hx]))
      (by
        intro x hx hcon
        rw [List.map_append] at hcon
        rcases List.mem_append.mp hcon with h1 | h1
        · exact hfresh x (by simp [hx]) h1
        · have hx1 : x.1 = m.1 := by simpa using h1
          exact hnd'.1 (hx1 ▸ List.mem_map_of_mem Prod.fst hx)
      )
      hnd'.2]
    rw [List.append_assoc]
    rfl

theorem fold_member_lines (order : List Name) (pfx : Ranking) (ms : ProfileN) :
    ∀ pr : ProfileZ,
    (∀ m ∈ ms, ∀ n ∈ m.1, n ∈ order) →
    (∀ m ∈ ms, pfx <+: m.1) →
    (∀ m ∈ ms, m.1 ∉ pr.map Prod.fst) →
    ((ms.map Prod.fst).Nodup) →
    (∀ n ∈ pfx, n ∈ order) →
    (ms.map (memberLine (candidate_to_id order) pfx.length)).foldl
      (profStep (legendOf 0 order))
      (some ⟨true, false, pfx.map (candidate_to_id order), pr⟩) =
      some ⟨true, false, pfx.map (candidate_to_id order), pr ++ natProfileZ ms⟩ := by
  induction ms with
  | nil => intro pr _ _ _ _ _; simp [natProfileZ]
  | cons m t ih =>
    intro pr hnames hpfx hfresh hnd hpn
    obtain ⟨tail, htail⟩ := hpfx m (by simp)
    have hdrop : m.1.drop pfx.length = tail := by
      rw [← htail]
      simp
    have hnd' : ((m :: t).map Prod.fst).Nodup := hnd
    simp only [List.map_cons, List.nodup_cons] at hnd'
    have hstep : profStep (legendOf 0 order)
        (some ⟨true, false, pfx.map (candidate_to_id order), pr⟩)
        (memberLine (candidate_to_id order) pfx.length m) =
        some ⟨true, false, pfx.map (candidate_to_id order),
          dictSet pr m.1 ((m.2 : Nat) : Int)⟩ := by
      unfold memberLine
      by_cases hs : (m.1.drop pfx.length).isEmpty = true
      · rw [if_pos hs]
        have htl : tail = [] := by
          rw [← hdrop]
          simpa using hs
        have hm1 : m.1 = pfx := by
          rw [← htail, htl]
          simp
        rw [hm1]
        exact profStep_exact_line order pr pfx m.2 hpn
      · rw [if_neg hs]
        have htl : tail ≠ [] := by
          intro hcon
          rw [← hdrop] at hcon
          rw [hcon] at hs
          exact hs rfl
        rw [hdrop]
        have h0 := profStep_dots_line order pr pfx tail htl m.2
          (by
            rw [htail]
            exact hnames m (by simp))
        rw [htail] at h0
        exact h0
    simp only [List.map_cons, List.foldl_cons]
    rw [hstep]
    rw [dictSet_of_not_mem pr m.1 _ (hfresh m (by simp))]
    rw [ih (pr ++ [(m.1, ((m.2 : Nat) : Int))])
      (fun x hx => hnames x (by simp [hx]))
      (fun x hx => hpfx x (by simp [hx]))
      (by
        intro x hx hcon
        rw [List.map_append] at hcon
        rcases List.mem_append.mp hcon with h1 | h1
        · exact hfresh x (by simp [hx]) h1
        · have hx1 : x.1 = m.1 := by simpa using h1
          exact hnd'.1 (hx1 ▸ List.mem_map_of_mem Prod.fst hx))
      hnd'.2 hpn]
    rw [List.append_assoc]
    rfl

theorem fold_group (order : List Name) (g : Ranking × ProfileN) (cp : List Str)
    (pr : ProfileZ)
    (hnames : ∀ m ∈ g.2, ∀ n ∈ m.1, n ∈ order)
    (hpfx : ∀ m ∈ g.2, g.1 <+: m.1)
    (hfresh : ∀ m ∈ g.2, m.1 ∉ pr.map Prod.fst)
    (hnd : (g.2.map Prod.fst).Nodup)
    (hpn : ∀ n ∈ g.1, n ∈ order) :
    ∃ cp', (groupLines (candidate_to_id order) g).foldl (profStep (legendOf 0 order))
        (some ⟨true, false, cp, pr⟩) = some ⟨true, false, cp', pr ++ natProfileZ g.2⟩ := by
  unfold groupLines
  by_cases hp : g.1.isEmpty = true
  · rw [if_pos hp]
    exact ⟨cp, fold_full_lines order g.2 cp pr hnames hfresh hnd⟩
  · rw [if_neg hp]
    have hpne : g.1 ≠ [] := by
      intro hcon
      rw [hcon] at hp
      exact hp rfl
    refine ⟨g.1.map (candidate_to_id order), ?_⟩
    simp only [List.foldl_cons]
    rw [profStep_pfx_line order cp pr g.1 hpne]
    rw [profStep_noColon _ _ dash80 rfl rfl (by decide) (by decide) (by decide) (by decide)]
    rw [List.foldl_append]
    rw [fold_member_lines order g.1 g.2 pr hnames hpfx hfresh hnd hpn]
    simp only [List.foldl_cons, List.foldl_nil]
    rw [profStep_noColon _ _ ([] : Str) rfl rfl (by decide) (by decide) (by decide) rfl]

theorem fold_groups (order : List Name) (gs : List (Ranking × ProfileN)) :
    ∀ (cp : List Str) (pr : ProfileZ),
    (∀ g ∈ gs, ∀ m ∈ g.2, ∀ n ∈ m.1, n ∈ order) →
    (∀ g ∈ gs, ∀ m ∈ g.2, g.1 <+: m.1) →
    (∀ m ∈ (gs.map Prod.snd).flatten, m.1 ∉ pr.map Prod.fst) →
    (((gs.map Prod.snd).flatten.map Prod.fst).Nodup) →
    (∀ g ∈ gs, ∀ n ∈ g.1, n ∈ order) →
    ∃ cp', ((gs.map (groupLines (candidate_to_id order))).flatten).foldl
        (profStep (legendOf 0 order)) (some ⟨true, false, cp, pr⟩) =
      some ⟨true, false, cp', pr ++ natProfileZ (gs.map Prod.snd).flatten⟩ := by
  induction gs with
  | nil => intro cp pr _ _ _ _ _; exact ⟨cp, by simp [natProfileZ]⟩
  | cons g t ih =>
    intro cp pr hnames hpfx hfresh hnd hpn
    have hndflat : ((g.2.map Prod.fst) ++ ((t.map Prod.snd).flatten.map Prod.fst)).Nodup := by
      have h0 : ((g :: t).map Prod.snd).flatten = g.2 ++ (t.map Prod.snd).flatten := by
        simp
      rw [h0, List.map_append] at hnd
      exact hnd
    rw [List.nodup_append] at hndflat
    obtain ⟨cp1, hg⟩ := fold_group order g cp pr (hnames g (by simp)) (hpfx g (by simp))
      (fun m hm => hfresh m (by simp [hm])) hndflat.1 (hpn g (by simp))
    simp only [List.map_cons, List.flatten_cons]
    rw [List.foldl_append, hg]
    obtain ⟨cp2, ht⟩ := ih cp1 (pr ++ natProfileZ g.2)
      (fun x hx => hnames x (by simp [hx]))
      (fun x hx => hpfx x (by simp [hx]))
      (by
        intro m hm hcon
        rw [List.map_append] at hcon
        rcases List.mem_append.mp hcon with h1 | h1
        · exact hfresh m (by simp [hm]) h1
        · have h2 : m.1 ∈ g.2.map Prod.fst := by
            unfold natProfileZ at h1
            rw [List.map_map] at h1
            simpa using h1
          exact hndflat.2.2 h2 (List.mem_map_of_mem Prod.fst hm))
      hndflat.2.1
      (fun x hx => hpn x (by simp [hx]))
    refine ⟨cp2, ?_⟩
    rw [ht, List.append_assoc]
    rw [show natProfileZ g.2 ++ natProfileZ ((t.map Prod.snd).flatten) =
      natProfileZ (g.2 ++ (t.map Prod.snd).flatten) from (List.map_append _ _ _).symm]

theorem genPG_snd_ne_nil (mgs mw : Nat) (sr : ProfileN) :
    ∀ g ∈ generate_prefix_groups mgs mw sr, g.2 ≠ [] := by
  have H : ∀ n (sr : ProfileN), sr.length ≤ n →
      ∀ g ∈ generate_prefix_groups mgs mw sr, g.2 ≠ [] := by
    intro n
    induction n with
    | zero =>
      intro sr h
      have h0 : sr = [] := List.length_eq_zero.mp (Nat.le_zero.mp h)
      subst h0
      rw [genPG_nil]
      intro g hg
      simp at hg
    | succ n ih =>
      intro sr hlen
      cases sr with
      | nil =>
        rw [genPG_nil]
        intro g hg
        simp at hg
      | cons x xs =>
        by_cases hbp : (bestWindow mgs mw (x :: xs)).1.isEmpty
        · rw [genPG_cons_pos mgs mw x xs hbp]
          intro g hg
          rcases List.mem_cons.mp hg with h1 | h1
          · rw [h1]
            simp
          · exact ih xs (by simp at hlen; omega) g h1
        · have hbp2 : (bestWindow mgs mw (x :: xs)).1.isEmpty = false := by
            simpa using hbp
          rw [genPG_cons_neg mgs mw x xs hbp2]
          intro g hg
          rcases List.mem_cons.mp hg with h1 | h1
          · rw [h1]
            simp
          · exact ih _ (by simp [List.length_drop] at hlen ⊢; omega) g h1
  exact H sr.length sr (Nat.le_refl _)

theorem lookupP_natProfileZ (M : ProfileN) (r : Ranking) :
    lookupP (natProfileZ M) r = (lookupP M r).map (fun c => ((c : Nat) : Int)) := by
  induction M with
  | nil => rfl
  | cons e t ih =>
    show lookupP ((e.1, ((e.2 : Nat) : Int)) :: natProfileZ t) r = _
    rw [lookupP_cons, lookupP_cons]
    by_cases h : e.1 = r
    · rw [if_pos h, if_pos h]
      rfl
    · rw [if_neg h, if_neg h, ih]

theorem lookupP_perm {K V : Type} [DecidableEq K] (m1 m2 : List (K × V))
    (h : List.Perm m1 m2) (hnd : (m1.map Prod.fst).Nodup) (k : K) :
    lookupP m1 k = lookupP m2 k := by
  induction h with
  | nil => rfl
  | cons e h12 ih =>
    rw [lookupP_cons, lookupP_cons]
    by_cases he : e.1 = k
    · rw [if_pos he, if_pos he]
    · rw [if_neg he, if_neg he]
      exact ih (by
        simp only [List.map_cons, List.nodup_cons] at hnd
        exact hnd.2)
  | swap e1 e2 l =>
    rw [lookupP_cons, lookupP_cons, lookupP_cons, lookupP_cons]
    by_cases h1 : e1.1 = k
    · by_cases h2 : e2.1 = k
      · exfalso
        simp only [List.map_cons, List.nodup_cons, List.mem_cons] at hnd
        exact hnd.1 (Or.inl (h2.trans h1.symm))
      · simp [h1, h2]
    · by_cases h2 : e2.1 = k
      · simp [h1, h2]
      · simp [h1, h2]
  | trans h12 h23 ih1 ih2 =>
    rw [ih1 hnd]
    apply ih2
    have hpm : List.Perm _ _ := h12.map Prod.fst
    exact hpm.nodup hnd

theorem profile_fold_of_abstract (district mgs mw : Nat) (P : ProfileN)
    (hwf : wfProfile P) :
    ∃ cp, (generate_abstract district mgs mw P).foldl
        (profStep (legendOf 0 (get_canonical_candidate_order P)))
        (some ⟨false, false, [], []⟩) =
      some ⟨true, true, cp,
        natProfileZ (get_sorted_rankings (get_canonical_candidate_order P) P)⟩ := by
  have hordermem : ∀ (r : Ranking), r ∈ P.map Prod.fst → ∀ n ∈ r,
      n ∈ get_canonical_candidate_order P := by
    intro r hr n hn
    unfold get_canonical_candidate_order
    rw [(perm_sortByLt nameLt _).mem_iff, List.mem_dedup]
    exact List.mem_flatten.mpr ⟨r, hr, hn⟩
  have hperm : List.Perm (get_sorted_rankings (get_canonical_candidate_order P) P) P :=
    perm_sortByLt _ P
  have hndS : ((get_sorted_rankings (get_canonical_candidate_order P) P).map
      Prod.fst).Nodup := ((hperm.map Prod.fst).symm).nodup hwf.1
  have hmemS : ∀ m ∈ get_sorted_rankings (get_canonical_candidate_order P) P, m ∈ P :=
    fun m hm => hperm.mem_iff.mp hm
  have hflat := genPG_flatten mgs mw (get_sorted_rankings (get_canonical_candidate_order P) P)
  have hnamesG : ∀ g ∈ generate_prefix_groups mgs mw
      (get_sorted_rankings (get_canonical_candidate_order P) P), ∀ m ∈ g.2, ∀ n ∈ m.1,
      n ∈ get_canonical_candidate_order P := by
    intro g hg m hm n hn
    have hmflat : m ∈ ((generate_prefix_groups mgs mw
        (get_sorted_rankings (get_canonical_candidate_order P) P)).map Prod.snd).flatten :=
      List.mem_flatten.mpr ⟨g.2, List.mem_map_of_mem Prod.snd hg, hm⟩
    rw [hflat] at hmflat
    exact hordermem m.1 (List.mem_map_of_mem Prod.fst (hmemS m hmflat)) n hn
  obtain ⟨cp, hgroups⟩ := fold_groups (get_canonical_candidate_order P)
    (generate_prefix_groups mgs mw (get_sorted_rankings (get_canonical_candidate_order P) P))
    [] []
    hnamesG
    (genPG_mem_pfx mgs mw _)
    (fun m _ hcon => absurd hcon (by simp))
    (by rw [hflat]; exact hndS)
    (by
      intro g hg n hn
      have hne := genPG_snd_ne_nil mgs mw _ g hg
      obtain ⟨m0, ms0, hm0⟩ : ∃ m0 ms0, g.2 = m0 :: ms0 := by
        cases hg2 : g.2 with
        | nil => exact absurd hg2 hne
        | cons m0 ms0 => exact ⟨m0, ms0, rfl⟩
      have hpfx0 := genPG_mem_pfx mgs mw _ g hg m0 (by rw [hm0]; simp)
      exact hnamesG g hg m0 (by rw [hm0]; simp) n (hpfx0.sublist.subset hn))
  rw [hflat] at hgroups
  have hA : ([ eq80
    , "ABSTRACT OF VOTES - CITY COUNCIL DISTRICT ".data ++ natDigits district
    , "City of Portland, Oregon".data
    , "November 2024 General Election".data
    , eq80
    , []
    , "CONTEST INFORMATION".data
    , dash80
    , "Contest: City Council District ".data ++ natDigits district
    , "Election Method: Single Transferable Vote (STV)".data
    , "Seats: 3".data
    , "Total Ballots with Rankings: ".data ++ natDigits (sumCounts P)
    , "Unique Ranking Expressions: ".data ++ natDigits P.length
    , []
    , "CANDIDATE LEGEND".data
    , dash80
    ] : List Str).foldl (profStep (legendOf 0 (get_canonical_candidate_order P)))
      (some ⟨false, false, [], []⟩) = some ⟨false, false, [], []⟩ := rfl
  have hLeg : (legendLines (get_canonical_candidate_order P)).foldl
      (profStep (legendOf 0 (get_canonical_candidate_order P)))
      (some ⟨false, false, [], []⟩) = some ⟨false, false, [], []⟩ := by
    apply foldl_profStep_preMarker _ _ _ rfl rfl
    intro l hl
    obtain ⟨p, hp, hpl⟩ := List.mem_map.mp hl
    rw [← hpl]
    exact ⟨(legendLine_checks p.1 p.2).2.1, (legendLine_checks p.1 p.2).2.2.1⟩
  have hB : ([ [], "EXPLANATION".data, dash80 ] : List Str).foldl
      (profStep (legendOf 0 (get_canonical_candidate_order P)))
      (some ⟨false, false, [], []⟩) = some ⟨false, false, [], []⟩ := rfl
  have hC : explanationLines.foldl
      (profStep (legendOf 0 (get_canonical_candidate_order P)))
      (some ⟨false, false, [], []⟩) = some ⟨false, false, [], []⟩ := rfl
  have hMid : ([ "PREFERENCE PROFILE (PREFIX-COMPRESSED)".data, eq80, [] ] : List Str).foldl
      (profStep (legendOf 0 (get_canonical_candidate_order P)))
      (some ⟨false, false, [], []⟩) = some ⟨true, false, [], []⟩ := rfl
  have hD : ∀ (cpx : List Str) (prx : ProfileZ), ([ []
    , eq80
    , "END OF ABSTRACT".data
    , "Total ranking expressions: ".data ++ natDigits
        (((generate_prefix_groups mgs mw (get_sorted_rankings
          (get_canonical_candidate_order P) P)).map (fun g => g.2.length)).sum)
    , "Total ballots: ".data ++ natDigits (sumCounts (get_sorted_rankings
        (get_canonical_candidate_order P) P))
    , eq80
    ] : List Str).foldl (profStep (legendOf 0 (get_canonical_candidate_order P)))
      (some ⟨true, false, cpx, prx⟩) = some ⟨true, true, cpx, prx⟩ := fun _ _ => rfl
  refine ⟨cp, ?_⟩
  unfold generate_abstract
  dsimp only
  rw [List.foldl_append, List.foldl_append, List.foldl_append, List.foldl_append,
    List.foldl_append, List.foldl_append]
  rw [hA, hLeg, hB, hC, hMid]
  rw [hgroups]
  rw [List.nil_append]
  exact hD cp _

/-- C1: for every well-formed preference profile (distinct rankings, positive
counts, well-formed candidate names) and every `min_group_size`/`max_window`
configuration, decoding the abstract written by the encoder reconstructs the
profile exactly: decoding succeeds, and the reconstructed profile maps every
ranking to exactly the count the original profile gives it (and to none
otherwise). -/
theorem claim_C1_roundtrip (district mgs mw : Nat) (P : ProfileN) (hwf : wfProfile P) :
    ∃ prof leg,
      load_abstract_profile (generate_abstract district mgs mw P) = some (prof, leg) ∧
      ∀ r : Ranking, lookupP prof r = (lookupP P r).map (fun c => ((c : Nat) : Int)) := by
  have horder_wf : ∀ n ∈ get_canonical_candidate_order P, wfName n := by
    intro n hn
    unfold get_canonical_candidate_order at hn
    rw [(perm_sortByLt nameLt _).mem_iff, List.mem_dedup] at hn
    obtain ⟨r, hr, hnr⟩ := List.mem_flatten.mp hn
    exact hwf.2.2 r hr n hnr
  have hleg := legend_of_abstract district mgs mw P horder_wf
  obtain ⟨cp, hfold⟩ := profile_fold_of_abstract district mgs mw P hwf
  have hperm : List.Perm (get_sorted_rankings (get_canonical_candidate_order P) P) P :=
    perm_sortByLt _ P
  have hndS : ((get_sorted_rankings (get_canonical_candidate_order P) P).map
      Prod.fst).Nodup := ((hperm.map Prod.fst).symm).nodup hwf.1
  refine ⟨natProfileZ (get_sorted_rankings (get_canonical_candidate_order P) P),
    legendOf 0 (get_canonical_candidate_order P), ?_, ?_⟩
  · unfold load_abstract_profile
    rw [hleg]
    dsimp only
    rw [hfold]
  · intro r
    rw [lookupP_natProfileZ]
    rw [lookupP_perm _ P hperm hndS r]

/-- Witness for `claim_C1_roundtrip` on a concrete three-ranking profile. -/
theorem claim_C1_witness :
    wfProfile exampleProfile ∧
      ∃ prof leg,
        load_abstract_profile (generate_abstract 1 2 200 exampleProfile) =
          some (prof, leg) ∧
        ∀ r : Ranking, lookupP prof r =
          (lookupP exampleProfile r).map (fun c => ((c : Nat) : Int)) :=
  ⟨by decide, claim_C1_roundtrip 1 2 200 exampleProfile (by decide)⟩
